import Mathlib

/-!
Discrete fuzzy sets and fuzzy relations.

A shallow embedding of `fuzzy_set.tpp` and `fuzzy_relation.tpp`.

* A `std::unordered_map<K, double>` is the list of its entries in iteration
  order (`UMap K`).  A map the program can hold has pairwise distinct keys
  (`UMap.WF`); the order of the entries is arbitrary, and every theorem is
  stated for all orders.
* A function that throws returns `Except FuzzyError _`.
* A `double` membership degree is held in two ways. In `FuzzySet` and
  `FuzzyRelation` it is the exact rational number that a formula of the source
  denotes: the statements about the key set and the value of one operation are
  made there. In `IEEE.FuzzySet` and `IEEE.FuzzyRelation` it is a binary64
  value (`Double`): NaN, an infinity or a finite number, with `<` and `>` false
  on NaN, `std::max` and `std::min` as the conditional expressions of the
  standard library, and subtraction rounded to nearest, ties to even. The
  statements that compare two computations, or that depend on what a NaN or a
  rounding does, are made there.
-/

set_option linter.unusedSectionVars false

namespace Fuzzy

/-- Entries of a `std::unordered_map<K, double>`, in iteration order. -/
abbrev UMap (K : Type) := List (K × ℚ)

namespace UMap

variable {K : Type} [DecidableEq K]

/-- The keys of the map, in iteration order. -/
def keys (m : UMap K) : List K := m.map Prod.fst

/-- A map holds every key at most once. -/
def WF (m : UMap K) : Prop := (keys m).Nodup

instance (m : UMap K) : Decidable (WF m) := inferInstanceAs (Decidable (keys m).Nodup)

/-- Every stored degree lies in `[0, 1]`. -/
def InRange (m : UMap K) : Prop := ∀ e ∈ m, 0 ≤ e.2 ∧ e.2 ≤ 1

instance (m : UMap K) : Decidable (InRange m) :=
  inferInstanceAs (Decidable (∀ e ∈ m, 0 ≤ e.2 ∧ e.2 ≤ 1))

/-- The stored value of key `k`, if any: `find(k)`. -/
def lookup : UMap K → K → Option ℚ
  | [], _ => none
  | (k', v) :: m, k => if k' = k then some v else lookup m k

/-- The member `contains(k)`. -/
def contains (m : UMap K) (k : K) : Bool := (lookup m k).isSome

/-- The member `size()`. -/
def size (m : UMap K) : Nat := m.length

/-- The assignment `m[k] = v`: overwrites the value of a present key, adds the
entry otherwise. -/
def assign : UMap K → K → ℚ → UMap K
  | [], k, v => [(k, v)]
  | (k', v') :: m, k, v => if k' = k then (k', v) :: m else (k', v') :: assign m k v

/-- The member `insert({k, v})`: adds the entry unless the key is present. -/
def insert (m : UMap K) (k : K) (v : ℚ) : UMap K :=
  if contains m k then m else m ++ [(k, v)]

/-- The member `erase(k)`. -/
def erase (m : UMap K) (k : K) : UMap K := m.filter (fun e => decide (e.1 ≠ k))

/-- The map `m` collects the greatest contribution per key: a key holds the
greatest degree `w` with `C k w`, and is absent when there is none. -/
def Collects (m : UMap K) (C : K → ℚ → Prop) : Prop :=
  WF m ∧
  (∀ k v, lookup m k = some v → C k v ∧ ∀ w, C k w → w ≤ v) ∧
  (∀ k, lookup m k = none → ∀ w, ¬ C k w)

end UMap

/-- The class `FuzzySet<T>`: its only member is the map `data_`. -/
structure FuzzySet (K : Type) where
  data_ : UMap K
deriving DecidableEq

/-- The errors the library signals by throwing. -/
inductive FuzzyError where
  | out_of_range
  | invalid_argument
  | matrix_size
  | unite_order
  | intersect_order
  | not_composable
deriving DecidableEq, Repr

deriving instance DecidableEq for Except

/-- The enumeration `ImplicationType`. -/
inductive ImplicationType where
  | ALGPRODUCT
  | MINIMUM
  | ZADEHARITHMETIC
  | ZADEHMAXMIN
deriving DecidableEq, Repr

/-- The double loop that fills a map of pairs from two maps: for every entry of
`left` and every entry of `right`, `insert({{a_key, b_key}, rule(a_value, b_value)})`. -/
def cartesian_insert {K : Type} [DecidableEq K] (left right : UMap K) (rule : ℚ → ℚ → ℚ) :
    UMap (K × K) :=
  left.foldl
    (fun data a => right.foldl (fun data b => UMap.insert data (a.1, b.1) (rule a.2 b.2)) data) []

namespace FuzzySet

variable {K : Type} [DecidableEq K]

/-- The member `insert(key, value)`: a degree outside `[0, 1]` or a present key
is rejected with a diagnostic, and the set is left as it was. -/
def insert (self : FuzzySet K) (key : K) (value : ℚ) : FuzzySet K :=
  if value < 0 ∨ value > 1 ∨ UMap.contains self.data_ key = true then self
  else ⟨UMap.insert self.data_ key value⟩

/-- The default constructor `FuzzySet()`: the empty set. -/
def empty : FuzzySet K := ⟨[]⟩

/-- One iteration of the loop of the constructor from a literal list, on
`pair`: an entry with a degree outside `[0, 1]` or a present key is skipped with
a diagnostic, any other is stored by `data_[pair.first] = pair.second`. -/
def fromList_step (data : UMap K) (pair : K × ℚ) : UMap K :=
  if pair.2 < 0 ∨ pair.2 > 1 ∨ UMap.contains data pair.1 = true then data
  else UMap.assign data pair.1 pair.2

/-- The constructor `FuzzySet(const std::initializer_list<std::pair<T, double>>&)`. -/
def fromList (data : List (K × ℚ)) : FuzzySet K :=
  ⟨data.foldl fromList_step []⟩

/-- The constructor `FuzzySet(const std::unordered_map<T, double>&)`: the map is
copied into `data_`. -/
def fromMap (data : UMap K) : FuzzySet K := ⟨data⟩

/-- The member `erase(key)`; `erase(element)` calls it with `element.first`. -/
def erase (self : FuzzySet K) (key : K) : FuzzySet K := ⟨UMap.erase self.data_ key⟩

/-- The member `operator==`. -/
def operator_eq (self other : FuzzySet K) : Bool :=
  if UMap.size self.data_ ≠ UMap.size other.data_ then false
  else
    self.data_.all (fun pair =>
      match UMap.lookup other.data_ pair.1 with
      | none => false
      | some o => !decide (|o - pair.2| > 10e-12))

/-- The member `operator!=`. -/
def operator_ne (self other : FuzzySet K) : Bool := !(self.operator_eq other)

/-- The member `at(element)`, a `const` member: the stored degree, or the
exception of `std::unordered_map::at` when the key is absent. -/
def «at» (self : FuzzySet K) (element : K) : Except FuzzyError ℚ :=
  match UMap.lookup self.data_ element with
  | some v => Except.ok v
  | none => Except.error FuzzyError.out_of_range

/-- The member `operator[](element)`: the degree the returned reference points
to, and the set after the call; an absent key is added with the degree `0`. -/
def operator_index (self : FuzzySet K) (element : K) : ℚ × FuzzySet K :=
  match UMap.lookup self.data_ element with
  | some v => (v, self)
  | none => (0, ⟨UMap.assign self.data_ element 0⟩)

/-- One iteration of the loop of `Unite`, on `pair` of `other.data_`. -/
def Unite_step (data : UMap K) (pair : K × ℚ) : UMap K :=
  match UMap.lookup data pair.1 with
  | some cur => UMap.assign data pair.1 (max cur pair.2)
  | none => UMap.assign data pair.1 pair.2

/-- The member `Unite`: the value of `*this` after the call. -/
def Unite (self other : FuzzySet K) : FuzzySet K :=
  ⟨other.data_.foldl Unite_step self.data_⟩

/-- One iteration of the loop of `Intersect`, on the entry `pair` the iterator
points to: the entry is overwritten when `other` has the key, erased otherwise. -/
def Intersect_step (other : FuzzySet K) (data : UMap K) (pair : K × ℚ) : UMap K :=
  match UMap.lookup other.data_ pair.1 with
  | some o => UMap.assign data pair.1 (min pair.2 o)
  | none => UMap.erase data pair.1

/-- The member `Intersect`: the iterator visits every entry of `*this` once. -/
def Intersect (self other : FuzzySet K) : FuzzySet K :=
  ⟨self.data_.foldl (Intersect_step other) self.data_⟩

/-- The member `Complement`. -/
def Complement (self : FuzzySet K) : FuzzySet K :=
  ⟨self.data_.foldl (fun data pair => UMap.assign data pair.1 (1 - pair.2)) self.data_⟩

/-- The member `Union`: `Unite` on a copy. -/
def Union (self other : FuzzySet K) : FuzzySet K :=
  let result := self
  result.Unite other

/-- The member `Intersection`: `Intersect` on a copy. -/
def Intersection (self other : FuzzySet K) : FuzzySet K :=
  let result := self
  result.Intersect other

/-- The member `Complementation`: `Complement` on a copy. -/
def Complementation (self : FuzzySet K) : FuzzySet K :=
  let result := self
  result.Complement

/-- The member `operator+`: it returns `Union(other)`. The pair is the returned
set and `*this` after the call. -/
def operator_add (self other : FuzzySet K) : FuzzySet K × FuzzySet K :=
  (self.Union other, self)

/-- The member `operator*`: it returns `Intersect(other)`, a copy of `*this`
after the member that intersects in place. The pair is the returned set and
`*this` after the call. -/
def operator_mul (self other : FuzzySet K) : FuzzySet K × FuzzySet K :=
  let this_after := self.Intersect other
  (this_after, this_after)

end FuzzySet

/-- The free function `Union(left, right)` on fuzzy sets. -/
def Union {K : Type} [DecidableEq K] (left right : FuzzySet K) : FuzzySet K :=
  left.Union right

/-- The free function `Intersection(left, right)` on fuzzy sets. -/
def Intersection {K : Type} [DecidableEq K] (left right : FuzzySet K) : FuzzySet K :=
  left.Intersection right

/-- The free function `Complementation(elem)` on fuzzy sets: it returns
`elem.Complement()`, the member that complements in place. The pair is the
returned set and `elem` after the call. The parameter is a reference to `const`,
so a compiler rejects the call once the template is instantiated; the pair is
what the body does with the qualifier set aside. -/
def Complementation {K : Type} [DecidableEq K] (elem : FuzzySet K) : FuzzySet K × FuzzySet K :=
  let elem_after := elem.Complement
  (elem_after, elem_after)

/-- The helper `CRelation(left, right)`: the three maps it builds, in turn. -/
def CRelation {K : Type} [DecidableEq K] (left right : FuzzySet K) : UMap (K × K) :=
  let A_complement := left.Complementation
  let A_B_relation := cartesian_insert left.data_ right.data_ (fun a_value b_value => min a_value b_value)
  let A_complement_B_relation :=
    cartesian_insert A_complement.data_ right.data_ (fun a_value _ => min a_value 1)
  A_B_relation.foldl
    (fun R_relation e =>
      UMap.assign R_relation e.1 (max e.2 ((UMap.lookup A_complement_B_relation e.1).getD 0)))
    []

namespace FuzzySet

variable {K : Type} [DecidableEq K]

/-- One iteration of the loop of `Implicate`, on `key` of the union. The four
enumerators are the four cases of the `switch`. -/
def Implicate_step (other : FuzzySet K) (type : ImplicationType) (data : UMap K) (key : K) :
    UMap K :=
  let value : ℚ := match UMap.lookup data key with
    | some v => v
    | none => -1
  let other_value : ℚ := match UMap.lookup other.data_ key with
    | some v => v
    | none => 0
  match type with
  | ImplicationType.ALGPRODUCT =>
    if value = -1 then UMap.assign data key 0 else UMap.assign data key (value * other_value)
  | ImplicationType.MINIMUM =>
    if value = -1 then UMap.assign data key 0 else UMap.assign data key (min value other_value)
  | ImplicationType.ZADEHARITHMETIC =>
    if value = -1 then UMap.assign data key 0
    else UMap.assign data key (min 1 (1 - value + other_value))
  | ImplicationType.ZADEHMAXMIN =>
    if value = -1 then UMap.assign data key 0
    else UMap.assign data key (max (1 - value) other_value)

/-- The member `Implicate`: the loop runs over the entries of the temporary
`::Union(*this, other)` and writes to `this->data_`. -/
def Implicate (self other : FuzzySet K) (type : ImplicationType) : FuzzySet K :=
  ⟨(Fuzzy.Union self other).data_.foldl
    (fun data e => Implicate_step other type data e.1) self.data_⟩

/-- The member `Implication`: `Implicate` on a copy. -/
def Implication (self other : FuzzySet K) (type : ImplicationType) : FuzzySet K :=
  let result := self
  result.Implicate other type

/-- The inner loop of the two reasoning members: the largest
`min(prime_value, R_relation.at(relation_key))` over the entries of `prime` whose
`relation_key` is in `R_relation`, starting from `0.0`. -/
def sup_min (R_relation : UMap (K × K)) (prime : UMap K) (relation_key : K → K × K) : ℚ :=
  prime.foldl
    (fun max_val a =>
      match UMap.lookup R_relation (relation_key a.1) with
      | some r => max max_val (min a.2 r)
      | none => max_val)
    0

/-- The member `GeneralizedModusPonens(right, left_prime)`. -/
def GeneralizedModusPonens (self right left_prime : FuzzySet K) : FuzzySet K :=
  let R_relation := CRelation self right
  right.data_.foldl
    (fun result b =>
      result.insert b.1
        (sup_min R_relation left_prime.data_ (fun a_prime_key => (a_prime_key, b.1))))
    ⟨[]⟩

/-- The member `GeneralizedModusTollens(right, right_prime)`. -/
def GeneralizedModusTollens (self right right_prime : FuzzySet K) : FuzzySet K :=
  let R_relation := CRelation self right
  self.data_.foldl
    (fun result b =>
      result.insert b.1
        (sup_min R_relation right_prime.data_ (fun a_prime_key => (b.1, a_prime_key))))
    ⟨[]⟩

end FuzzySet

/-- The class `FuzzyRelation<T>`: its only member is the map `data_` of pairs. -/
structure FuzzyRelation (K : Type) where
  data_ : UMap (K × K)
deriving DecidableEq

/-- The function `have_same_keys`. -/
def have_same_keys {K : Type} [DecidableEq K] (left right : UMap (K × K)) : Bool :=
  if UMap.size left ≠ UMap.size right then false
  else left.all (fun e => UMap.contains right e.1)

/-- A `std::unordered_set<T>::insert`, on the list of the elements. -/
def uset_insert {K : Type} [DecidableEq K] (s : List K) (x : K) : List K :=
  if x ∈ s then s else s ++ [x]

/-- The comparison `==` of two `std::unordered_set<T>`: equal sizes and every
element of the left one found in the right one. -/
def uset_eq {K : Type} [DecidableEq K] (a b : List K) : Bool :=
  decide (a.length = b.length) && a.all (fun x => decide (x ∈ b))

/-- The function `composable`. -/
def composable {K : Type} [DecidableEq K] (left right : UMap (K × K)) : Bool :=
  let left_second := left.foldl (fun s e => uset_insert s e.1.2) []
  let right_first := right.foldl (fun s e => uset_insert s e.1.1) []
  uset_eq left_second right_first

namespace FuzzyRelation

variable {K : Type} [DecidableEq K]

/-- The read `data[i][j]` of a `std::vector<std::vector<T>>`; `none` stands for
a read outside the bounds of a vector, which is undefined behaviour. -/
def matrix_read (data : List (List K)) (i j : Nat) : Option K :=
  (data[i]?).bind (fun data_i => data_i[j]?)

/-- The test of the matrix constructor that throws:
`data.size() != collumn.size() || (data.size() > 0 && data[0].size() != row.size())`. -/
def matrix_mismatch (data : List (List K)) (row collumn : List K) : Bool :=
  decide (data.length ≠ collumn.length) ||
    (decide (data.length > 0) &&
      match data with
      | [] => false
      | data_0 :: _ => decide (data_0.length ≠ row.length))

/-- The two loops of the matrix constructor, over `i < row.size()` and
`j < collumn.size()`: `insert({(row[i], collumn[j]), data[i][j]})`. The entries
of the matrix have the type `T` of the labels; `conv` is their conversion to
`double`. The result is `none` once a read was outside the bounds. -/
def fromMatrix_loop (conv : K → ℚ) (data : List (List K)) (row collumn : List K) :
    Option (UMap (K × K)) :=
  (List.range row.length).foldl
    (fun acc i =>
      (List.range collumn.length).foldl
        (fun acc j =>
          match acc, row[i]?, collumn[j]?, matrix_read data i j with
          | some d, some row_i, some collumn_j, some data_i_j =>
            some (UMap.insert d (row_i, collumn_j) (conv data_i_j))
          | _, _, _, _ => none)
        acc)
    (some [])

/-- The constructor `FuzzyRelation(data, row, collumn)` from a matrix and two
vectors of labels. -/
def fromMatrix (conv : K → ℚ) (data : List (List K)) (row collumn : List K) :
    Except FuzzyError (Option (FuzzyRelation K)) :=
  if matrix_mismatch data row collumn = true then Except.error FuzzyError.matrix_size
  else Except.ok ((fromMatrix_loop conv data row collumn).map FuzzyRelation.mk)

/-- The constructor `FuzzyRelation(left, right)` from two fuzzy sets. -/
def fromSets (left right : FuzzySet K) : FuzzyRelation K :=
  ⟨cartesian_insert left.data_ right.data_ (fun left_value right_value => min left_value right_value)⟩

/-- The loop of `Unite` and `Intersect`: every entry of `*this` is overwritten
with `combine(value, other.data_.at(key))`; `at` throws on a missing key. -/
def update_loop (combine : ℚ → ℚ → ℚ) (other : UMap (K × K)) :
    UMap (K × K) → Except FuzzyError (UMap (K × K))
  | [] => Except.ok []
  | (key, value) :: rest =>
    match UMap.lookup other key with
    | none => Except.error FuzzyError.out_of_range
    | some o =>
      match update_loop combine other rest with
      | Except.error e => Except.error e
      | Except.ok rest' => Except.ok ((key, combine value o) :: rest')

/-- The member `Unite`. -/
def Unite (self other : FuzzyRelation K) : Except FuzzyError (FuzzyRelation K) :=
  if !have_same_keys self.data_ other.data_ then Except.error FuzzyError.unite_order
  else
    match update_loop max other.data_ self.data_ with
    | Except.error e => Except.error e
    | Except.ok d => Except.ok ⟨d⟩

/-- The member `Intersect`. -/
def Intersect (self other : FuzzyRelation K) : Except FuzzyError (FuzzyRelation K) :=
  if !have_same_keys self.data_ other.data_ then Except.error FuzzyError.intersect_order
  else
    match update_loop min other.data_ self.data_ with
    | Except.error e => Except.error e
    | Except.ok d => Except.ok ⟨d⟩

/-- The member `Complement`: every stored degree becomes `1 - value`. -/
def Complement (self : FuzzyRelation K) : FuzzyRelation K :=
  ⟨self.data_.map (fun e => (e.1, 1 - e.2))⟩

/-- The member `Complementation`: `Complement` on a copy. -/
def Complementation (self : FuzzyRelation K) : FuzzyRelation K :=
  let result := self
  result.Complement

/-- The member `Union`: `Unite` on a copy. -/
def Union (self other : FuzzyRelation K) : Except FuzzyError (FuzzyRelation K) :=
  let result := self
  result.Unite other

/-- The member `Intersection`: `Intersect` on a copy. -/
def Intersection (self other : FuzzyRelation K) : Except FuzzyError (FuzzyRelation K) :=
  let result := self
  result.Intersect other

/-- The body of the inner loop of `Composition`, for the entry `((x, y), x_y)`
of `*this` and the entry `pair2` of `other`. -/
def Composition_step (x y : K) (x_y : ℚ) (result_data : UMap (K × K)) (pair2 : (K × K) × ℚ) :
    UMap (K × K) :=
  if y = pair2.1.1 then
    let z := pair2.1.2
    let y_z := pair2.2
    let min_val := min x_y y_z
    match UMap.lookup result_data (x, z) with
    | none => UMap.assign result_data (x, z) min_val
    | some cur => UMap.assign result_data (x, z) (max cur min_val)
  else result_data

/-- The member `Composition`. -/
def Composition (self other : FuzzyRelation K) : Except FuzzyError (FuzzyRelation K) :=
  if !composable self.data_ other.data_ then Except.error FuzzyError.not_composable
  else
    Except.ok ⟨self.data_.foldl
      (fun result_data pair1 =>
        other.data_.foldl (Composition_step pair1.1.1 pair1.1.2 pair1.2) result_data)
      []⟩

/-- The member `operator==`. -/
def operator_eq (self other : FuzzyRelation K) : Bool :=
  if UMap.size self.data_ ≠ UMap.size other.data_ then false
  else
    self.data_.all (fun pair =>
      match UMap.lookup other.data_ pair.1 with
      | none => false
      | some o => !decide (|o - pair.2| > 10e-12))

/-- The member `operator!=`. -/
def operator_ne (self other : FuzzyRelation K) : Bool := !(self.operator_eq other)

/-- The loop of `Unite` and `Intersect` with the state it leaves: the exception
of `at`, if one is thrown, and the entries of `*this` when the loop stops. -/
def update_loop_run (combine : ℚ → ℚ → ℚ) (other : UMap (K × K)) :
    UMap (K × K) → Option FuzzyError × UMap (K × K)
  | [] => (none, [])
  | (key, value) :: rest =>
    match UMap.lookup other key with
    | none => (some FuzzyError.out_of_range, (key, value) :: rest)
    | some o =>
      let r := update_loop_run combine other rest
      (r.1, (key, combine value o) :: r.2)

/-- The member `Unite` with the state it leaves: the exception thrown, if any,
and `*this` after the call. -/
def Unite_run (self other : FuzzyRelation K) : Option FuzzyError × FuzzyRelation K :=
  if !have_same_keys self.data_ other.data_ then (some FuzzyError.unite_order, self)
  else
    let r := update_loop_run max other.data_ self.data_
    (r.1, ⟨r.2⟩)

/-- The member `Intersect` with the state it leaves: the exception thrown, if
any, and `*this` after the call. -/
def Intersect_run (self other : FuzzyRelation K) : Option FuzzyError × FuzzyRelation K :=
  if !have_same_keys self.data_ other.data_ then (some FuzzyError.intersect_order, self)
  else
    let r := update_loop_run min other.data_ self.data_
    (r.1, ⟨r.2⟩)

/-- Modelled from the spec: the constructor
`FuzzyRelation(left, right, relation_rule)` is declared in `fuzzy_relation.hpp`
and its definition is missing. By the spec it is the Cartesian combination:
`R(x, y) = combine(A(x), B(y))` for every key `x` of `A` and `y` of `B`. -/
def fromSetsWith (left right : FuzzySet K) (relation_rule : ℚ → ℚ → ℚ) : FuzzyRelation K :=
  ⟨cartesian_insert left.data_ right.data_ relation_rule⟩

end FuzzyRelation

/-- The free functions on fuzzy relations; they overload the names of the free
functions on fuzzy sets. -/
def Relations.Union {K : Type} [DecidableEq K] (left right : FuzzyRelation K) :
    Except FuzzyError (FuzzyRelation K) :=
  left.Union right

/-- The free function `Intersection(left, right)` on fuzzy relations. -/
def Relations.Intersection {K : Type} [DecidableEq K] (left right : FuzzyRelation K) :
    Except FuzzyError (FuzzyRelation K) :=
  left.Intersection right

/-- The free function `Complementation(object)` on fuzzy relations. -/
def Relations.Complementation {K : Type} [DecidableEq K] (object : FuzzyRelation K) :
    FuzzyRelation K :=
  object.Complementation

/-- The free function `Composition(left, right)` on fuzzy relations. -/
def Relations.Composition {K : Type} [DecidableEq K] (left right : FuzzyRelation K) :
    Except FuzzyError (FuzzyRelation K) :=
  left.Composition right

/-- Modelled from the spec: the free function `Implication(left, right, type)`
is declared in `fuzzy_relation.hpp` and its definition is missing. By the spec
it builds the relation over the pairs of a key of `left` and a key of `right`
with the formula of the type at the two degrees. The spec leaves the formula of
the `ZADEHARITHMETIC` branch open; it is the parameter `zadeh_arithmetic`. -/
def Implication {K : Type} [DecidableEq K] (zadeh_arithmetic : ℚ → ℚ → ℚ)
    (left right : FuzzySet K) (type : ImplicationType) : FuzzyRelation K :=
  FuzzyRelation.fromSetsWith left right
    (match type with
      | ImplicationType.ALGPRODUCT => fun a b => a * b
      | ImplicationType.MINIMUM => fun a b => min a b
      | ImplicationType.ZADEHARITHMETIC => zadeh_arithmetic
      | ImplicationType.ZADEHMAXMIN => fun a b => max (1 - a) b)


/-- A value of the type `double`: NaN, an infinity, or a finite value, held as
the rational number it denotes. The two zeros compare equal under every
comparison of the source and are one value here. -/
inductive Double where
  | nan
  | ninf
  | fin (q : ℚ)
  | pinf
deriving DecidableEq

namespace Double

/-- The comparison `a < b` of two `double`s: false when an operand is NaN. -/
def lt : Double → Double → Bool
  | nan, _ => false
  | _, nan => false
  | ninf, ninf => false
  | ninf, _ => true
  | _, ninf => false
  | pinf, _ => false
  | fin _, pinf => true
  | fin a, fin b => decide (a < b)

/-- The comparison `a > b`. -/
def gt (a b : Double) : Bool := lt b a

/-- The comparison `a <= b`: false when an operand is NaN. -/
def le : Double → Double → Bool
  | nan, _ => false
  | _, nan => false
  | ninf, _ => true
  | _, ninf => false
  | _, pinf => true
  | pinf, _ => false
  | fin a, fin b => decide (a ≤ b)

/-- The function `std::max(a, b)`: `(a < b) ? b : a`. -/
def std_max (a b : Double) : Double := if lt a b then b else a

/-- The function `std::min(a, b)`: `(b < a) ? b : a`. -/
def std_min (a b : Double) : Double := if lt b a then b else a

/-- The loop of `nlog2`, with the fuel that bounds it. -/
def log2_loop : Nat → Nat → Nat
  | 0, _ => 0
  | fuel + 1, n => if n < 2 then 0 else log2_loop fuel (n / 2) + 1

/-- The position of the leading bit of `n`: the greatest `k` with `2 ^ k ≤ n`. -/
def nlog2 (n : Nat) : Nat := log2_loop n n

/-- The power `2 ^ e` for an integer `e`. -/
def pow2 (e : ℤ) : ℚ :=
  if 0 ≤ e then ((2 ^ e.toNat : ℕ) : ℚ) else 1 / ((2 ^ (-e).toNat : ℕ) : ℚ)

/-- The binary exponent of a rational `x ≠ 0`: the greatest `e` with
`2 ^ e ≤ |x|`. -/
def ilog2 (x : ℚ) : ℤ :=
  let n := x.num.natAbs
  let d := x.den
  let a := nlog2 n
  let b := nlog2 d
  if d * 2 ^ a ≤ n * 2 ^ b then (a : ℤ) - b else (a : ℤ) - b - 1

/-- The integer nearest to `x`, the even one of the two when `x` is halfway. -/
def roundEven (x : ℚ) : ℤ :=
  let f := ⌊x⌋
  let r := x - f
  if r < 1 / 2 then f
  else if 1 / 2 < r then f + 1
  else if f % 2 = 0 then f else f + 1

/-- The spacing of the binary64 values around `x ≠ 0`: 53 significant bits, and
`2 ^ (-1074)` in the subnormal range. -/
def ulp (x : ℚ) : ℚ := pow2 (max (ilog2 x - 52) (-1074))

/-- The binary64 value of the real number `x`: rounding to nearest, ties to
even; a result of magnitude `2 ^ 1024` or more is an infinity. -/
def nearest (x : ℚ) : Double :=
  if x = 0 then fin 0
  else
    let r := (roundEven (x / ulp x) : ℚ) * ulp x
    if pow2 1024 ≤ r then pinf
    else if r ≤ -pow2 1024 then ninf
    else fin r

/-- The subtraction `a - b` of two `double`s. -/
def sub : Double → Double → Double
  | nan, _ => nan
  | _, nan => nan
  | pinf, pinf => nan
  | ninf, ninf => nan
  | pinf, _ => pinf
  | ninf, _ => ninf
  | fin _, pinf => ninf
  | fin _, ninf => pinf
  | fin a, fin b => nearest (a - b)

/-- The function `double abs(double)`. -/
def fabs : Double → Double
  | nan => nan
  | ninf => pinf
  | pinf => pinf
  | fin q => fin |q|

/-- The conversion of a `double` to `int`: the fractional part is discarded;
the conversion is undefined (`none`) when the result is not a 32-bit `int`. -/
def to_int : Double → Option ℤ
  | fin q =>
    let t := if 0 ≤ q then ⌊q⌋ else ⌈q⌉
    if -2 ^ 31 ≤ t ∧ t < 2 ^ 31 then some t else none
  | _ => none

/-- The literal `10e-12`, the tolerance of `operator==`. -/
def tolerance : Double := nearest 10e-12

/-- The degree lies in `[0, 1]`. -/
def InUnit : Double → Prop
  | fin q => 0 ≤ q ∧ q ≤ 1
  | _ => False

instance (d : Double) : Decidable (InUnit d) := by
  cases d <;> unfold InUnit <;> infer_instance

/-- The value is a finite number: neither NaN nor an infinity. -/
def IsFinite : Double → Prop
  | fin _ => True
  | _ => False

instance (d : Double) : Decidable (IsFinite d) := by
  cases d <;> unfold IsFinite <;> infer_instance

/-- An order-preserving code of the `double`s in the rationals: NaN is `2`, the
infinities are `0` and `1`, the finite values lie strictly between. -/
def code : Double → ℚ
  | nan => 2
  | ninf => 0
  | pinf => 1
  | fin q => (1 + q / (1 + |q|)) / 2

end Double

/-- The function that the unqualified call `abs(x)` of `operator==` names. The
source calls `abs` without a namespace, and the declarations in scope where the
header is included decide the overload: `double abs(double)` when the overloads
of `std::abs` are visible in the global namespace (as in the tests of the
repository), `int abs(int)` of the C library otherwise. -/
inductive AbsOverload where
  | floating
  | integral
deriving DecidableEq

/-- The call `abs(x)` under an overload. With `int abs(int)` the argument is
converted to `int` and the result is an `int`; `none` is undefined behaviour. -/
def abs_call : AbsOverload → Double → Option Double
  | AbsOverload.floating, x => some (Double.fabs x)
  | AbsOverload.integral, x =>
    match Double.to_int x with
    | none => none
    | some i => if i = -2 ^ 31 then none else some (Double.fin |(i : ℚ)|)

namespace IEEE

/-- Entries of a `std::unordered_map<K, double>`, in iteration order, with the
degrees as binary64 values. -/
abbrev DMap (K : Type) := List (K × Double)

namespace DMap

variable {K : Type} [DecidableEq K]

/-- The keys of the map, in iteration order. -/
def keys (m : DMap K) : List K := m.map Prod.fst

/-- A map holds every key at most once. -/
def WF (m : DMap K) : Prop := (keys m).Nodup

instance (m : DMap K) : Decidable (WF m) := inferInstanceAs (Decidable (keys m).Nodup)

/-- Every stored degree lies in `[0, 1]`. -/
def InRange (m : DMap K) : Prop := ∀ e ∈ m, Double.InUnit e.2

instance (m : DMap K) : Decidable (InRange m) :=
  inferInstanceAs (Decidable (∀ e ∈ m, Double.InUnit e.2))

/-- No stored degree is NaN. -/
def NoNaN (m : DMap K) : Prop := ∀ e ∈ m, e.2 ≠ Double.nan

instance (m : DMap K) : Decidable (NoNaN m) :=
  inferInstanceAs (Decidable (∀ e ∈ m, e.2 ≠ Double.nan))

/-- Every stored degree is a finite number. -/
def Finite (m : DMap K) : Prop := ∀ e ∈ m, Double.IsFinite e.2

instance (m : DMap K) : Decidable (Finite m) :=
  inferInstanceAs (Decidable (∀ e ∈ m, Double.IsFinite e.2))

/-- The stored value of key `k`, if any: `find(k)`. -/
def lookup : DMap K → K → Option Double
  | [], _ => none
  | (k', v) :: m, k => if k' = k then some v else lookup m k

/-- The member `contains(k)`. -/
def contains (m : DMap K) (k : K) : Bool := (lookup m k).isSome

/-- The member `size()`. -/
def size (m : DMap K) : Nat := m.length

/-- The assignment `m[k] = v`: overwrites the value of a present key, adds the
entry otherwise. -/
def assign : DMap K → K → Double → DMap K
  | [], k, v => [(k, v)]
  | (k', v') :: m, k, v => if k' = k then (k', v) :: m else (k', v') :: assign m k v

/-- The member `insert({k, v})`: adds the entry unless the key is present. -/
def insert (m : DMap K) (k : K) (v : Double) : DMap K :=
  if contains m k then m else m ++ [(k, v)]

/-- The member `erase(k)`. -/
def erase (m : DMap K) (k : K) : DMap K := m.filter (fun e => decide (e.1 ≠ k))

/-- The exact-rational map with the codes of the degrees. -/
def code (m : DMap K) : UMap K := m.map (fun e => (e.1, Double.code e.2))

end DMap

/-- The loop of `operator==` over the entries of `*this`, the same text in
`FuzzySet` and `FuzzyRelation`: it returns false at the first entry whose key
`other` lacks or for which `abs(other.data_.at(key) - value) > 10e-12`. -/
def operator_eq_loop {K : Type} [DecidableEq K] (abs_ : AbsOverload) (other : DMap K) :
    DMap K → Option Bool
  | [] => some true
  | (key, value) :: rest =>
    match DMap.lookup other key with
    | none => some false
    | some o =>
      match abs_call abs_ (Double.sub o value) with
      | none => none
      | some d =>
        if Double.gt d Double.tolerance then some false
        else operator_eq_loop abs_ other rest

/-- The class `FuzzySet<T>`, with the degrees as binary64 values. -/
structure FuzzySet (K : Type) where
  data_ : DMap K
deriving DecidableEq

namespace FuzzySet

variable {K : Type} [DecidableEq K]

/-- The default constructor `FuzzySet()`. -/
def empty : FuzzySet K := ⟨[]⟩

/-- The member `insert(key, value)`: the entry is rejected when
`value < 0.0 || value > 1.0 || data_.contains(key)`. -/
def insert (self : FuzzySet K) (key : K) (value : Double) : FuzzySet K :=
  if Double.lt value (Double.fin 0) || Double.gt value (Double.fin 1) ||
      DMap.contains self.data_ key then self
  else ⟨DMap.insert self.data_ key value⟩

/-- One iteration of the loop of the constructor from a literal list. -/
def fromList_step (data : DMap K) (pair : K × Double) : DMap K :=
  if Double.lt pair.2 (Double.fin 0) || Double.gt pair.2 (Double.fin 1) ||
      DMap.contains data pair.1 then data
  else DMap.assign data pair.1 pair.2

/-- The constructor `FuzzySet(const std::initializer_list<std::pair<T, double>>&)`. -/
def fromList (data : List (K × Double)) : FuzzySet K :=
  ⟨data.foldl fromList_step []⟩

/-- The constructor `FuzzySet(const std::unordered_map<T, double>&)`. -/
def fromMap (data : DMap K) : FuzzySet K := ⟨data⟩

/-- The member `operator==`, under the overload `abs_` of `abs`. -/
def operator_eq (abs_ : AbsOverload) (self other : FuzzySet K) : Option Bool :=
  if DMap.size self.data_ ≠ DMap.size other.data_ then some false
  else operator_eq_loop abs_ other.data_ self.data_

/-- The member `operator!=`. -/
def operator_ne (abs_ : AbsOverload) (self other : FuzzySet K) : Option Bool :=
  (self.operator_eq abs_ other).map (fun b => !b)

/-- One iteration of the loop of `Unite`, on `pair` of `other.data_`: the stored
degree becomes `std::max(this->at(pair.first), pair.second)`. -/
def Unite_step (data : DMap K) (pair : K × Double) : DMap K :=
  match DMap.lookup data pair.1 with
  | some cur => DMap.assign data pair.1 (Double.std_max cur pair.2)
  | none => DMap.assign data pair.1 pair.2

/-- The member `Unite`: the value of `*this` after the call. -/
def Unite (self other : FuzzySet K) : FuzzySet K :=
  ⟨other.data_.foldl Unite_step self.data_⟩

/-- One iteration of the loop of `Intersect`: the stored degree becomes
`std::min(pair.second, other.at(pair.first))`, or the entry is erased. -/
def Intersect_step (other : FuzzySet K) (data : DMap K) (pair : K × Double) : DMap K :=
  match DMap.lookup other.data_ pair.1 with
  | some o => DMap.assign data pair.1 (Double.std_min pair.2 o)
  | none => DMap.erase data pair.1

/-- The member `Intersect`. -/
def Intersect (self other : FuzzySet K) : FuzzySet K :=
  ⟨self.data_.foldl (Intersect_step other) self.data_⟩

/-- The member `Complement`: the stored degree becomes `1 - pair.second`. -/
def Complement (self : FuzzySet K) : FuzzySet K :=
  ⟨self.data_.foldl
    (fun data pair => DMap.assign data pair.1 (Double.sub (Double.fin 1) pair.2)) self.data_⟩

/-- The member `Union`: `Unite` on a copy. -/
def Union (self other : FuzzySet K) : FuzzySet K :=
  let result := self
  result.Unite other

/-- The member `Intersection`: `Intersect` on a copy. -/
def Intersection (self other : FuzzySet K) : FuzzySet K :=
  let result := self
  result.Intersect other

/-- The member `Complementation`: `Complement` on a copy. -/
def Complementation (self : FuzzySet K) : FuzzySet K :=
  let result := self
  result.Complement

end FuzzySet

/-- The free function `Union(left, right)` on fuzzy sets. -/
def Union {K : Type} [DecidableEq K] (left right : FuzzySet K) : FuzzySet K :=
  left.Union right

/-- The free function `Intersection(left, right)` on fuzzy sets. -/
def Intersection {K : Type} [DecidableEq K] (left right : FuzzySet K) : FuzzySet K :=
  left.Intersection right

/-- The class `FuzzyRelation<T>`, with the degrees as binary64 values. -/
structure FuzzyRelation (K : Type) where
  data_ : DMap (K × K)
deriving DecidableEq

/-- The function `composable`. -/
def composable {K : Type} [DecidableEq K] (left right : DMap (K × K)) : Bool :=
  let left_second := left.foldl (fun s e => uset_insert s e.1.2) []
  let right_first := right.foldl (fun s e => uset_insert s e.1.1) []
  uset_eq left_second right_first

namespace FuzzyRelation

variable {K : Type} [DecidableEq K]

/-- The constructor `FuzzyRelation(const std::unordered_map<...>&)`: the map is
copied into `data_`. -/
def fromMap (data : DMap (K × K)) : FuzzyRelation K := ⟨data⟩

/-- The body of the inner loop of `Composition`. -/
def Composition_step (x y : K) (x_y : Double) (result_data : DMap (K × K))
    (pair2 : (K × K) × Double) : DMap (K × K) :=
  if y = pair2.1.1 then
    let z := pair2.1.2
    let y_z := pair2.2
    let min_val := Double.std_min x_y y_z
    match DMap.lookup result_data (x, z) with
    | none => DMap.assign result_data (x, z) min_val
    | some cur => DMap.assign result_data (x, z) (Double.std_max cur min_val)
  else result_data

/-- The member `Composition`. -/
def Composition (self other : FuzzyRelation K) : Except FuzzyError (FuzzyRelation K) :=
  if !composable self.data_ other.data_ then Except.error FuzzyError.not_composable
  else
    Except.ok ⟨self.data_.foldl
      (fun result_data pair1 =>
        other.data_.foldl (Composition_step pair1.1.1 pair1.1.2 pair1.2) result_data)
      []⟩

/-- The member `operator==`, under the overload `abs_` of `abs`. -/
def operator_eq (abs_ : AbsOverload) (self other : FuzzyRelation K) : Option Bool :=
  if DMap.size self.data_ ≠ DMap.size other.data_ then some false
  else operator_eq_loop abs_ other.data_ self.data_

/-- The member `operator!=`. -/
def operator_ne (abs_ : AbsOverload) (self other : FuzzyRelation K) : Option Bool :=
  (self.operator_eq abs_ other).map (fun b => !b)

end FuzzyRelation

end IEEE

end Fuzzy

namespace Fuzzy

namespace UMap

variable {K : Type} [DecidableEq K]

theorem lookup_isSome_iff (m : UMap K) (k : K) : (lookup m k).isSome ↔ k ∈ keys m := by
  induction m with
  | nil => simp [lookup, keys]
  | cons e m ih =>
    obtain ⟨k', v⟩ := e
    by_cases h : k' = k
    · simp [lookup, keys, h]
    · have h' : ¬ k = k' := fun x => h x.symm
      simpa [lookup, keys, h, h'] using ih

theorem lookup_eq_none_iff (m : UMap K) (k : K) : lookup m k = none ↔ k ∉ keys m := by
  rw [← lookup_isSome_iff]; cases lookup m k <;> simp

theorem contains_iff (m : UMap K) (k : K) : contains m k = true ↔ k ∈ keys m :=
  lookup_isSome_iff m k

theorem mem_of_lookup (m : UMap K) (k : K) (v : ℚ) (h : lookup m k = some v) : (k, v) ∈ m := by
  induction m with
  | nil => simp [lookup] at h
  | cons e m ih =>
    obtain ⟨k', v'⟩ := e
    by_cases hk : k' = k
    · simp [lookup, hk] at h; simp [hk, h]
    · simp [lookup, hk] at h; exact List.mem_cons_of_mem _ (ih h)

theorem lookup_of_mem (m : UMap K) (hm : WF m) (k : K) (v : ℚ) (h : (k, v) ∈ m) :
    lookup m k = some v := by
  induction m with
  | nil => simp at h
  | cons e m ih =>
    obtain ⟨k', v'⟩ := e
    simp only [WF, keys, List.map_cons, List.nodup_cons] at hm
    rcases List.mem_cons.1 h with h | h
    · cases h; simp [lookup]
    · have hk : k' ≠ k := by
        rintro rfl
        exact hm.1 (List.mem_map.2 ⟨_, h, rfl⟩)
      simp [lookup, hk]; exact ih hm.2 h

theorem lookup_assign (m : UMap K) (k : K) (v : ℚ) (k' : K) :
    lookup (assign m k v) k' = if k = k' then some v else lookup m k' := by
  induction m with
  | nil => simp [assign, lookup]
  | cons e m ih =>
    obtain ⟨k0, v0⟩ := e
    by_cases h0 : k0 = k
    · subst h0; by_cases h1 : k0 = k' <;> simp [assign, lookup, h1]
    · by_cases h1 : k0 = k'
      · subst h1
        have h0' : ¬ k = k0 := fun x => h0 x.symm
        simp [assign, lookup, h0, h0']
      · simp [assign, lookup, h0, h1, ih]

theorem keys_assign (m : UMap K) (k : K) (v : ℚ) :
    keys (assign m k v) = if k ∈ keys m then keys m else keys m ++ [k] := by
  induction m with
  | nil => simp [assign, keys]
  | cons e m ih =>
    obtain ⟨k0, v0⟩ := e
    by_cases h0 : k0 = k
    · subst h0; simp [assign, keys]
    · have h0' : ¬ k = k0 := fun x => h0 x.symm
      simp only [keys] at ih
      by_cases hm : k ∈ List.map Prod.fst m <;> simp [assign, keys, h0, h0', ih, hm]

theorem WF_assign (m : UMap K) (hm : WF m) (k : K) (v : ℚ) : WF (assign m k v) := by
  unfold WF at *
  rw [keys_assign]
  split
  · exact hm
  · rename_i h
    exact List.Nodup.append hm (List.nodup_singleton k) (by simpa using h)

theorem mem_keys_assign (m : UMap K) (k : K) (v : ℚ) (k' : K) :
    k' ∈ keys (assign m k v) ↔ k' = k ∨ k' ∈ keys m := by
  rw [keys_assign]
  split
  · rename_i h
    constructor
    · exact Or.inr
    · rintro (rfl | h') <;> assumption
  · simp [or_comm]

theorem lookup_append_single (m : UMap K) (k : K) (v : ℚ) (k' : K) :
    lookup (m ++ [(k, v)]) k' = match lookup m k' with
      | some w => some w
      | none => if k = k' then some v else none := by
  induction m with
  | nil => simp [lookup]
  | cons e m ih =>
    obtain ⟨k0, v0⟩ := e
    by_cases h0 : k0 = k' <;> simp [lookup, h0, ih]

theorem lookup_insert (m : UMap K) (k : K) (v : ℚ) (k' : K) :
    lookup (insert m k v) k' = match lookup m k' with
      | some w => some w
      | none => if k = k' then some v else none := by
  unfold insert contains
  cases hk : lookup m k with
  | none => simp [lookup_append_single]
  | some w =>
    simp
    cases hk' : lookup m k' with
    | none =>
      have : k ≠ k' := by rintro rfl; rw [hk] at hk'; cases hk'
      simp [this]
    | some w' => rfl

theorem WF_insert (m : UMap K) (hm : WF m) (k : K) (v : ℚ) : WF (insert m k v) := by
  unfold insert
  split
  · exact hm
  · rename_i h
    rw [contains_iff] at h
    unfold WF at *
    simp only [keys, List.map_append, List.map_cons, List.map_nil] at *
    exact List.Nodup.append hm (List.nodup_singleton k) (by simpa using h)

theorem lookup_erase (m : UMap K) (k : K) (k' : K) :
    lookup (erase m k) k' = if k = k' then none else lookup m k' := by
  induction m with
  | nil => simp [erase, lookup]
  | cons e m ih =>
    obtain ⟨k0, v0⟩ := e
    have hcons : erase ((k0, v0) :: m) k = if k0 = k then erase m k else (k0, v0) :: erase m k := by
      by_cases h0 : k0 = k <;> simp [erase, List.filter_cons, h0]
    rw [hcons]
    by_cases h0 : k0 = k
    · subst h0
      rw [if_pos rfl, ih]
      by_cases h1 : k0 = k'
      · rw [if_pos h1, if_pos h1]
      · rw [if_neg h1, if_neg h1]; simp [lookup, h1]
    · have h0' : ¬ k = k0 := fun x => h0 x.symm
      by_cases h1 : k0 = k'
      · subst h1; simp [lookup, h0, h0']
      · simp [lookup, h0, h1, ih]

theorem WF_erase (m : UMap K) (hm : WF m) (k : K) : WF (erase m k) := by
  unfold WF keys erase at *
  exact (List.Nodup.sublist (List.Sublist.map _ (List.filter_sublist _)) hm)

theorem mem_keys_iff_lookup (m : UMap K) (k : K) : k ∈ keys m ↔ ∃ v, lookup m k = some v := by
  rw [← lookup_isSome_iff, Option.isSome_iff_exists]

theorem WF_cons (e : K × ℚ) (l : UMap K) : WF (e :: l) ↔ e.1 ∉ keys l ∧ WF l := by
  unfold WF keys; simp

/-- A loop whose body changes only the entry of the key it visits: after the
loop a visited key holds what the body computed from its old entry. -/
theorem lookup_foldl_visited {E : Type} (key : E → K) (step : UMap K → E → UMap K)
    (g : E → Option ℚ → Option ℚ)
    (hstep : ∀ data e k,
      lookup (step data e) k = if key e = k then g e (lookup data k) else lookup data k)
    (l : List E) (hl : (l.map key).Nodup) (acc : UMap K) (e : E) (he : e ∈ l) :
    lookup (l.foldl step acc) (key e) = g e (lookup acc (key e)) := by
  induction l generalizing acc with
  | nil => simp at he
  | cons e0 l ih =>
    rw [List.map_cons, List.nodup_cons] at hl
    rw [List.foldl_cons]
    rcases List.mem_cons.1 he with h | h
    · subst h
      have hnot : ∀ (acc' : UMap K), lookup (l.foldl step acc') (key e) = lookup acc' (key e) := by
        intro acc'
        clear ih he
        induction l generalizing acc' with
        | nil => rfl
        | cons e1 l ih1 =>
          have h1 : key e1 ≠ key e := by
            intro hh; apply hl.1; simp [hh]
          have hl1 : key e ∉ List.map key l := by
            intro hh; apply hl.1; simp only [List.map_cons, List.mem_cons]; exact Or.inr hh
          have hl2 : (List.map key l).Nodup := by
            have := hl.2; rw [List.map_cons, List.nodup_cons] at this; exact this.2
          rw [List.foldl_cons, ih1 ⟨hl1, hl2⟩, hstep, if_neg h1]
      rw [hnot, hstep, if_pos rfl]
    · have hne : key e0 ≠ key e := by
        intro hh; apply hl.1; rw [hh]; exact List.mem_map.2 ⟨e, h, rfl⟩
      rw [ih hl.2 _ h, hstep, if_neg hne]

/-- A loop whose body changes only the entry of the key it visits leaves the
keys it does not visit alone. -/
theorem lookup_foldl_unvisited {E : Type} (key : E → K) (step : UMap K → E → UMap K)
    (g : E → Option ℚ → Option ℚ)
    (hstep : ∀ data e k,
      lookup (step data e) k = if key e = k then g e (lookup data k) else lookup data k)
    (l : List E) (acc : UMap K) (k : K) (hk : k ∉ l.map key) :
    lookup (l.foldl step acc) k = lookup acc k := by
  induction l generalizing acc with
  | nil => rfl
  | cons e0 l ih =>
    simp only [List.map_cons, List.mem_cons, not_or] at hk
    rw [List.foldl_cons, ih _ hk.2, hstep, if_neg (fun h => hk.1 h.symm)]

theorem WF_foldl {E : Type} (step : UMap K → E → UMap K)
    (hstep : ∀ data e, WF data → WF (step data e)) (l : List E) (acc : UMap K) (h : WF acc) :
    WF (l.foldl step acc) := by
  induction l generalizing acc with
  | nil => exact h
  | cons e l ih => exact ih _ (hstep acc e h)

theorem mem_keys_of_mem (m : UMap K) (e : K × ℚ) (h : e ∈ m) : e.1 ∈ keys m :=
  List.mem_map.2 ⟨e, h, rfl⟩

theorem exists_mem_of_mem_keys (m : UMap K) (k : K) (h : k ∈ keys m) : ∃ v, (k, v) ∈ m := by
  obtain ⟨e, he, rfl⟩ := List.mem_map.1 h
  exact ⟨e.2, he⟩

end UMap

namespace FuzzySet

variable {K : Type} [DecidableEq K]

theorem lookup_Unite_step (data : UMap K) (pair : K × ℚ) (k : K) :
    UMap.lookup (Unite_step data pair) k =
      if pair.1 = k then
        (match UMap.lookup data k with
          | some cur => some (max cur pair.2)
          | none => some pair.2)
      else UMap.lookup data k := by
  unfold Unite_step
  by_cases h : pair.1 = k
  · subst h
    cases UMap.lookup data pair.1 <;> simp [UMap.lookup_assign]
  · cases UMap.lookup data pair.1 <;> simp [UMap.lookup_assign, h]

theorem WF_Unite_step (data : UMap K) (pair : K × ℚ) (h : UMap.WF data) :
    UMap.WF (Unite_step data pair) := by
  unfold Unite_step
  cases UMap.lookup data pair.1 <;> exact UMap.WF_assign _ h _ _

theorem WF_Unite (A B : FuzzySet K) (hA : UMap.WF A.data_) : UMap.WF (A.Unite B).data_ :=
  UMap.WF_foldl Unite_step WF_Unite_step _ _ hA

theorem lookup_Unite (A B : FuzzySet K) (hB : UMap.WF B.data_) (k : K) :
    UMap.lookup (A.Unite B).data_ k =
      match UMap.lookup B.data_ k with
      | none => UMap.lookup A.data_ k
      | some b =>
        (match UMap.lookup A.data_ k with
          | some a => some (max a b)
          | none => some b) := by
  unfold Unite
  cases hb : UMap.lookup B.data_ k with
  | none =>
    have hk : k ∉ B.data_.map Prod.fst := (UMap.lookup_eq_none_iff _ _).1 hb
    exact UMap.lookup_foldl_unvisited Prod.fst Unite_step
      (fun pair o => match o with
        | some cur => some (max cur pair.2)
        | none => some pair.2) lookup_Unite_step _ _ _ hk
  | some b =>
    have hmem := UMap.mem_of_lookup _ _ _ hb
    have := UMap.lookup_foldl_visited Prod.fst Unite_step
      (fun pair o => match o with
        | some cur => some (max cur pair.2)
        | none => some pair.2) lookup_Unite_step _ hB A.data_ _ hmem
    simpa using this

theorem lookup_Intersect_step (other : FuzzySet K) (data : UMap K) (pair : K × ℚ) (k : K) :
    UMap.lookup (Intersect_step other data pair) k =
      if pair.1 = k then
        (fun (pair : K × ℚ) (_ : Option ℚ) =>
          (UMap.lookup other.data_ pair.1).map (fun o => min pair.2 o)) pair (UMap.lookup data k)
      else UMap.lookup data k := by
  unfold Intersect_step
  by_cases h : pair.1 = k
  · subst h
    cases ho : UMap.lookup other.data_ pair.1 <;> simp [UMap.lookup_assign, UMap.lookup_erase, ho]
  · cases ho : UMap.lookup other.data_ pair.1 <;> simp [UMap.lookup_assign, UMap.lookup_erase, h]

theorem WF_Intersect (A B : FuzzySet K) (hA : UMap.WF A.data_) : UMap.WF (A.Intersect B).data_ := by
  refine UMap.WF_foldl (Intersect_step B) ?_ _ _ hA
  intro data e h
  unfold Intersect_step
  cases UMap.lookup B.data_ e.1
  · exact UMap.WF_erase _ h _
  · exact UMap.WF_assign _ h _ _

theorem lookup_Intersect (A B : FuzzySet K) (hA : UMap.WF A.data_) (k : K) :
    UMap.lookup (A.Intersect B).data_ k =
      match UMap.lookup A.data_ k, UMap.lookup B.data_ k with
      | some a, some b => some (min a b)
      | _, _ => none := by
  unfold Intersect
  cases ha : UMap.lookup A.data_ k with
  | none =>
    have hk : k ∉ A.data_.map Prod.fst := (UMap.lookup_eq_none_iff _ _).1 ha
    rw [UMap.lookup_foldl_unvisited Prod.fst (Intersect_step B)
      (fun (pair : K × ℚ) (_ : Option ℚ) =>
          (UMap.lookup B.data_ pair.1).map (fun o => min pair.2 o))
      (lookup_Intersect_step B) _ _ _ hk, ha]
  | some a =>
    have hmem := UMap.mem_of_lookup _ _ _ ha
    have := UMap.lookup_foldl_visited Prod.fst (Intersect_step B)
      (fun (pair : K × ℚ) (_ : Option ℚ) =>
          (UMap.lookup B.data_ pair.1).map (fun o => min pair.2 o))
      (lookup_Intersect_step B) _ hA A.data_ _ hmem
    simp only at this
    rw [this]
    cases UMap.lookup B.data_ k <;> rfl

theorem Implicate_step_eq (other : FuzzySet K) (type : ImplicationType) (data : UMap K) (key : K) :
    Implicate_step other type data key =
      UMap.assign data key
        ((fun (key : K) (o : Option ℚ) =>
          match o with
          | none => (0 : ℚ)
          | some a =>
            if a = -1 then 0
            else
              match type, (UMap.lookup other.data_ key).getD 0 with
              | ImplicationType.ALGPRODUCT, b => a * b
              | ImplicationType.MINIMUM, b => min a b
              | ImplicationType.ZADEHARITHMETIC, b => min 1 (1 - a + b)
              | ImplicationType.ZADEHMAXMIN, b => max (1 - a) b) key (UMap.lookup data key)) := by
  unfold Implicate_step
  cases ha : UMap.lookup data key with
  | none => cases type <;> simp
  | some a =>
    by_cases h1 : a = -1
    · cases type <;> simp [h1]
    · cases hb : UMap.lookup other.data_ key <;> cases type <;> simp [h1, hb]

theorem lookup_Implicate (A B : FuzzySet K) (hA : UMap.WF A.data_) (hB : UMap.WF B.data_)
    (type : ImplicationType) (k : K) :
    UMap.lookup (A.Implicate B type).data_ k =
      if k ∈ UMap.keys A.data_ ∨ k ∈ UMap.keys B.data_ then
        some (match UMap.lookup A.data_ k with
          | none => (0 : ℚ)
          | some a =>
            if a = -1 then 0
            else
              match type, (UMap.lookup B.data_ k).getD 0 with
              | ImplicationType.ALGPRODUCT, b => a * b
              | ImplicationType.MINIMUM, b => min a b
              | ImplicationType.ZADEHARITHMETIC, b => min 1 (1 - a + b)
              | ImplicationType.ZADEHMAXMIN, b => max (1 - a) b)
      else none := by
  let g : K × ℚ → Option ℚ → Option ℚ := fun e o => some (match o with
    | none => (0 : ℚ)
    | some a =>
      if a = -1 then 0
      else
        match type, (UMap.lookup B.data_ e.1).getD 0 with
        | ImplicationType.ALGPRODUCT, b => a * b
        | ImplicationType.MINIMUM, b => min a b
        | ImplicationType.ZADEHARITHMETIC, b => min 1 (1 - a + b)
        | ImplicationType.ZADEHMAXMIN, b => max (1 - a) b)
  have hstep : ∀ (data : UMap K) (e : K × ℚ) (k : K),
      UMap.lookup (Implicate_step B type data e.1) k =
        if e.1 = k then g e (UMap.lookup data k) else UMap.lookup data k := by
    intro data e k
    simp only [Implicate_step_eq, UMap.lookup_assign, g]
    by_cases h : e.1 = k
    · subst h; simp
    · simp [h]
  have hU : UMap.WF (Fuzzy.Union A B).data_ := WF_Unite A B hA
  have hkeys : k ∈ UMap.keys (Fuzzy.Union A B).data_ ↔
      k ∈ UMap.keys A.data_ ∨ k ∈ UMap.keys B.data_ := by
    show k ∈ UMap.keys (A.Unite B).data_ ↔ _
    rw [← UMap.lookup_isSome_iff, ← UMap.lookup_isSome_iff, ← UMap.lookup_isSome_iff,
      lookup_Unite A B hB]
    cases UMap.lookup B.data_ k <;> cases UMap.lookup A.data_ k <;> simp
  unfold Implicate
  by_cases hk : k ∈ UMap.keys A.data_ ∨ k ∈ UMap.keys B.data_
  · rw [if_pos hk]
    obtain ⟨v, hv⟩ := UMap.exists_mem_of_mem_keys _ _ (hkeys.2 hk)
    have := UMap.lookup_foldl_visited Prod.fst (fun data e => Implicate_step B type data e.1) g
      hstep _ hU A.data_ _ hv
    simpa [g] using this
  · rw [if_neg hk]
    have hk' : k ∉ (Fuzzy.Union A B).data_.map Prod.fst := fun h => hk (hkeys.1 h)
    rw [UMap.lookup_foldl_unvisited Prod.fst (fun data e => Implicate_step B type data e.1) g
      hstep _ _ _ hk']
    exact (UMap.lookup_eq_none_iff _ _).2 (fun h => hk (Or.inl h))

theorem WF_Implicate (A B : FuzzySet K) (hA : UMap.WF A.data_) (type : ImplicationType) :
    UMap.WF (A.Implicate B type).data_ := by
  refine UMap.WF_foldl _ ?_ _ _ hA
  intro data e h
  rw [Implicate_step_eq]
  exact UMap.WF_assign _ h _ _

theorem ne_neg_one_of_InRange (m : UMap K) (h : UMap.InRange m) (k : K) (a : ℚ)
    (ha : UMap.lookup m k = some a) : a ≠ -1 := by
  have := (h _ (UMap.mem_of_lookup _ _ _ ha)).1
  intro h1
  rw [h1] at this
  norm_num at this

end FuzzySet

theorem lookup_cartesian_inner {K : Type} [DecidableEq K] (right : UMap K) (x0 : K) (a0 : ℚ)
    (rule : ℚ → ℚ → ℚ) (acc : UMap (K × K)) (x y : K) :
    UMap.lookup (right.foldl (fun data b => UMap.insert data (x0, b.1) (rule a0 b.2)) acc) (x, y) =
      match UMap.lookup acc (x, y) with
      | some w => some w
      | none => if x0 = x then (UMap.lookup right y).map (rule a0) else none := by
  induction right generalizing acc with
  | nil => cases h : UMap.lookup acc (x, y) <;> simp [UMap.lookup, h]
  | cons b0 r ih =>
    obtain ⟨y0, v0⟩ := b0
    rw [List.foldl_cons, ih, UMap.lookup_insert]
    cases UMap.lookup acc (x, y) with
    | some w => rfl
    | none =>
      by_cases hx : x0 = x
      · by_cases hy : y0 = y
        · simp [hx, hy, UMap.lookup]
        · simp [hx, hy, UMap.lookup]
      · simp [hx]

theorem lookup_cartesian_outer {K : Type} [DecidableEq K] (left right : UMap K)
    (rule : ℚ → ℚ → ℚ) (acc : UMap (K × K)) (x y : K) :
    UMap.lookup (left.foldl (fun data a =>
        right.foldl (fun data b => UMap.insert data (a.1, b.1) (rule a.2 b.2)) data) acc) (x, y) =
      match UMap.lookup acc (x, y) with
      | some w => some w
      | none =>
        (match UMap.lookup left x with
          | some a => (UMap.lookup right y).map (rule a)
          | none => none) := by
  induction left generalizing acc with
  | nil => cases h : UMap.lookup acc (x, y) <;> simp [UMap.lookup, h]
  | cons a0 l ih =>
    obtain ⟨x0, v0⟩ := a0
    rw [List.foldl_cons, ih, lookup_cartesian_inner]
    cases UMap.lookup acc (x, y) with
    | some w => rfl
    | none =>
      by_cases hx : x0 = x
      · cases hr : UMap.lookup right y with
        | some b => simp [hx, UMap.lookup]
        | none => cases hl : UMap.lookup l x <;> simp [hx, UMap.lookup]
      · simp [hx, UMap.lookup]

theorem lookup_cartesian_insert {K : Type} [DecidableEq K] (left right : UMap K)
    (rule : ℚ → ℚ → ℚ) (x y : K) :
    UMap.lookup (cartesian_insert left right rule) (x, y) =
      match UMap.lookup left x with
      | some a => (UMap.lookup right y).map (rule a)
      | none => none := by
  unfold cartesian_insert
  rw [lookup_cartesian_outer]
  rfl

theorem WF_cartesian_insert {K : Type} [DecidableEq K] (left right : UMap K)
    (rule : ℚ → ℚ → ℚ) : UMap.WF (cartesian_insert left right rule) := by
  unfold cartesian_insert
  refine UMap.WF_foldl _ ?_ _ _ (by unfold UMap.WF UMap.keys; simp)
  intro data a h
  refine UMap.WF_foldl _ ?_ _ _ h
  intro data b h
  exact UMap.WF_insert _ h _ _

theorem mem_keys_cartesian_insert {K : Type} [DecidableEq K] (left right : UMap K)
    (rule : ℚ → ℚ → ℚ) (x y : K) :
    (x, y) ∈ UMap.keys (cartesian_insert left right rule) ↔
      x ∈ UMap.keys left ∧ y ∈ UMap.keys right := by
  rw [← UMap.lookup_isSome_iff, ← UMap.lookup_isSome_iff, ← UMap.lookup_isSome_iff,
    lookup_cartesian_insert]
  cases UMap.lookup left x <;> cases UMap.lookup right y <;> simp

theorem size_cartesian_insert {K : Type} [DecidableEq K] (left right : UMap K)
    (hl : UMap.WF left) (hr : UMap.WF right) (rule : ℚ → ℚ → ℚ) :
    UMap.size (cartesian_insert left right rule) = UMap.size left * UMap.size right := by
  have h1 : UMap.size (cartesian_insert left right rule) =
      (UMap.keys (cartesian_insert left right rule)).toFinset.card := by
    rw [List.toFinset_card_of_nodup (WF_cartesian_insert left right rule)]
    simp [UMap.size, UMap.keys]
  have h2 : UMap.size left = (UMap.keys left).toFinset.card := by
    rw [List.toFinset_card_of_nodup hl]; simp [UMap.size, UMap.keys]
  have h3 : UMap.size right = (UMap.keys right).toFinset.card := by
    rw [List.toFinset_card_of_nodup hr]; simp [UMap.size, UMap.keys]
  have h4 : (UMap.keys (cartesian_insert left right rule)).toFinset =
      (UMap.keys left).toFinset ×ˢ (UMap.keys right).toFinset := by
    ext p
    obtain ⟨x, y⟩ := p
    simp only [List.mem_toFinset, Finset.mem_product]
    exact mem_keys_cartesian_insert left right rule x y
  rw [h1, h2, h3, h4, Finset.card_product]

namespace FuzzySet

variable {K : Type} [DecidableEq K]

theorem WF_Complement (A : FuzzySet K) (hA : UMap.WF A.data_) : UMap.WF A.Complement.data_ :=
  UMap.WF_foldl _ (fun data e h => UMap.WF_assign data h e.1 (1 - e.2)) _ _ hA

theorem lookup_Complement (A : FuzzySet K) (hA : UMap.WF A.data_) (k : K) :
    UMap.lookup A.Complement.data_ k = (UMap.lookup A.data_ k).map (fun v => 1 - v) := by
  let g : K × ℚ → Option ℚ → Option ℚ := fun e _ => some (1 - e.2)
  have hstep : ∀ (data : UMap K) (e : K × ℚ) (k : K),
      UMap.lookup (UMap.assign data e.1 (1 - e.2)) k =
        if e.1 = k then g e (UMap.lookup data k) else UMap.lookup data k := by
    intro data e k
    rw [UMap.lookup_assign]
  unfold Complement
  cases ha : UMap.lookup A.data_ k with
  | none =>
    have hk : k ∉ A.data_.map Prod.fst := (UMap.lookup_eq_none_iff _ _).1 ha
    rw [UMap.lookup_foldl_unvisited Prod.fst _ g hstep _ _ _ hk, ha]
    rfl
  | some a =>
    have hmem := UMap.mem_of_lookup _ _ _ ha
    have := UMap.lookup_foldl_visited Prod.fst _ g hstep _ hA A.data_ _ hmem
    simpa [g] using this

theorem insert_data_of_range (s : FuzzySet K) (k : K) (v : ℚ) (h0 : 0 ≤ v) (h1 : v ≤ 1) :
    (s.insert k v).data_ = UMap.insert s.data_ k v := by
  unfold insert
  by_cases hc : UMap.contains s.data_ k = true
  · have : v < 0 ∨ v > 1 ∨ UMap.contains s.data_ k = true := Or.inr (Or.inr hc)
    rw [if_pos this]
    unfold UMap.insert
    rw [if_pos hc]
  · have : ¬ (v < 0 ∨ v > 1 ∨ UMap.contains s.data_ k = true) := by
      rintro (h | h | h)
      · exact absurd h0 (not_le.2 h)
      · exact absurd h1 (not_le.2 h)
      · exact hc h
    rw [if_neg this]

theorem WF_insert_degree (s : FuzzySet K) (hs : UMap.WF s.data_) (k : K) (v : ℚ) :
    UMap.WF (s.insert k v).data_ := by
  unfold insert
  split
  · exact hs
  · exact UMap.WF_insert _ hs _ _

/-- A loop that inserts, for every entry of `l`, a degree in `[0, 1]` computed
from the key alone: a key of `l` that the set lacked holds that degree. -/
theorem lookup_foldl_insert (h : K → ℚ) (l : UMap K) (hr : ∀ e ∈ l, 0 ≤ h e.1 ∧ h e.1 ≤ 1)
    (acc : FuzzySet K) (k : K) :
    UMap.lookup (l.foldl (fun result b => result.insert b.1 (h b.1)) acc).data_ k =
      match UMap.lookup acc.data_ k with
      | some w => some w
      | none => if k ∈ UMap.keys l then some (h k) else none := by
  induction l generalizing acc with
  | nil => cases hk : UMap.lookup acc.data_ k <;> simp [hk, UMap.keys]
  | cons e l ih =>
    have hr' : ∀ e' ∈ l, 0 ≤ h e'.1 ∧ h e'.1 ≤ 1 := fun e' he' => hr e' (List.mem_cons_of_mem _ he')
    have he := hr e (List.mem_cons_self _ _)
    rw [List.foldl_cons, ih hr', insert_data_of_range _ _ _ he.1 he.2, UMap.lookup_insert]
    cases hk : UMap.lookup acc.data_ k with
    | some w => rfl
    | none =>
      by_cases hek : e.1 = k
      · subst hek; simp [UMap.keys]
      · have hek' : ¬ k = e.1 := fun x => hek x.symm
        simp only [UMap.keys, hek, if_false, List.map_cons]
        by_cases hm : k ∈ List.map Prod.fst l
        · rw [if_pos hm, if_pos (List.mem_cons_of_mem _ hm)]
        · rw [if_neg hm, if_neg (by simp [hm, hek'])]

theorem WF_foldl_insert (h : K → K × ℚ → ℚ) (l : UMap K) (acc : FuzzySet K)
    (hacc : UMap.WF acc.data_) :
    UMap.WF (l.foldl (fun result b => result.insert b.1 (h b.1 b)) acc).data_ := by
  induction l generalizing acc with
  | nil => exact hacc
  | cons e l ih => exact ih _ (WF_insert_degree _ hacc _ _)

theorem foldl_max_spec {E : Type} (f : E → Option ℚ) (l : List E) (init : ℚ) :
    init ≤ l.foldl (fun max_val a => match f a with
        | some w => max max_val w
        | none => max_val) init ∧
    (∀ e ∈ l, ∀ w, f e = some w → w ≤ l.foldl (fun max_val a => match f a with
        | some w => max max_val w
        | none => max_val) init) ∧
    (l.foldl (fun max_val a => match f a with
        | some w => max max_val w
        | none => max_val) init = init ∨
      ∃ e ∈ l, f e = some (l.foldl (fun max_val a => match f a with
        | some w => max max_val w
        | none => max_val) init)) := by
  induction l generalizing init with
  | nil => simp
  | cons e0 l ih =>
    rw [List.foldl_cons]
    cases h0 : f e0 with
    | none =>
      simp only
      obtain ⟨h1, h2, h3⟩ := ih init
      refine ⟨h1, ?_, ?_⟩
      · intro e he w hw
        rcases List.mem_cons.1 he with rfl | he
        · rw [h0] at hw; cases hw
        · exact h2 e he w hw
      · rcases h3 with h3 | ⟨e, he, h3⟩
        · exact Or.inl h3
        · exact Or.inr ⟨e, List.mem_cons_of_mem _ he, h3⟩
    | some w0 =>
      simp only
      obtain ⟨h1, h2, h3⟩ := ih (max init w0)
      refine ⟨le_trans (le_max_left _ _) h1, ?_, ?_⟩
      · intro e he w hw
        rcases List.mem_cons.1 he with rfl | he
        · rw [h0] at hw; cases hw
          exact le_trans (le_max_right _ _) h1
        · exact h2 e he w hw
      · rcases h3 with h3 | ⟨e, he, h3⟩
        · rcases max_choice init w0 with hc | hc
          · left; rw [h3, hc]
          · right; exact ⟨e0, List.mem_cons_self _ _, by rw [h3, hc, h0]⟩
        · exact Or.inr ⟨e, List.mem_cons_of_mem _ he, h3⟩

theorem sup_min_spec (R_relation : UMap (K × K)) (prime : UMap K) (relation_key : K → K × K) :
    0 ≤ sup_min R_relation prime relation_key ∧
    (∀ e ∈ prime, ∀ r, UMap.lookup R_relation (relation_key e.1) = some r →
      min e.2 r ≤ sup_min R_relation prime relation_key) ∧
    (sup_min R_relation prime relation_key = 0 ∨
      ∃ e ∈ prime, ∃ r, UMap.lookup R_relation (relation_key e.1) = some r ∧
        sup_min R_relation prime relation_key = min e.2 r) := by
  have hf : sup_min R_relation prime relation_key =
      prime.foldl (fun max_val a =>
        match (UMap.lookup R_relation (relation_key a.1)).map (fun r => min a.2 r) with
        | some w => max max_val w
        | none => max_val) 0 := by
    unfold sup_min
    congr 1
    funext max_val a
    cases UMap.lookup R_relation (relation_key a.1) <;> rfl
  obtain ⟨h1, h2, h3⟩ := foldl_max_spec
    (fun a : K × ℚ => (UMap.lookup R_relation (relation_key a.1)).map (fun r => min a.2 r)) prime 0
  rw [← hf] at h1 h2 h3
  refine ⟨h1, ?_, ?_⟩
  · intro e he r hr
    exact h2 e he _ (by simp [hr])
  · rcases h3 with h3 | ⟨e, he, h3⟩
    · exact Or.inl h3
    · right
      cases hr : UMap.lookup R_relation (relation_key e.1) with
      | none => simp [hr] at h3
      | some r =>
        simp only [hr, Option.map_some', Option.some.injEq] at h3
        exact ⟨e, he, r, hr, h3.symm⟩

end FuzzySet

theorem lookup_CRelation {K : Type} [DecidableEq K] (A B : FuzzySet K) (hA : UMap.WF A.data_)
    (x y : K) :
    UMap.lookup (CRelation A B) (x, y) =
      match UMap.lookup A.data_ x, UMap.lookup B.data_ y with
      | some a, some b => some (max (min a b) (min (1 - a) 1))
      | _, _ => none := by
  unfold CRelation
  simp only
  let AcB := cartesian_insert A.Complementation.data_ B.data_ (fun a_value _ => min a_value 1)
  let g : (K × K) × ℚ → Option ℚ → Option ℚ :=
    fun e _ => some (max e.2 ((UMap.lookup AcB e.1).getD 0))
  have hstep : ∀ (data : UMap (K × K)) (e : (K × K) × ℚ) (k : K × K),
      UMap.lookup (UMap.assign data e.1 (max e.2 ((UMap.lookup AcB e.1).getD 0))) k =
        if e.1 = k then g e (UMap.lookup data k) else UMap.lookup data k := by
    intro data e k
    rw [UMap.lookup_assign]
  have hAB := lookup_cartesian_insert A.data_ B.data_ (fun a_value b_value => min a_value b_value) x y
  have hAcB : UMap.lookup AcB (x, y) =
      match UMap.lookup A.data_ x with
      | some a => (UMap.lookup B.data_ y).map (fun _ => min (1 - a) 1)
      | none => none := by
    show UMap.lookup (cartesian_insert A.Complement.data_ B.data_ _) (x, y) = _
    rw [lookup_cartesian_insert, FuzzySet.lookup_Complement A hA]
    cases UMap.lookup A.data_ x <;> rfl
  cases hl : UMap.lookup (cartesian_insert A.data_ B.data_ (fun a_value b_value => min a_value b_value))
      (x, y) with
  | none =>
    have hk : (x, y) ∉ (cartesian_insert A.data_ B.data_
        (fun a_value b_value => min a_value b_value)).map Prod.fst :=
      (UMap.lookup_eq_none_iff _ _).1 hl
    rw [UMap.lookup_foldl_unvisited Prod.fst _ g hstep _ _ _ hk]
    rw [hl] at hAB
    cases ha : UMap.lookup A.data_ x with
    | none => rfl
    | some a =>
      cases hb : UMap.lookup B.data_ y with
      | none => rfl
      | some b => rw [ha, hb] at hAB; cases hAB
  | some w =>
    have hmem := UMap.mem_of_lookup _ _ _ hl
    have := UMap.lookup_foldl_visited Prod.fst _ g hstep _
      (WF_cartesian_insert A.data_ B.data_ _) [] _ hmem
    rw [this]
    rw [hl] at hAB
    cases ha : UMap.lookup A.data_ x with
    | none => rw [ha] at hAB; cases hAB
    | some a =>
      cases hb : UMap.lookup B.data_ y with
      | none => rw [ha, hb] at hAB; cases hAB
      | some b =>
        rw [ha, hb] at hAB hAcB
        simp only [Option.map_some', Option.some.injEq] at hAB hAcB
        simp only [g, hAcB, Option.getD_some, hAB]

/-- The inner loop of the reasoning members computes a greatest element: the
result bounds every contribution, and it is one of them, or `0` when there is
none. -/
theorem sup_min_greatest {K : Type} [DecidableEq K] (R_relation : UMap (K × K)) (prime : UMap K)
    (hW : UMap.WF prime) (hr : UMap.InRange prime) (relation_key : K → K × K)
    (hR : ∀ k r, UMap.lookup R_relation (relation_key k) = some r → 0 ≤ r) :
    0 ≤ FuzzySet.sup_min R_relation prime relation_key ∧
    FuzzySet.sup_min R_relation prime relation_key ≤ 1 ∧
    (∀ k p r, UMap.lookup prime k = some p → UMap.lookup R_relation (relation_key k) = some r →
      min p r ≤ FuzzySet.sup_min R_relation prime relation_key) ∧
    ((∃ k p r, UMap.lookup prime k = some p ∧ UMap.lookup R_relation (relation_key k) = some r ∧
        FuzzySet.sup_min R_relation prime relation_key = min p r) ∨
      ((∀ k, k ∈ UMap.keys prime → UMap.lookup R_relation (relation_key k) = none) ∧
        FuzzySet.sup_min R_relation prime relation_key = 0)) := by
  obtain ⟨h1, h2, h3⟩ := FuzzySet.sup_min_spec R_relation prime relation_key
  refine ⟨h1, ?_, ?_, ?_⟩
  · rcases h3 with h3 | ⟨e, he, r, _, h3⟩
    · rw [h3]; norm_num
    · rw [h3]; exact le_trans (min_le_left _ _) (hr e he).2
  · intro k p r hp hr'
    exact h2 (k, p) (UMap.mem_of_lookup _ _ _ hp) r hr'
  · rcases h3 with h3 | ⟨e, he, r, hr', h3⟩
    · by_cases hex : ∃ k, k ∈ UMap.keys prime ∧ UMap.lookup R_relation (relation_key k) ≠ none
      · obtain ⟨k, hk, hne⟩ := hex
        obtain ⟨p, hp⟩ := UMap.exists_mem_of_mem_keys _ _ hk
        obtain ⟨r, hr'⟩ := Option.ne_none_iff_exists'.1 hne
        left
        refine ⟨k, p, r, UMap.lookup_of_mem _ hW _ _ hp, hr', ?_⟩
        have hle := h2 (k, p) hp r hr'
        have hge : 0 ≤ min p r := le_min (hr _ hp).1 (hR k r hr')
        rw [h3] at hle ⊢
        exact le_antisymm hge hle
      · right
        refine ⟨?_, h3⟩
        intro k hk
        by_contra hne
        exact hex ⟨k, hk, hne⟩
    · left
      exact ⟨e.1, e.2, r, UMap.lookup_of_mem _ hW _ _ he, hr', h3⟩

theorem CRelation_nonneg {K : Type} [DecidableEq K] (A B : FuzzySet K) (hA : UMap.WF A.data_)
    (rA : UMap.InRange A.data_) (x y : K) (r : ℚ)
    (h : UMap.lookup (CRelation A B) (x, y) = some r) : 0 ≤ r := by
  rw [lookup_CRelation A B hA] at h
  cases ha : UMap.lookup A.data_ x with
  | none => rw [ha] at h; cases h
  | some a =>
    cases hb : UMap.lookup B.data_ y with
    | none => rw [ha, hb] at h; cases h
    | some b =>
      rw [ha, hb] at h
      simp only [Option.some.injEq] at h
      have h1 := (rA _ (UMap.mem_of_lookup _ _ _ ha)).2
      rw [← h]
      exact le_max_of_le_right (le_min (by linarith) (by norm_num))

theorem lookup_CRelation_of_range {K : Type} [DecidableEq K] (A B : FuzzySet K)
    (hA : UMap.WF A.data_) (rA : UMap.InRange A.data_) (x y : K) (a b : ℚ)
    (ha : UMap.lookup A.data_ x = some a) (hb : UMap.lookup B.data_ y = some b) :
    UMap.lookup (CRelation A B) (x, y) = some (max (min a b) (1 - a)) := by
  rw [lookup_CRelation A B hA, ha, hb]
  have h0 := (rA _ (UMap.mem_of_lookup _ _ _ ha)).1
  simp only [Option.some.injEq]
  rw [min_eq_left (show 1 - a ≤ 1 by linarith)]

theorem lookup_GeneralizedModusPonens {K : Type} [DecidableEq K] (A B A' : FuzzySet K)
    (hA : UMap.WF A.data_) (hA' : UMap.WF A'.data_)
    (rA : UMap.InRange A.data_) (rA' : UMap.InRange A'.data_) (y : K) :
    UMap.lookup (A.GeneralizedModusPonens B A').data_ y =
      if y ∈ UMap.keys B.data_ then
        some (FuzzySet.sup_min (CRelation A B) A'.data_ (fun a_prime_key => (a_prime_key, y)))
      else none := by
  unfold FuzzySet.GeneralizedModusPonens
  simp only
  rw [FuzzySet.lookup_foldl_insert
    (fun y => FuzzySet.sup_min (CRelation A B) A'.data_ (fun a_prime_key => (a_prime_key, y)))]
  · rfl
  · intro e _
    have := sup_min_greatest (CRelation A B) A'.data_ hA' rA' (fun a_prime_key => (a_prime_key, e.1))
      (fun k r h => CRelation_nonneg A B hA rA k e.1 r h)
    exact ⟨this.1, this.2.1⟩

theorem WF_GeneralizedModusPonens {K : Type} [DecidableEq K] (A B A' : FuzzySet K) :
    UMap.WF (A.GeneralizedModusPonens B A').data_ := by
  unfold FuzzySet.GeneralizedModusPonens
  exact FuzzySet.WF_foldl_insert
    (fun y _ => FuzzySet.sup_min (CRelation A B) A'.data_ (fun a_prime_key => (a_prime_key, y)))
    B.data_ ⟨[]⟩ (by unfold UMap.WF UMap.keys; simp)

theorem WF_GeneralizedModusTollens {K : Type} [DecidableEq K] (A B B' : FuzzySet K) :
    UMap.WF (A.GeneralizedModusTollens B B').data_ := by
  unfold FuzzySet.GeneralizedModusTollens
  exact FuzzySet.WF_foldl_insert
    (fun x _ => FuzzySet.sup_min (CRelation A B) B'.data_ (fun a_prime_key => (x, a_prime_key)))
    A.data_ ⟨[]⟩ (by unfold UMap.WF UMap.keys; simp)

theorem lookup_GeneralizedModusTollens {K : Type} [DecidableEq K] (A B B' : FuzzySet K)
    (hA : UMap.WF A.data_) (hB' : UMap.WF B'.data_)
    (rA : UMap.InRange A.data_) (rB' : UMap.InRange B'.data_) (x : K) :
    UMap.lookup (A.GeneralizedModusTollens B B').data_ x =
      if x ∈ UMap.keys A.data_ then
        some (FuzzySet.sup_min (CRelation A B) B'.data_ (fun a_prime_key => (x, a_prime_key)))
      else none := by
  unfold FuzzySet.GeneralizedModusTollens
  simp only
  rw [FuzzySet.lookup_foldl_insert
    (fun x => FuzzySet.sup_min (CRelation A B) B'.data_ (fun a_prime_key => (x, a_prime_key)))]
  · rfl
  · intro e _
    have := sup_min_greatest (CRelation A B) B'.data_ hB' rB' (fun a_prime_key => (e.1, a_prime_key))
      (fun k r h => CRelation_nonneg A B hA rA e.1 k r h)
    exact ⟨this.1, this.2.1⟩

theorem nodup_same_iff {α : Type} (a b : List α) (ha : a.Nodup) (hb : b.Nodup) :
    (a.length = b.length ∧ ∀ x ∈ a, x ∈ b) ↔ ∀ x, x ∈ a ↔ x ∈ b := by
  constructor
  · rintro ⟨hlen, hsub⟩ x
    have hp : List.Perm a b :=
      List.Subperm.perm_of_length_le (List.subperm_of_subset ha hsub) (le_of_eq hlen.symm)
    exact hp.mem_iff
  · intro h
    have hp : List.Perm a b := (List.perm_ext_iff_of_nodup ha hb).2 h
    exact ⟨hp.length_eq, fun x hx => (h x).1 hx⟩

theorem have_same_keys_iff {K : Type} [DecidableEq K] (left right : UMap (K × K))
    (hl : UMap.WF left) (hr : UMap.WF right) :
    have_same_keys left right = true ↔ ∀ p, p ∈ UMap.keys left ↔ p ∈ UMap.keys right := by
  rw [← nodup_same_iff _ _ hl hr]
  unfold have_same_keys UMap.size
  simp only [UMap.keys, List.length_map]
  by_cases hlen : left.length = right.length
  · simp only [hlen, ne_eq, not_true_eq_false, if_false, List.all_eq_true, true_and]
    constructor
    · intro h x hx
      obtain ⟨e, he, rfl⟩ := List.mem_map.1 hx
      exact (UMap.contains_iff _ _).1 (h e he)
    · intro h e he
      exact (UMap.contains_iff _ _).2 (h _ (List.mem_map.2 ⟨e, he, rfl⟩))
  · simp [hlen]

namespace FuzzyRelation

variable {K : Type} [DecidableEq K]

theorem update_loop_ok (combine : ℚ → ℚ → ℚ) (other self : UMap (K × K))
    (h : ∀ k ∈ UMap.keys self, k ∈ UMap.keys other) :
    ∃ d, update_loop combine other self = Except.ok d ∧ UMap.keys d = UMap.keys self ∧
      ∀ p a b, UMap.lookup self p = some a → UMap.lookup other p = some b →
        UMap.lookup d p = some (combine a b) := by
  induction self with
  | nil => exact ⟨[], rfl, rfl, by intro p a b ha; simp [UMap.lookup] at ha⟩
  | cons e rest ih =>
    obtain ⟨key, value⟩ := e
    have hrest : ∀ k ∈ UMap.keys rest, k ∈ UMap.keys other := by
      intro k hk
      exact h k (by simp only [UMap.keys, List.map_cons]; exact List.mem_cons_of_mem _ hk)
    obtain ⟨d, hd, hkeys, hval⟩ := ih hrest
    have hkey : key ∈ UMap.keys other := h key (by simp [UMap.keys])
    obtain ⟨o, ho⟩ := (UMap.mem_keys_iff_lookup _ _).1 hkey
    refine ⟨(key, combine value o) :: d, ?_, ?_, ?_⟩
    · simp only [update_loop, ho, hd]
    · simp only [UMap.keys, List.map_cons] at hkeys ⊢
      rw [hkeys]
    · intro p a b ha hb
      by_cases hp : key = p
      · subst hp
        simp only [UMap.lookup, if_true, Option.some.injEq] at ha ⊢
        rw [ho] at hb
        cases hb
        rw [ha]
      · simp only [UMap.lookup, hp, if_false] at ha ⊢
        exact hval p a b ha hb

theorem Unite_spec (R S : FuzzyRelation K) (hR : UMap.WF R.data_) (hS : UMap.WF S.data_) :
    ((∃ e, R.Unite S = Except.error e) ↔
      ¬ ∀ p, p ∈ UMap.keys R.data_ ↔ p ∈ UMap.keys S.data_) ∧
    ((∀ p, p ∈ UMap.keys R.data_ ↔ p ∈ UMap.keys S.data_) →
      ∃ U, R.Unite S = Except.ok U ∧ UMap.keys U.data_ = UMap.keys R.data_ ∧
        ∀ p a b, UMap.lookup R.data_ p = some a → UMap.lookup S.data_ p = some b →
          UMap.lookup U.data_ p = some (max a b)) := by
  have hok : (∀ p, p ∈ UMap.keys R.data_ ↔ p ∈ UMap.keys S.data_) →
      ∃ U, R.Unite S = Except.ok U ∧ UMap.keys U.data_ = UMap.keys R.data_ ∧
        ∀ p a b, UMap.lookup R.data_ p = some a → UMap.lookup S.data_ p = some b →
          UMap.lookup U.data_ p = some (max a b) := by
    intro h
    obtain ⟨d, hd, hkeys, hval⟩ := update_loop_ok max S.data_ R.data_ (fun k hk => (h k).1 hk)
    refine ⟨⟨d⟩, ?_, hkeys, hval⟩
    unfold Unite
    rw [(have_same_keys_iff _ _ hR hS).2 h, hd]
    rfl
  refine ⟨?_, hok⟩
  constructor
  · rintro ⟨e, he⟩ h
    obtain ⟨U, hU, _⟩ := hok h
    rw [hU] at he
    cases he
  · intro h
    have hf : have_same_keys R.data_ S.data_ = false := by
      cases hc : have_same_keys R.data_ S.data_ with
      | false => rfl
      | true => exact absurd ((have_same_keys_iff _ _ hR hS).1 hc) h
    exact ⟨FuzzyError.unite_order, by unfold Unite; rw [hf]; rfl⟩

theorem Intersect_spec (R S : FuzzyRelation K) (hR : UMap.WF R.data_) (hS : UMap.WF S.data_) :
    ((∃ e, R.Intersect S = Except.error e) ↔
      ¬ ∀ p, p ∈ UMap.keys R.data_ ↔ p ∈ UMap.keys S.data_) ∧
    ((∀ p, p ∈ UMap.keys R.data_ ↔ p ∈ UMap.keys S.data_) →
      ∃ I, R.Intersect S = Except.ok I ∧ UMap.keys I.data_ = UMap.keys R.data_ ∧
        ∀ p a b, UMap.lookup R.data_ p = some a → UMap.lookup S.data_ p = some b →
          UMap.lookup I.data_ p = some (min a b)) := by
  have hok : (∀ p, p ∈ UMap.keys R.data_ ↔ p ∈ UMap.keys S.data_) →
      ∃ I, R.Intersect S = Except.ok I ∧ UMap.keys I.data_ = UMap.keys R.data_ ∧
        ∀ p a b, UMap.lookup R.data_ p = some a → UMap.lookup S.data_ p = some b →
          UMap.lookup I.data_ p = some (min a b) := by
    intro h
    obtain ⟨d, hd, hkeys, hval⟩ := update_loop_ok min S.data_ R.data_ (fun k hk => (h k).1 hk)
    refine ⟨⟨d⟩, ?_, hkeys, hval⟩
    unfold Intersect
    rw [(have_same_keys_iff _ _ hR hS).2 h, hd]
    rfl
  refine ⟨?_, hok⟩
  constructor
  · rintro ⟨e, he⟩ h
    obtain ⟨I, hI, _⟩ := hok h
    rw [hI] at he
    cases he
  · intro h
    have hf : have_same_keys R.data_ S.data_ = false := by
      cases hc : have_same_keys R.data_ S.data_ with
      | false => rfl
      | true => exact absurd ((have_same_keys_iff _ _ hR hS).1 hc) h
    exact ⟨FuzzyError.intersect_order, by unfold Intersect; rw [hf]; rfl⟩

end FuzzyRelation

theorem uset_fold_spec {K E : Type} [DecidableEq K] (f : E → K) (l : List E) (init : List K) :
    (init.Nodup → (l.foldl (fun s e => uset_insert s (f e)) init).Nodup) ∧
    ∀ x, x ∈ l.foldl (fun s e => uset_insert s (f e)) init ↔ x ∈ init ∨ ∃ e ∈ l, f e = x := by
  induction l generalizing init with
  | nil => simp
  | cons e0 l ih =>
    rw [List.foldl_cons]
    obtain ⟨h1, h2⟩ := ih (uset_insert init (f e0))
    have hmem : ∀ x, x ∈ uset_insert init (f e0) ↔ x ∈ init ∨ x = f e0 := by
      intro x
      unfold uset_insert
      split
      · rename_i h
        constructor
        · exact Or.inl
        · rintro (h' | rfl)
          · exact h'
          · exact h
      · simp
    constructor
    · intro hn
      apply h1
      unfold uset_insert
      split
      · exact hn
      · rename_i h
        exact List.Nodup.append hn (List.nodup_singleton _) (by simpa using h)
    · intro x
      rw [h2, hmem]
      constructor
      · rintro ((h | rfl) | ⟨e, he, rfl⟩)
        · exact Or.inl h
        · exact Or.inr ⟨e0, List.mem_cons_self _ _, rfl⟩
        · exact Or.inr ⟨e, List.mem_cons_of_mem _ he, rfl⟩
      · rintro (h | ⟨e, he, rfl⟩)
        · exact Or.inl (Or.inl h)
        · rcases List.mem_cons.1 he with rfl | he
          · exact Or.inl (Or.inr rfl)
          · exact Or.inr ⟨e, he, rfl⟩

theorem uset_eq_iff {K : Type} [DecidableEq K] (a b : List K) (ha : a.Nodup) (hb : b.Nodup) :
    uset_eq a b = true ↔ ∀ x, x ∈ a ↔ x ∈ b := by
  rw [← nodup_same_iff a b ha hb]
  unfold uset_eq
  simp

theorem composable_iff {K : Type} [DecidableEq K] (left right : UMap (K × K)) :
    composable left right = true ↔
      ∀ t, (∃ x, (x, t) ∈ UMap.keys left) ↔ (∃ z, (t, z) ∈ UMap.keys right) := by
  unfold composable
  simp only
  obtain ⟨hl1, hl2⟩ := uset_fold_spec (fun e : (K × K) × ℚ => e.1.2) left []
  obtain ⟨hr1, hr2⟩ := uset_fold_spec (fun e : (K × K) × ℚ => e.1.1) right []
  rw [uset_eq_iff _ _ (hl1 List.nodup_nil) (hr1 List.nodup_nil)]
  have hL : ∀ t, (∃ e ∈ left, e.1.2 = t) ↔ ∃ x, (x, t) ∈ UMap.keys left := by
    intro t
    constructor
    · rintro ⟨e, he, rfl⟩
      exact ⟨e.1.1, List.mem_map.2 ⟨e, he, rfl⟩⟩
    · rintro ⟨x, hx⟩
      obtain ⟨e, he, hxe⟩ := List.mem_map.1 hx
      exact ⟨e, he, by rw [hxe]⟩
  have hR : ∀ t, (∃ e ∈ right, e.1.1 = t) ↔ ∃ z, (t, z) ∈ UMap.keys right := by
    intro t
    constructor
    · rintro ⟨e, he, rfl⟩
      exact ⟨e.1.2, List.mem_map.2 ⟨e, he, rfl⟩⟩
    · rintro ⟨z, hz⟩
      obtain ⟨e, he, hze⟩ := List.mem_map.1 hz
      exact ⟨e, he, by rw [hze]⟩
  constructor
  · intro h t
    rw [← hL, ← hR]
    have := h t
    simpa [hl2, hr2] using this
  · intro h t
    rw [hl2, hr2]
    have := h t
    rw [← hL, ← hR] at this
    simpa using this

namespace UMap

variable {K : Type} [DecidableEq K]

theorem Collects_congr (m : UMap K) (C C' : K → ℚ → Prop) (h : ∀ k w, C k w ↔ C' k w)
    (hm : Collects m C) : Collects m C' := by
  obtain ⟨h1, h2, h3⟩ := hm
  refine ⟨h1, ?_, ?_⟩
  · intro k v hv
    obtain ⟨ha, hb⟩ := h2 k v hv
    exact ⟨(h k v).1 ha, fun w hw => hb w ((h k w).2 hw)⟩
  · intro k hk w hw
    exact h3 k hk w ((h k w).2 hw)

theorem Collects_nil : Collects ([] : UMap K) (fun _ _ => False) := by
  refine ⟨by unfold WF keys; simp, ?_, ?_⟩
  · intro k v hv; simp [lookup] at hv
  · intro k _ w hw; exact hw

/-- Writing `max(old, w0)` to a present key `k0`, or `w0` to a missing one, adds
the contribution `w0` to the key `k0`. -/
theorem Collects_upsert (m : UMap K) (C : K → ℚ → Prop) (hm : Collects m C) (k0 : K) (w0 : ℚ) :
    Collects
      (match lookup m k0 with
        | none => assign m k0 w0
        | some cur => assign m k0 (max cur w0))
      (fun k w => C k w ∨ (k = k0 ∧ w = w0)) := by
  obtain ⟨h1, h2, h3⟩ := hm
  cases hk0 : lookup m k0 with
  | none =>
    simp only
    refine ⟨WF_assign _ h1 _ _, ?_, ?_⟩
    · intro k v hv
      rw [lookup_assign] at hv
      by_cases hk : k0 = k
      · subst hk
        rw [if_pos rfl] at hv
        cases hv
        refine ⟨Or.inr ⟨rfl, rfl⟩, ?_⟩
        rintro w (hw | ⟨_, rfl⟩)
        · exact absurd hw (h3 k0 hk0 w)
        · exact le_refl _
      · rw [if_neg hk] at hv
        obtain ⟨ha, hb⟩ := h2 k v hv
        refine ⟨Or.inl ha, ?_⟩
        rintro w (hw | ⟨hkk, _⟩)
        · exact hb w hw
        · exact absurd hkk.symm hk
    · intro k hk w hw
      rw [lookup_assign] at hk
      by_cases hkk : k0 = k
      · rw [if_pos hkk] at hk; cases hk
      · rw [if_neg hkk] at hk
        rcases hw with hw | ⟨hkk', _⟩
        · exact h3 k hk w hw
        · exact hkk hkk'.symm
  | some cur =>
    simp only
    obtain ⟨hc1, hc2⟩ := h2 k0 cur hk0
    refine ⟨WF_assign _ h1 _ _, ?_, ?_⟩
    · intro k v hv
      rw [lookup_assign] at hv
      by_cases hk : k0 = k
      · subst hk
        rw [if_pos rfl] at hv
        cases hv
        constructor
        · rcases max_choice cur w0 with hc | hc
          · rw [hc]; exact Or.inl hc1
          · rw [hc]; exact Or.inr ⟨rfl, rfl⟩
        · rintro w (hw | ⟨_, rfl⟩)
          · exact le_trans (hc2 w hw) (le_max_left _ _)
          · exact le_max_right _ _
      · rw [if_neg hk] at hv
        obtain ⟨ha, hb⟩ := h2 k v hv
        refine ⟨Or.inl ha, ?_⟩
        rintro w (hw | ⟨hkk, _⟩)
        · exact hb w hw
        · exact absurd hkk.symm hk
    · intro k hk w hw
      rw [lookup_assign] at hk
      by_cases hkk : k0 = k
      · rw [if_pos hkk] at hk; cases hk
      · rw [if_neg hkk] at hk
        rcases hw with hw | ⟨hkk', _⟩
        · exact h3 k hk w hw
        · exact hkk hkk'.symm

/-- A loop whose body adds the contributions of the entry it visits adds the
contributions of all entries. -/
theorem Collects_foldl {E : Type} (step : UMap K → E → UMap K) (contrib : E → K → ℚ → Prop)
    (hstep : ∀ m e C, Collects m C → Collects (step m e) (fun k w => C k w ∨ contrib e k w))
    (l : List E) (m : UMap K) (C : K → ℚ → Prop) (hm : Collects m C) :
    Collects (l.foldl step m) (fun k w => C k w ∨ ∃ e ∈ l, contrib e k w) := by
  induction l generalizing m C with
  | nil =>
    refine Collects_congr _ _ _ ?_ hm
    intro k w; simp
  | cons e0 l ih =>
    rw [List.foldl_cons]
    refine Collects_congr _ _ _ ?_ (ih _ _ (hstep m e0 C hm))
    intro k w
    constructor
    · rintro ((h | h) | ⟨e, he, h⟩)
      · exact Or.inl h
      · exact Or.inr ⟨e0, List.mem_cons_self _ _, h⟩
      · exact Or.inr ⟨e, List.mem_cons_of_mem _ he, h⟩
    · rintro (h | ⟨e, he, h⟩)
      · exact Or.inl (Or.inl h)
      · rcases List.mem_cons.1 he with rfl | he
        · exact Or.inl (Or.inr h)
        · exact Or.inr ⟨e, he, h⟩

end UMap

namespace FuzzyRelation

variable {K : Type} [DecidableEq K]

theorem Collects_Composition_step (x y : K) (x_y : ℚ) (m : UMap (K × K)) (pair2 : (K × K) × ℚ)
    (C : K × K → ℚ → Prop) (hm : UMap.Collects m C) :
    UMap.Collects (Composition_step x y x_y m pair2)
      (fun k w => C k w ∨ (y = pair2.1.1 ∧ k = (x, pair2.1.2) ∧ w = min x_y pair2.2)) := by
  unfold Composition_step
  by_cases hy : y = pair2.1.1
  · rw [if_pos hy]
    refine UMap.Collects_congr _ _ _ ?_ (UMap.Collects_upsert m C hm (x, pair2.1.2) (min x_y pair2.2))
    intro k w
    simp [hy]
  · rw [if_neg hy]
    refine UMap.Collects_congr _ _ _ ?_ hm
    intro k w
    simp [hy]

/-- The two loops of `Composition` collect, for every pair `(x, z)`, the
greatest `min` over the entries `((x, y), a)` of the left relation and
`((y, z), b)` of the right one. -/
theorem Collects_Composition_loops (left right : UMap (K × K)) :
    UMap.Collects
      (left.foldl (fun result_data pair1 =>
        right.foldl (Composition_step pair1.1.1 pair1.1.2 pair1.2) result_data) [])
      (fun k w => ∃ p1 ∈ left, ∃ p2 ∈ right,
        p1.1.2 = p2.1.1 ∧ k = (p1.1.1, p2.1.2) ∧ w = min p1.2 p2.2) := by
  have h := UMap.Collects_foldl
    (fun result_data (pair1 : (K × K) × ℚ) =>
      right.foldl (Composition_step pair1.1.1 pair1.1.2 pair1.2) result_data)
    (fun p1 k w => ∃ p2 ∈ right, p1.1.2 = p2.1.1 ∧ k = (p1.1.1, p2.1.2) ∧ w = min p1.2 p2.2)
    (fun m p1 C hm => UMap.Collects_foldl (Composition_step p1.1.1 p1.1.2 p1.2)
      (fun p2 k w => p1.1.2 = p2.1.1 ∧ k = (p1.1.1, p2.1.2) ∧ w = min p1.2 p2.2)
      (fun m' p2 C' hm' => Collects_Composition_step p1.1.1 p1.1.2 p1.2 m' p2 C' hm')
      right m C hm)
    left [] (fun _ _ => False) UMap.Collects_nil
  refine UMap.Collects_congr _ _ _ ?_ h
  intro k w
  simp

/-- The predicate of the chains through a middle element: `w` is
`min(R(x, y), S(y, z))` for some `y`. -/
theorem chain_iff (R S : FuzzyRelation K) (hR : UMap.WF R.data_) (hS : UMap.WF S.data_)
    (x z : K) (w : ℚ) :
    (∃ p1 ∈ R.data_, ∃ p2 ∈ S.data_,
      p1.1.2 = p2.1.1 ∧ (x, z) = (p1.1.1, p2.1.2) ∧ w = min p1.2 p2.2) ↔
    ∃ y a b, UMap.lookup R.data_ (x, y) = some a ∧ UMap.lookup S.data_ (y, z) = some b ∧
      w = min a b := by
  constructor
  · rintro ⟨⟨⟨x1, y1⟩, a⟩, h1, ⟨⟨y2, z2⟩, b⟩, h2, hy, hk, hw⟩
    simp only [Prod.mk.injEq] at hy hk
    obtain ⟨rfl, rfl⟩ := hk
    subst hy
    exact ⟨y1, a, b, UMap.lookup_of_mem _ hR _ _ h1, UMap.lookup_of_mem _ hS _ _ h2, hw⟩
  · rintro ⟨y, a, b, ha, hb, hw⟩
    exact ⟨((x, y), a), UMap.mem_of_lookup _ _ _ ha, ((y, z), b), UMap.mem_of_lookup _ _ _ hb,
      rfl, rfl, hw⟩

/-- What a successful `Composition` returns: max-min composition. -/
theorem Composition_char (R S C : FuzzyRelation K) (hR : UMap.WF R.data_) (hS : UMap.WF S.data_)
    (hC : R.Composition S = Except.ok C) :
    UMap.Collects C.data_ (fun k w => ∃ y a b, UMap.lookup R.data_ (k.1, y) = some a ∧
      UMap.lookup S.data_ (y, k.2) = some b ∧ w = min a b) := by
  unfold Composition at hC
  split at hC
  · cases hC
  · cases hC
    refine UMap.Collects_congr _ _ _ ?_ (Collects_Composition_loops R.data_ S.data_)
    rintro ⟨x, z⟩ w
    exact chain_iff R S hR hS x z w

theorem Composition_ok (R S : FuzzyRelation K)
    (hc : ∀ t, (∃ x, (x, t) ∈ UMap.keys R.data_) ↔ (∃ z, (t, z) ∈ UMap.keys S.data_)) :
    ∃ C, R.Composition S = Except.ok C := by
  unfold Composition
  rw [(composable_iff _ _).2 hc]
  exact ⟨_, rfl⟩

theorem operator_eq_of_lookup_eq (X Y : FuzzyRelation K) (hX : UMap.WF X.data_)
    (hY : UMap.WF Y.data_) (h : ∀ k, UMap.lookup X.data_ k = UMap.lookup Y.data_ k) :
    X.operator_eq Y = true := by
  have hkeys : ∀ k, k ∈ UMap.keys X.data_ ↔ k ∈ UMap.keys Y.data_ := by
    intro k
    rw [← UMap.lookup_isSome_iff, ← UMap.lookup_isSome_iff, h k]
  have hlen : UMap.size X.data_ = UMap.size Y.data_ := by
    have := ((nodup_same_iff _ _ hX hY).2 hkeys).1
    simpa [UMap.size, UMap.keys] using this
  unfold operator_eq
  rw [if_neg (by simp [hlen])]
  rw [List.all_eq_true]
  intro pair hpair
  have hl : UMap.lookup X.data_ pair.1 = some pair.2 := UMap.lookup_of_mem _ hX _ _ hpair
  rw [← h pair.1, hl]
  simp only [sub_self, abs_zero, Bool.not_eq_true', decide_eq_false_iff_not, not_lt]
  norm_num

/-- The chains of three entries through two middle elements, seen from a
composition on the left: `(R∘S)∘T`. -/
theorem Composition_left_char (R S T RS L : FuzzyRelation K) (hR : UMap.WF R.data_)
    (hS : UMap.WF S.data_) (hT : UMap.WF T.data_)
    (h1 : R.Composition S = Except.ok RS) (h2 : RS.Composition T = Except.ok L) :
    UMap.Collects L.data_ (fun k w => ∃ y z a b c, UMap.lookup R.data_ (k.1, y) = some a ∧
      UMap.lookup S.data_ (y, z) = some b ∧ UMap.lookup T.data_ (z, k.2) = some c ∧
      w = min (min a b) c) := by
  obtain ⟨hRSwf, hRS1, hRS2⟩ := Composition_char R S RS hR hS h1
  obtain ⟨hLwf, hL1, hL2⟩ := Composition_char RS T L hRSwf hT h2
  refine ⟨hLwf, ?_, ?_⟩
  · intro k v hv
    obtain ⟨⟨z, ab, c, hab, hc, hv'⟩, hbound⟩ := hL1 k v hv
    obtain ⟨⟨y, a, b, ha, hb, hab'⟩, _⟩ := hRS1 (k.1, z) ab hab
    refine ⟨⟨y, z, a, b, c, ha, hb, hc, by rw [hv', hab']⟩, ?_⟩
    rintro w ⟨y', z', a', b', c', ha', hb', hc', rfl⟩
    cases hl : UMap.lookup RS.data_ (k.1, z') with
    | none => exact absurd ⟨y', a', b', ha', hb', rfl⟩ (hRS2 (k.1, z') hl (min a' b'))
    | some ab' =>
      have hle : min a' b' ≤ ab' := (hRS1 (k.1, z') ab' hl).2 _ ⟨y', a', b', ha', hb', rfl⟩
      exact le_trans (min_le_min hle (le_refl _)) (hbound _ ⟨z', ab', c', hl, hc', rfl⟩)
  · rintro k hk w ⟨y', z', a', b', c', ha', hb', hc', rfl⟩
    cases hl : UMap.lookup RS.data_ (k.1, z') with
    | none => exact absurd ⟨y', a', b', ha', hb', rfl⟩ (hRS2 (k.1, z') hl (min a' b'))
    | some ab' => exact hL2 k hk (min ab' c') ⟨z', ab', c', hl, hc', rfl⟩

/-- The chains of three entries through two middle elements, seen from a
composition on the right: `R∘(S∘T)`. -/
theorem Composition_right_char (R S T ST Rr : FuzzyRelation K) (hR : UMap.WF R.data_)
    (hS : UMap.WF S.data_) (hT : UMap.WF T.data_)
    (h1 : S.Composition T = Except.ok ST) (h2 : R.Composition ST = Except.ok Rr) :
    UMap.Collects Rr.data_ (fun k w => ∃ y z a b c, UMap.lookup R.data_ (k.1, y) = some a ∧
      UMap.lookup S.data_ (y, z) = some b ∧ UMap.lookup T.data_ (z, k.2) = some c ∧
      w = min (min a b) c) := by
  obtain ⟨hSTwf, hST1, hST2⟩ := Composition_char S T ST hS hT h1
  obtain ⟨hRwf, hR1, hR2⟩ := Composition_char R ST Rr hR hSTwf h2
  refine ⟨hRwf, ?_, ?_⟩
  · intro k v hv
    obtain ⟨⟨y, a, bc, ha, hbc, hv'⟩, hbound⟩ := hR1 k v hv
    obtain ⟨⟨z, b, c, hb, hc, hbc'⟩, _⟩ := hST1 (y, k.2) bc hbc
    refine ⟨⟨y, z, a, b, c, ha, hb, hc, by rw [hv', hbc', min_assoc]⟩, ?_⟩
    rintro w ⟨y', z', a', b', c', ha', hb', hc', rfl⟩
    cases hl : UMap.lookup ST.data_ (y', k.2) with
    | none => exact absurd ⟨z', b', c', hb', hc', rfl⟩ (hST2 (y', k.2) hl (min b' c'))
    | some bc' =>
      have hle : min b' c' ≤ bc' := (hST1 (y', k.2) bc' hl).2 _ ⟨z', b', c', hb', hc', rfl⟩
      rw [min_assoc]
      exact le_trans (min_le_min (le_refl _) hle) (hbound _ ⟨y', a', bc', ha', hl, rfl⟩)
  · rintro k hk w ⟨y', z', a', b', c', ha', hb', hc', rfl⟩
    cases hl : UMap.lookup ST.data_ (y', k.2) with
    | none => exact absurd ⟨z', b', c', hb', hc', rfl⟩ (hST2 (y', k.2) hl (min b' c'))
    | some bc' => exact hR2 k hk (min a' bc') ⟨y', a', bc', ha', hl, rfl⟩

end FuzzyRelation

namespace UMap

variable {K : Type} [DecidableEq K]

/-- Two maps that collect the same contributions hold the same entries. -/
theorem Collects_unique (m m' : UMap K) (C : K → ℚ → Prop) (h : Collects m C)
    (h' : Collects m' C) (k : K) : lookup m k = lookup m' k := by
  obtain ⟨_, h2, h3⟩ := h
  obtain ⟨_, h2', h3'⟩ := h'
  cases hl : lookup m k with
  | none =>
    cases hl' : lookup m' k with
    | none => rfl
    | some v' => exact absurd (h2' k v' hl').1 (h3 k hl v')
  | some v =>
    cases hl' : lookup m' k with
    | none => exact absurd (h2 k v hl).1 (h3' k hl' v)
    | some v' =>
      have hle : v ≤ v' := (h2' k v' hl').2 v (h2 k v hl).1
      have hge : v' ≤ v := (h2 k v hl).2 v' (h2' k v' hl').1
      rw [le_antisymm hle hge]

end UMap

namespace UMap

variable {K : Type} [DecidableEq K]

theorem assign_of_lookup_none (m : UMap K) (k : K) (v : ℚ) (h : lookup m k = none) :
    assign m k v = m ++ [(k, v)] := by
  induction m with
  | nil => rfl
  | cons e m ih =>
    obtain ⟨k0, v0⟩ := e
    by_cases h0 : k0 = k
    · simp [lookup, h0] at h
    · simp only [lookup, h0, if_false] at h
      simp [assign, h0, ih h]

theorem insert_of_lookup_none (m : UMap K) (k : K) (v : ℚ) (h : lookup m k = none) :
    insert m k v = m ++ [(k, v)] := by
  unfold insert contains
  rw [h]
  rfl

theorem InRange_of_lookup (m : UMap K) (hm : WF m)
    (h : ∀ k v, lookup m k = some v → 0 ≤ v ∧ v ≤ 1) : InRange m := by
  intro e he
  exact h e.1 e.2 (lookup_of_mem m hm e.1 e.2 he)

theorem range_of_lookup (m : UMap K) (hm : InRange m) (k : K) (v : ℚ)
    (h : lookup m k = some v) : 0 ≤ v ∧ v ≤ 1 :=
  hm _ (mem_of_lookup m k v h)

end UMap

namespace FuzzySet

variable {K : Type} [DecidableEq K]

theorem fromList_step_eq_insert (s : FuzzySet K) (pair : K × ℚ) :
    fromList_step s.data_ pair = (s.insert pair.1 pair.2).data_ := by
  unfold fromList_step insert
  by_cases h : pair.2 < 0 ∨ pair.2 > 1 ∨ UMap.contains s.data_ pair.1 = true
  · rw [if_pos h, if_pos h]
  · rw [if_neg h, if_neg h]
    have hl : UMap.lookup s.data_ pair.1 = none := by
      have hc : ¬ UMap.contains s.data_ pair.1 = true := fun hc => h (Or.inr (Or.inr hc))
      unfold UMap.contains at hc
      cases hl : UMap.lookup s.data_ pair.1 with
      | none => rfl
      | some w => rw [hl] at hc; exact absurd rfl hc
    rw [UMap.assign_of_lookup_none _ _ _ hl, UMap.insert_of_lookup_none _ _ _ hl]

theorem fromList_fold_eq_insert (L : List (K × ℚ)) (s : FuzzySet K) :
    L.foldl fromList_step s.data_ = (L.foldl (fun s e => s.insert e.1 e.2) s).data_ := by
  induction L generalizing s with
  | nil => rfl
  | cons e L ih =>
    rw [List.foldl_cons, List.foldl_cons, fromList_step_eq_insert, ih]

theorem insert_rejected (s : FuzzySet K) (k : K) (v : ℚ)
    (h : v < 0 ∨ v > 1 ∨ k ∈ UMap.keys s.data_) : s.insert k v = s := by
  unfold insert
  rw [if_pos]
  rcases h with h | h | h
  · exact Or.inl h
  · exact Or.inr (Or.inl h)
  · exact Or.inr (Or.inr ((UMap.contains_iff _ _).2 h))

theorem insert_accepted (s : FuzzySet K) (k : K) (v : ℚ)
    (h : ¬ (v < 0 ∨ v > 1 ∨ k ∈ UMap.keys s.data_)) :
    (s.insert k v).data_ = s.data_ ++ [(k, v)] := by
  have h0 : 0 ≤ v := not_lt.1 (fun hh => h (Or.inl hh))
  have h1 : v ≤ 1 := not_lt.1 (fun hh => h (Or.inr (Or.inl hh)))
  have hk : UMap.lookup s.data_ k = none :=
    (UMap.lookup_eq_none_iff _ _).2 (fun hh => h (Or.inr (Or.inr hh)))
  rw [insert_data_of_range s k v h0 h1, UMap.insert_of_lookup_none _ _ _ hk]

end FuzzySet

namespace FuzzySet

variable {K : Type} [DecidableEq K]

theorem InRange_insert (s : FuzzySet K) (hs : UMap.InRange s.data_) (k : K) (v : ℚ) :
    UMap.InRange (s.insert k v).data_ := by
  unfold insert
  by_cases h : v < 0 ∨ v > 1 ∨ UMap.contains s.data_ k = true
  · rw [if_pos h]; exact hs
  · rw [if_neg h]
    have h0 : 0 ≤ v := not_lt.1 (fun hh => h (Or.inl hh))
    have h1 : v ≤ 1 := not_lt.1 (fun hh => h (Or.inr (Or.inl hh)))
    unfold UMap.insert
    split
    · exact hs
    · intro e he
      rcases List.mem_append.1 he with he | he
      · exact hs e he
      · simp only [List.mem_singleton] at he
        subst he
        exact ⟨h0, h1⟩

theorem InRange_foldl_insert (h : K → K × ℚ → ℚ) (l : UMap K) (acc : FuzzySet K)
    (hacc : UMap.InRange acc.data_) :
    UMap.InRange (l.foldl (fun result b => result.insert b.1 (h b.1 b)) acc).data_ := by
  induction l generalizing acc with
  | nil => exact hacc
  | cons e l ih => exact ih _ (InRange_insert _ hacc _ _)

theorem InRange_erase (s : FuzzySet K) (hs : UMap.InRange s.data_) (k : K) :
    UMap.InRange (s.erase k).data_ := by
  intro e he
  exact hs e (List.mem_of_mem_filter he)

theorem InRange_Unite (A B : FuzzySet K) (hA : UMap.WF A.data_) (hB : UMap.WF B.data_)
    (rA : UMap.InRange A.data_) (rB : UMap.InRange B.data_) : UMap.InRange (A.Unite B).data_ := by
  refine UMap.InRange_of_lookup _ (WF_Unite A B hA) ?_
  intro k v hv
  rw [lookup_Unite A B hB] at hv
  cases hb : UMap.lookup B.data_ k with
  | none =>
    rw [hb] at hv
    exact UMap.range_of_lookup _ rA k v hv
  | some b =>
    have hbr := UMap.range_of_lookup _ rB k b hb
    cases ha : UMap.lookup A.data_ k with
    | none =>
      rw [hb, ha] at hv
      cases hv
      exact hbr
    | some a =>
      have har := UMap.range_of_lookup _ rA k a ha
      rw [hb, ha] at hv
      cases hv
      exact ⟨le_max_of_le_left har.1, max_le har.2 hbr.2⟩

theorem InRange_Intersect (A B : FuzzySet K) (hA : UMap.WF A.data_)
    (rA : UMap.InRange A.data_) (rB : UMap.InRange B.data_) :
    UMap.InRange (A.Intersect B).data_ := by
  refine UMap.InRange_of_lookup _ (WF_Intersect A B hA) ?_
  intro k v hv
  rw [lookup_Intersect A B hA] at hv
  cases ha : UMap.lookup A.data_ k with
  | none => rw [ha] at hv; cases hv
  | some a =>
    cases hb : UMap.lookup B.data_ k with
    | none => rw [ha, hb] at hv; cases hv
    | some b =>
      have har := UMap.range_of_lookup _ rA k a ha
      have hbr := UMap.range_of_lookup _ rB k b hb
      rw [ha, hb] at hv
      cases hv
      exact ⟨le_min har.1 hbr.1, le_trans (min_le_left _ _) har.2⟩

theorem InRange_Complement (A : FuzzySet K) (hA : UMap.WF A.data_)
    (rA : UMap.InRange A.data_) : UMap.InRange A.Complement.data_ := by
  refine UMap.InRange_of_lookup _ (WF_Complement A hA) ?_
  intro k v hv
  rw [lookup_Complement A hA] at hv
  cases ha : UMap.lookup A.data_ k with
  | none => rw [ha] at hv; cases hv
  | some a =>
    have har := UMap.range_of_lookup _ rA k a ha
    rw [ha] at hv
    cases hv
    constructor <;> beta_reduce <;> linarith [har.1, har.2]

theorem InRange_Implicate (A B : FuzzySet K) (hA : UMap.WF A.data_) (hB : UMap.WF B.data_)
    (rA : UMap.InRange A.data_) (rB : UMap.InRange B.data_) (type : ImplicationType) :
    UMap.InRange (A.Implicate B type).data_ := by
  refine UMap.InRange_of_lookup _ (WF_Implicate A B hA type) ?_
  intro k v hv
  rw [lookup_Implicate A B hA hB] at hv
  split at hv
  · cases hv
    cases ha : UMap.lookup A.data_ k with
    | none => simp
    | some a =>
      have har := UMap.range_of_lookup _ rA k a ha
      have hne : a ≠ -1 := ne_neg_one_of_InRange _ rA k a ha
      have hbr : 0 ≤ (UMap.lookup B.data_ k).getD 0 ∧ (UMap.lookup B.data_ k).getD 0 ≤ 1 := by
        cases hb : UMap.lookup B.data_ k with
        | none => simp
        | some b => exact UMap.range_of_lookup _ rB k b hb
      simp only [if_neg hne]
      cases type
      · refine ⟨mul_nonneg har.1 hbr.1, ?_⟩
        show a * (UMap.lookup B.data_ k).getD 0 ≤ 1
        nlinarith [mul_nonneg (sub_nonneg.2 har.2) hbr.1, hbr.2]
      · exact ⟨le_min har.1 hbr.1, le_trans (min_le_left _ _) har.2⟩
      · exact ⟨le_min (by norm_num) (by linarith [har.2, hbr.1]), min_le_left _ _⟩
      · exact ⟨le_max_of_le_right hbr.1, max_le (by linarith [har.1]) hbr.2⟩
  · cases hv

theorem InRange_GeneralizedModusPonens (A B A' : FuzzySet K) :
    UMap.InRange (A.GeneralizedModusPonens B A').data_ := by
  unfold GeneralizedModusPonens
  exact InRange_foldl_insert
    (fun y _ => sup_min (CRelation A B) A'.data_ (fun a_prime_key => (a_prime_key, y)))
    B.data_ ⟨[]⟩ (by intro e he; simp at he)

theorem InRange_GeneralizedModusTollens (A B B' : FuzzySet K) :
    UMap.InRange (A.GeneralizedModusTollens B B').data_ := by
  unfold GeneralizedModusTollens
  exact InRange_foldl_insert
    (fun x _ => sup_min (CRelation A B) B'.data_ (fun a_prime_key => (x, a_prime_key)))
    A.data_ ⟨[]⟩ (by intro e he; simp at he)

theorem InRange_fromList (L : List (K × ℚ)) : UMap.InRange (fromList L).data_ := by
  have h := fromList_fold_eq_insert L empty
  unfold fromList
  show UMap.InRange (L.foldl fromList_step empty.data_)
  rw [h]
  exact InRange_foldl_insert (fun _ e => e.2) L empty (by intro e he; simp [empty] at he)

end FuzzySet

namespace UMap

variable {K : Type} [DecidableEq K]

theorem lookup_map_values (m : UMap K) (f : ℚ → ℚ) (k : K) :
    lookup (m.map (fun e => (e.1, f e.2))) k = (lookup m k).map f := by
  induction m with
  | nil => rfl
  | cons e m ih =>
    obtain ⟨k0, v0⟩ := e
    by_cases h0 : k0 = k <;> simp [lookup, h0, ih]

theorem keys_map_values (m : UMap K) (f : ℚ → ℚ) :
    keys (m.map (fun e => (e.1, f e.2))) = keys m := by
  unfold keys
  rw [List.map_map]
  rfl

/-- Two maps with the same keys in the same order and the same degree at every
key are the same list of entries. -/
theorem eq_of_keys_eq_of_lookup_eq (m m' : UMap K) (hm : WF m) (hk : keys m = keys m')
    (hl : ∀ k, lookup m k = lookup m' k) : m = m' := by
  induction m generalizing m' with
  | nil =>
    cases m' with
    | nil => rfl
    | cons e' t' => simp [keys] at hk
  | cons e t ih =>
    cases m' with
    | nil => simp [keys] at hk
    | cons e' t' =>
      obtain ⟨k0, v0⟩ := e
      obtain ⟨k1, v1⟩ := e'
      simp only [keys, List.map_cons, List.cons.injEq] at hk
      obtain ⟨hk01, hkt⟩ := hk
      subst hk01
      have hv : v0 = v1 := by
        have := hl k0
        simpa [lookup] using this
      subst hv
      rw [WF_cons] at hm
      have ht : t = t' := by
        refine ih t' hm.2 hkt ?_
        intro x
        by_cases hx : k0 = x
        · subst hx
          have h1 : lookup t k0 = none := (lookup_eq_none_iff _ _).2 hm.1
          have h2 : lookup t' k0 = none := by
            refine (lookup_eq_none_iff _ _).2 ?_
            have hkt' : keys t = keys t' := hkt
            rw [← hkt']
            exact hm.1
          rw [h1, h2]
        · have := hl x
          simpa [lookup, hx] using this
      rw [ht]

/-- A loop that only overwrites keys the map already holds keeps the keys and
their order. -/
theorem keys_foldl_assign {E : Type} (key : E → K) (g : E → ℚ) (l : List E) (acc : UMap K)
    (h : ∀ e ∈ l, key e ∈ keys acc) :
    keys (l.foldl (fun data e => assign data (key e) (g e)) acc) = keys acc := by
  induction l generalizing acc with
  | nil => rfl
  | cons e l ih =>
    have he : key e ∈ keys acc := h e (List.mem_cons_self _ _)
    have hk : keys (assign acc (key e) (g e)) = keys acc := by
      rw [keys_assign, if_pos he]
    rw [List.foldl_cons, ih, hk]
    intro e' he'
    rw [hk]
    exact h e' (List.mem_cons_of_mem _ he')

end UMap

namespace FuzzySet

variable {K : Type} [DecidableEq K]

theorem keys_Complement (A : FuzzySet K) : UMap.keys A.Complement.data_ = UMap.keys A.data_ := by
  unfold Complement
  exact UMap.keys_foldl_assign Prod.fst (fun e => 1 - e.2) A.data_ A.data_
    (fun e he => UMap.mem_keys_of_mem _ e he)

theorem Complement_Complement (A : FuzzySet K) (hA : UMap.WF A.data_) :
    A.Complement.Complement = A := by
  have hW : UMap.WF A.Complement.data_ := WF_Complement A hA
  have hd : A.Complement.Complement.data_ = A.data_ := by
    refine UMap.eq_of_keys_eq_of_lookup_eq _ _ (WF_Complement _ hW) ?_ ?_
    · rw [keys_Complement, keys_Complement]
    · intro k
      rw [lookup_Complement _ hW, lookup_Complement _ hA]
      cases UMap.lookup A.data_ k with
      | none => rfl
      | some a => simp
  have hmk : ∀ X Y : FuzzySet K, X.data_ = Y.data_ → X = Y := by
    intro X Y hXY
    cases X
    cases Y
    simp only at hXY
    rw [hXY]
  exact hmk _ _ hd

theorem set_operator_eq_of_lookup_eq (X Y : FuzzySet K) (hX : UMap.WF X.data_)
    (hY : UMap.WF Y.data_) (h : ∀ k, UMap.lookup X.data_ k = UMap.lookup Y.data_ k) :
    X.operator_eq Y = true := by
  have hkeys : ∀ k, k ∈ UMap.keys X.data_ ↔ k ∈ UMap.keys Y.data_ := by
    intro k
    rw [← UMap.lookup_isSome_iff, ← UMap.lookup_isSome_iff, h k]
  have hlen : UMap.size X.data_ = UMap.size Y.data_ := by
    have := ((nodup_same_iff _ _ hX hY).2 hkeys).1
    simpa [UMap.size, UMap.keys] using this
  unfold operator_eq
  rw [if_neg (by simp [hlen])]
  rw [List.all_eq_true]
  intro pair hpair
  have hl : UMap.lookup X.data_ pair.1 = some pair.2 := UMap.lookup_of_mem _ hX _ _ hpair
  rw [← h pair.1, hl]
  simp only [sub_self, abs_zero, Bool.not_eq_true', decide_eq_false_iff_not, not_lt]
  norm_num

end FuzzySet

namespace FuzzyRelation

variable {K : Type} [DecidableEq K]

theorem InRange_update_loop (combine : ℚ → ℚ → ℚ)
    (hc : ∀ a b, (0 ≤ a ∧ a ≤ 1) → (0 ≤ b ∧ b ≤ 1) → 0 ≤ combine a b ∧ combine a b ≤ 1)
    (other self d : UMap (K × K)) (ro : UMap.InRange other) (rs : UMap.InRange self)
    (h : update_loop combine other self = Except.ok d) : UMap.InRange d := by
  induction self generalizing d with
  | nil =>
    simp only [update_loop, Except.ok.injEq] at h
    subst h
    intro e he
    simp at he
  | cons e rest ih =>
    obtain ⟨key, value⟩ := e
    have rrest : UMap.InRange rest := fun e' he' => rs e' (List.mem_cons_of_mem _ he')
    have rval : 0 ≤ value ∧ value ≤ 1 := rs (key, value) (List.mem_cons_self _ _)
    cases ho : UMap.lookup other key with
    | none => simp [update_loop, ho] at h
    | some o =>
      cases hr : update_loop combine other rest with
      | error err => simp [update_loop, ho, hr] at h
      | ok rest' =>
        simp only [update_loop, ho, hr, Except.ok.injEq] at h
        subst h
        intro e' he'
        rcases List.mem_cons.1 he' with rfl | he'
        · exact hc value o rval (UMap.range_of_lookup _ ro key o ho)
        · exact ih rest' rrest hr e' he'

theorem InRange_relation_Unite (R S U : FuzzyRelation K) (rR : UMap.InRange R.data_)
    (rS : UMap.InRange S.data_) (h : R.Unite S = Except.ok U) : UMap.InRange U.data_ := by
  unfold Unite at h
  split at h
  · cases h
  · cases hl : update_loop max S.data_ R.data_ with
    | error e => rw [hl] at h; cases h
    | ok d =>
      rw [hl] at h
      cases h
      exact InRange_update_loop max
        (fun a b ha hb => ⟨le_max_of_le_left ha.1, max_le ha.2 hb.2⟩) _ _ d rS rR hl

theorem InRange_relation_Intersect (R S I : FuzzyRelation K) (rR : UMap.InRange R.data_)
    (rS : UMap.InRange S.data_) (h : R.Intersect S = Except.ok I) : UMap.InRange I.data_ := by
  unfold Intersect at h
  split at h
  · cases h
  · cases hl : update_loop min S.data_ R.data_ with
    | error e => rw [hl] at h; cases h
    | ok d =>
      rw [hl] at h
      cases h
      exact InRange_update_loop min
        (fun a b ha hb => ⟨le_min ha.1 hb.1, le_trans (min_le_left _ _) ha.2⟩) _ _ d rS rR hl

theorem InRange_relation_Complement (R : FuzzyRelation K) (rR : UMap.InRange R.data_) :
    UMap.InRange R.Complement.data_ := by
  intro e he
  obtain ⟨e0, he0, rfl⟩ := List.mem_map.1 he
  have := rR e0 he0
  constructor
  · show 0 ≤ 1 - e0.2
    linarith [this.2]
  · show 1 - e0.2 ≤ 1
    linarith [this.1]

theorem InRange_fromSets (A B : FuzzySet K) (rA : UMap.InRange A.data_)
    (rB : UMap.InRange B.data_) : UMap.InRange (fromSets A B).data_ := by
  refine UMap.InRange_of_lookup _ (WF_cartesian_insert _ _ _) ?_
  rintro ⟨x, y⟩ v hv
  have hv' : UMap.lookup (cartesian_insert A.data_ B.data_ _) (x, y) = some v := hv
  rw [lookup_cartesian_insert] at hv'
  cases ha : UMap.lookup A.data_ x with
  | none => rw [ha] at hv'; cases hv'
  | some a =>
    cases hb : UMap.lookup B.data_ y with
    | none => rw [ha, hb] at hv'; cases hv'
    | some b =>
      have har := UMap.range_of_lookup _ rA x a ha
      have hbr := UMap.range_of_lookup _ rB y b hb
      rw [ha, hb] at hv'
      cases hv'
      exact ⟨le_min har.1 hbr.1, le_trans (min_le_left _ _) har.2⟩

theorem InRange_Composition (R S C : FuzzyRelation K) (hR : UMap.WF R.data_)
    (hS : UMap.WF S.data_) (rR : UMap.InRange R.data_) (rS : UMap.InRange S.data_)
    (h : R.Composition S = Except.ok C) : UMap.InRange C.data_ := by
  obtain ⟨h1, h2, _⟩ := Composition_char R S C hR hS h
  refine UMap.InRange_of_lookup _ h1 ?_
  intro k v hv
  obtain ⟨⟨y, a, b, ha, hb, rfl⟩, _⟩ := h2 k v hv
  have har := UMap.range_of_lookup _ rR _ a ha
  have hbr := UMap.range_of_lookup _ rS _ b hb
  exact ⟨le_min har.1 hbr.1, le_trans (min_le_left _ _) har.2⟩

end FuzzyRelation

namespace UMap

variable {K : Type} [DecidableEq K]

/-- The loop of `operator==` finds no entry out of tolerance: every key of the
left map is a key of the right one, with degrees at most `1e-11` apart. -/
theorem close_of_all (X Y : UMap K)
    (h : X.all (fun pair =>
      match lookup Y pair.1 with
      | none => false
      | some o => !decide (|o - pair.2| > 10e-12)) = true) :
    ∀ k x, lookup X k = some x → ∃ y, lookup Y k = some y ∧ |x - y| ≤ 1e-11 := by
  intro k x hx
  rw [List.all_eq_true] at h
  have hk := h (k, x) (mem_of_lookup X k x hx)
  simp only at hk
  cases hy : lookup Y k with
  | none => rw [hy] at hk; cases hk
  | some y =>
    rw [hy] at hk
    simp only [Bool.not_eq_true', decide_eq_false_iff_not, not_lt] at hk
    refine ⟨y, rfl, ?_⟩
    rw [abs_sub_comm]
    have h10 : (10e-12 : ℚ) = 1e-11 := by norm_num
    rw [← h10]
    exact hk

theorem all_of_close (X Y : UMap K) (hX : WF X)
    (h : ∀ k x, lookup X k = some x → ∃ y, lookup Y k = some y ∧ |x - y| ≤ 1e-11) :
    X.all (fun pair =>
      match lookup Y pair.1 with
      | none => false
      | some o => !decide (|o - pair.2| > 10e-12)) = true := by
  rw [List.all_eq_true]
  intro pair hpair
  obtain ⟨y, hy, hxy⟩ := h pair.1 pair.2 (lookup_of_mem X hX _ _ hpair)
  simp only [hy, Bool.not_eq_true', decide_eq_false_iff_not, not_lt]
  rw [abs_sub_comm]
  have h10 : (10e-12 : ℚ) = 1e-11 := by norm_num
  rw [h10]
  exact hxy

/-- Closeness of two maps of the same size goes both ways when keys are
distinct. -/
theorem close_symm (X Y : UMap K) (hX : WF X) (hY : WF Y) (hs : size X = size Y) (t : ℚ)
    (h : ∀ k x, lookup X k = some x → ∃ y, lookup Y k = some y ∧ |x - y| ≤ t) :
    ∀ k y, lookup Y k = some y → ∃ x, lookup X k = some x ∧ |y - x| ≤ t := by
  have hsub : ∀ k ∈ keys X, k ∈ keys Y := by
    intro k hk
    obtain ⟨x, hx⟩ := (mem_keys_iff_lookup X k).1 hk
    obtain ⟨y, hy, _⟩ := h k x hx
    exact (mem_keys_iff_lookup Y k).2 ⟨y, hy⟩
  have hlen : (keys X).length = (keys Y).length := by
    simpa [size, keys] using hs
  have hsame := (nodup_same_iff (keys X) (keys Y) hX hY).1 ⟨hlen, hsub⟩
  intro k y hy
  have hk : k ∈ keys X := (hsame k).2 ((mem_keys_iff_lookup Y k).2 ⟨y, hy⟩)
  obtain ⟨x, hx⟩ := (mem_keys_iff_lookup X k).1 hk
  obtain ⟨y', hy', hxy⟩ := h k x hx
  rw [hy] at hy'
  cases hy'
  exact ⟨x, hx, by rw [abs_sub_comm]; exact hxy⟩

end UMap

namespace FuzzySet

variable {K : Type} [DecidableEq K]

theorem set_operator_eq_iff (X Y : FuzzySet K) (hX : UMap.WF X.data_) :
    X.operator_eq Y = true ↔
      UMap.size X.data_ = UMap.size Y.data_ ∧
      ∀ k x, UMap.lookup X.data_ k = some x →
        ∃ y, UMap.lookup Y.data_ k = some y ∧ |x - y| ≤ 1e-11 := by
  unfold operator_eq
  by_cases hs : UMap.size X.data_ = UMap.size Y.data_
  · rw [if_neg (by simp [hs])]
    constructor
    · intro h
      exact ⟨hs, UMap.close_of_all _ _ h⟩
    · rintro ⟨_, h⟩
      exact UMap.all_of_close _ _ hX h
  · rw [if_pos hs]
    constructor
    · intro h; cases h
    · rintro ⟨h, _⟩; exact absurd h hs

theorem set_operator_eq_close (X Y : FuzzySet K) (h : X.operator_eq Y = true) :
    UMap.size X.data_ = UMap.size Y.data_ ∧
    ∀ k x, UMap.lookup X.data_ k = some x →
      ∃ y, UMap.lookup Y.data_ k = some y ∧ |x - y| ≤ 1e-11 := by
  unfold operator_eq at h
  by_cases hs : UMap.size X.data_ = UMap.size Y.data_
  · rw [if_neg (by simp [hs])] at h
    exact ⟨hs, UMap.close_of_all _ _ h⟩
  · rw [if_pos hs] at h; cases h

theorem set_operator_eq_symm (X Y : FuzzySet K) (hX : UMap.WF X.data_) (hY : UMap.WF Y.data_)
    (h : X.operator_eq Y = true) : Y.operator_eq X = true := by
  obtain ⟨hs, hc⟩ := (set_operator_eq_iff X Y hX).1 h
  exact (set_operator_eq_iff Y X hY).2 ⟨hs.symm, UMap.close_symm _ _ hX hY hs _ hc⟩

end FuzzySet

namespace FuzzyRelation

variable {K : Type} [DecidableEq K]

theorem relation_operator_eq_iff (X Y : FuzzyRelation K) (hX : UMap.WF X.data_) :
    X.operator_eq Y = true ↔
      UMap.size X.data_ = UMap.size Y.data_ ∧
      ∀ k x, UMap.lookup X.data_ k = some x →
        ∃ y, UMap.lookup Y.data_ k = some y ∧ |x - y| ≤ 1e-11 := by
  unfold operator_eq
  by_cases hs : UMap.size X.data_ = UMap.size Y.data_
  · rw [if_neg (by simp [hs])]
    constructor
    · intro h
      exact ⟨hs, UMap.close_of_all _ _ h⟩
    · rintro ⟨_, h⟩
      exact UMap.all_of_close _ _ hX h
  · rw [if_pos hs]
    constructor
    · intro h; cases h
    · rintro ⟨h, _⟩; exact absurd h hs

theorem relation_operator_eq_close (X Y : FuzzyRelation K) (h : X.operator_eq Y = true) :
    UMap.size X.data_ = UMap.size Y.data_ ∧
    ∀ k x, UMap.lookup X.data_ k = some x →
      ∃ y, UMap.lookup Y.data_ k = some y ∧ |x - y| ≤ 1e-11 := by
  unfold operator_eq at h
  by_cases hs : UMap.size X.data_ = UMap.size Y.data_
  · rw [if_neg (by simp [hs])] at h
    exact ⟨hs, UMap.close_of_all _ _ h⟩
  · rw [if_pos hs] at h; cases h

theorem relation_operator_eq_symm (X Y : FuzzyRelation K) (hX : UMap.WF X.data_)
    (hY : UMap.WF Y.data_) (h : X.operator_eq Y = true) : Y.operator_eq X = true := by
  obtain ⟨hs, hc⟩ := (relation_operator_eq_iff X Y hX).1 h
  exact (relation_operator_eq_iff Y X hY).2 ⟨hs.symm, UMap.close_symm _ _ hX hY hs _ hc⟩

end FuzzyRelation

theorem close_trans {K : Type} [DecidableEq K] (X Y Z : UMap K)
    (hXY : ∀ k x, UMap.lookup X k = some x → ∃ y, UMap.lookup Y k = some y ∧ |x - y| ≤ 1e-11)
    (hYZ : ∀ k y, UMap.lookup Y k = some y → ∃ z, UMap.lookup Z k = some z ∧ |y - z| ≤ 1e-11) :
    ∀ k x, UMap.lookup X k = some x → ∃ z, UMap.lookup Z k = some z ∧ |x - z| ≤ 2e-11 := by
  intro k x hx
  obtain ⟨y, hy, hxy⟩ := hXY k x hx
  obtain ⟨z, hz, hyz⟩ := hYZ k y hy
  refine ⟨z, hz, ?_⟩
  have h2 : (2e-11 : ℚ) = 1e-11 + 1e-11 := by norm_num
  rw [h2]
  calc |x - z| ≤ |x - y| + |y - z| := abs_sub_le x y z
    _ ≤ 1e-11 + 1e-11 := add_le_add hxy hyz

namespace FuzzyRelation

variable {K : Type} [DecidableEq K]

/-- The loop with its final state agrees with the loop that only returns. -/
theorem update_loop_run_spec (combine : ℚ → ℚ → ℚ) (other self : UMap (K × K)) :
    update_loop combine other self =
      match (update_loop_run combine other self).1 with
      | some e => Except.error e
      | none => Except.ok (update_loop_run combine other self).2 := by
  induction self with
  | nil => rfl
  | cons e rest ih =>
    obtain ⟨key, value⟩ := e
    cases ho : UMap.lookup other key with
    | none => simp [update_loop, update_loop_run, ho]
    | some o =>
      simp only [update_loop, update_loop_run, ho, ih]
      cases (update_loop_run combine other rest).1 <;> rfl

theorem Unite_run_spec (R S : FuzzyRelation K) :
    R.Unite S =
      match (R.Unite_run S).1 with
      | some e => Except.error e
      | none => Except.ok (R.Unite_run S).2 := by
  unfold Unite Unite_run
  cases hk : have_same_keys R.data_ S.data_
  · rfl
  · simp only [Bool.not_true, Bool.false_eq_true, if_false]
    rw [update_loop_run_spec]
    cases (update_loop_run max S.data_ R.data_).1 <;> rfl

theorem Intersect_run_spec (R S : FuzzyRelation K) :
    R.Intersect S =
      match (R.Intersect_run S).1 with
      | some e => Except.error e
      | none => Except.ok (R.Intersect_run S).2 := by
  unfold Intersect Intersect_run
  cases hk : have_same_keys R.data_ S.data_
  · rfl
  · simp only [Bool.not_true, Bool.false_eq_true, if_false]
    rw [update_loop_run_spec]
    cases (update_loop_run min S.data_ R.data_).1 <;> rfl

theorem have_same_keys_false (R S : FuzzyRelation K) (hR : UMap.WF R.data_)
    (hS : UMap.WF S.data_) (h : ¬ ∀ p, p ∈ UMap.keys R.data_ ↔ p ∈ UMap.keys S.data_) :
    have_same_keys R.data_ S.data_ = false := by
  cases hc : have_same_keys R.data_ S.data_ with
  | false => rfl
  | true => exact absurd ((have_same_keys_iff _ _ hR hS).1 hc) h

theorem mem_keys_Composition (R S C : FuzzyRelation K) (hR : UMap.WF R.data_)
    (hS : UMap.WF S.data_) (hC : R.Composition S = Except.ok C) (x z : K) :
    (x, z) ∈ UMap.keys C.data_ ↔
      ∃ y, (x, y) ∈ UMap.keys R.data_ ∧ (y, z) ∈ UMap.keys S.data_ := by
  obtain ⟨_, h2, h3⟩ := Composition_char R S C hR hS hC
  constructor
  · intro hk
    obtain ⟨v, hv⟩ := (UMap.mem_keys_iff_lookup _ _).1 hk
    obtain ⟨⟨y, a, b, ha, hb, _⟩, _⟩ := h2 (x, z) v hv
    exact ⟨y, (UMap.mem_keys_iff_lookup _ _).2 ⟨a, ha⟩, (UMap.mem_keys_iff_lookup _ _).2 ⟨b, hb⟩⟩
  · rintro ⟨y, hy1, hy2⟩
    obtain ⟨a, ha⟩ := (UMap.mem_keys_iff_lookup _ _).1 hy1
    obtain ⟨b, hb⟩ := (UMap.mem_keys_iff_lookup _ _).1 hy2
    rw [← UMap.lookup_isSome_iff]
    cases hl : UMap.lookup C.data_ (x, z) with
    | some v => rfl
    | none => exact absurd ⟨y, a, b, ha, hb, rfl⟩ (h3 (x, z) hl (min a b))

/-- The composition of composable relations keeps the first components of the
left relation and the second components of the right one. -/
theorem Composition_outer (R S C : FuzzyRelation K) (hR : UMap.WF R.data_)
    (hS : UMap.WF S.data_)
    (hc : ∀ t, (∃ x, (x, t) ∈ UMap.keys R.data_) ↔ (∃ z, (t, z) ∈ UMap.keys S.data_))
    (hC : R.Composition S = Except.ok C) :
    (∀ x, (∃ z, (x, z) ∈ UMap.keys C.data_) ↔ (∃ y, (x, y) ∈ UMap.keys R.data_)) ∧
    (∀ z, (∃ x, (x, z) ∈ UMap.keys C.data_) ↔ (∃ y, (y, z) ∈ UMap.keys S.data_)) := by
  constructor
  · intro x
    constructor
    · rintro ⟨z, hz⟩
      obtain ⟨y, hy, _⟩ := (mem_keys_Composition R S C hR hS hC x z).1 hz
      exact ⟨y, hy⟩
    · rintro ⟨y, hy⟩
      obtain ⟨z, hz⟩ := (hc y).1 ⟨x, hy⟩
      exact ⟨z, (mem_keys_Composition R S C hR hS hC x z).2 ⟨y, hy, hz⟩⟩
  · intro z
    constructor
    · rintro ⟨x, hx⟩
      obtain ⟨y, _, hy⟩ := (mem_keys_Composition R S C hR hS hC x z).1 hx
      exact ⟨y, hy⟩
    · rintro ⟨y, hy⟩
      obtain ⟨x, hx⟩ := (hc y).2 ⟨z, hy⟩
      exact ⟨x, (mem_keys_Composition R S C hR hS hC x z).2 ⟨y, hx, hy⟩⟩

theorem WF_Composition (R S C : FuzzyRelation K) (hR : UMap.WF R.data_)
    (hS : UMap.WF S.data_) (hC : R.Composition S = Except.ok C) : UMap.WF C.data_ :=
  (Composition_char R S C hR hS hC).1

end FuzzyRelation

namespace FuzzyRelation

variable {K : Type} [DecidableEq K]

theorem one_sub_max (a b : ℚ) : 1 - max a b = min (1 - a) (1 - b) := by
  rcases le_total a b with h | h
  · rw [max_eq_right h, min_eq_right (by linarith)]
  · rw [max_eq_left h, min_eq_left (by linarith)]

theorem keys_relation_Complement (R : FuzzyRelation K) :
    UMap.keys R.Complement.data_ = UMap.keys R.data_ :=
  UMap.keys_map_values R.data_ (fun v => 1 - v)

theorem lookup_relation_Complement (R : FuzzyRelation K) (p : K × K) :
    UMap.lookup R.Complement.data_ p = (UMap.lookup R.data_ p).map (fun v => 1 - v) :=
  UMap.lookup_map_values R.data_ (fun v => 1 - v) p

theorem WF_relation_Complement (R : FuzzyRelation K) (hR : UMap.WF R.data_) :
    UMap.WF R.Complement.data_ := by
  unfold UMap.WF
  rw [keys_relation_Complement]
  exact hR

/-- De Morgan on relations with the same keys: the complement of the union and
the intersection of the complements are the same list of entries. -/
theorem de_morgan_data (R S U I : FuzzyRelation K) (hR : UMap.WF R.data_)
    (hS : UMap.WF S.data_)
    (hk : ∀ p, p ∈ UMap.keys R.data_ ↔ p ∈ UMap.keys S.data_)
    (hU : R.Unite S = Except.ok U) (hI : R.Complement.Intersect S.Complement = Except.ok I) :
    U.Complement.data_ = I.data_ := by
  have hRc := WF_relation_Complement R hR
  have hSc := WF_relation_Complement S hS
  have hkc : ∀ p, p ∈ UMap.keys R.Complement.data_ ↔ p ∈ UMap.keys S.Complement.data_ := by
    intro p
    rw [keys_relation_Complement, keys_relation_Complement]
    exact hk p
  obtain ⟨U', hU', hUk, hUv⟩ := (Unite_spec R S hR hS).2 hk
  obtain ⟨I', hI', hIk, hIv⟩ := (Intersect_spec R.Complement S.Complement hRc hSc).2 hkc
  rw [hU] at hU'
  rw [hI] at hI'
  cases hU'
  cases hI'
  have hUW : UMap.WF U.data_ := by
    unfold UMap.WF; rw [hUk]; exact hR
  refine UMap.eq_of_keys_eq_of_lookup_eq _ _ (WF_relation_Complement U hUW) ?_ ?_
  · rw [keys_relation_Complement, hUk, hIk, keys_relation_Complement]
  · intro p
    rw [lookup_relation_Complement]
    cases ha : UMap.lookup R.data_ p with
    | none =>
      have hpR : p ∉ UMap.keys R.data_ := (UMap.lookup_eq_none_iff _ _).1 ha
      have h1 : UMap.lookup U.data_ p = none := by
        refine (UMap.lookup_eq_none_iff _ _).2 ?_
        rw [hUk]; exact hpR
      have h2 : UMap.lookup I.data_ p = none := by
        refine (UMap.lookup_eq_none_iff _ _).2 ?_
        rw [hIk, keys_relation_Complement]; exact hpR
      rw [h1, h2]
      rfl
    | some a =>
      have hpS : p ∈ UMap.keys S.data_ := (hk p).1 ((UMap.mem_keys_iff_lookup _ _).2 ⟨a, ha⟩)
      obtain ⟨b, hb⟩ := (UMap.mem_keys_iff_lookup _ _).1 hpS
      have hac : UMap.lookup R.Complement.data_ p = some (1 - a) := by
        rw [lookup_relation_Complement, ha]; rfl
      have hbc : UMap.lookup S.Complement.data_ p = some (1 - b) := by
        rw [lookup_relation_Complement, hb]; rfl
      rw [hUv p a b ha hb, hIv p (1 - a) (1 - b) hac hbc]
      show some (1 - max a b) = some (min (1 - a) (1 - b))
      rw [one_sub_max a b]

end FuzzyRelation

namespace Double

theorem code_fin_bounds (q : ℚ) : 0 < code (fin q) ∧ code (fin q) < 1 := by
  have h1 : 0 < 1 + |q| := by positivity
  have h2 : -1 < q / (1 + |q|) := by
    rw [lt_div_iff₀ h1]
    rcases abs_cases q with ⟨h, _⟩ | ⟨h, _⟩ <;> rw [h] <;> linarith
  have h3 : q / (1 + |q|) < 1 := by
    rw [div_lt_iff₀ h1]
    rcases abs_cases q with ⟨h, _⟩ | ⟨h, _⟩ <;> rw [h] <;> linarith
  unfold code
  constructor <;> linarith

theorem code_fin_lt (a b : ℚ) : code (fin a) < code (fin b) ↔ a < b := by
  have ha : 0 < 1 + |a| := by positivity
  have hb : 0 < 1 + |b| := by positivity
  have key : a / (1 + |a|) < b / (1 + |b|) ↔ a < b := by
    rw [div_lt_div_iff₀ ha hb]
    rcases abs_cases a with ⟨h, h'⟩ | ⟨h, h'⟩ <;> rcases abs_cases b with ⟨g, g'⟩ | ⟨g, g'⟩ <;>
      rw [h, g] <;> constructor <;> intro hlt <;> nlinarith
  unfold code
  constructor
  · intro h
    exact key.1 (by linarith)
  · intro h
    have := key.2 h
    linarith

theorem code_injective : Function.Injective code := by
  intro a b h
  cases a with
  | nan =>
    cases b with
    | nan => rfl
    | ninf => exact absurd h (by unfold code; norm_num)
    | pinf => exact absurd h (by unfold code; norm_num)
    | fin q => exact absurd h (ne_of_gt (lt_trans (code_fin_bounds q).2 (by unfold code; norm_num)))
  | ninf =>
    cases b with
    | nan => exact absurd h (by unfold code; norm_num)
    | ninf => rfl
    | pinf => exact absurd h (by unfold code; norm_num)
    | fin q => exact absurd h (ne_of_lt (code_fin_bounds q).1)
  | pinf =>
    cases b with
    | nan => exact absurd h (by unfold code; norm_num)
    | ninf => exact absurd h (by unfold code; norm_num)
    | pinf => rfl
    | fin q => exact absurd h (ne_of_gt (code_fin_bounds q).2)
  | fin p =>
    cases b with
    | nan => exact absurd h (ne_of_lt (lt_trans (code_fin_bounds p).2 (by unfold code; norm_num)))
    | ninf => exact absurd h (ne_of_gt (code_fin_bounds p).1)
    | pinf => exact absurd h (ne_of_lt (code_fin_bounds p).2)
    | fin q =>
      have h1 : ¬ p < q := fun hlt => ne_of_lt ((code_fin_lt p q).2 hlt) h
      have h2 : ¬ q < p := fun hlt => ne_of_gt ((code_fin_lt q p).2 hlt) h
      rw [le_antisymm (not_lt.1 h2) (not_lt.1 h1)]

/-- Away from NaN, `a < b` on `double`s is `<` on the codes. -/
theorem lt_iff_code_lt (a b : Double) (ha : a ≠ nan) (hb : b ≠ nan) :
    lt a b = true ↔ code a < code b := by
  cases a with
  | nan => exact absurd rfl ha
  | ninf =>
    cases b with
    | nan => exact absurd rfl hb
    | ninf => simp [lt]
    | pinf => simp [lt, code]
    | fin q => simp [lt, code_fin_bounds q]; exact (code_fin_bounds q).1
  | pinf =>
    cases b with
    | nan => exact absurd rfl hb
    | ninf => simp [lt, code]
    | pinf => simp [lt]
    | fin q => simp [lt]; exact le_of_lt (code_fin_bounds q).2
  | fin p =>
    cases b with
    | nan => exact absurd rfl hb
    | ninf => simp [lt]; exact le_of_lt (code_fin_bounds p).1
    | pinf => simp [lt]; exact (code_fin_bounds p).2
    | fin q => simp [lt, code_fin_lt]

theorem code_std_max (a b : Double) (ha : a ≠ nan) (hb : b ≠ nan) :
    code (std_max a b) = max (code a) (code b) := by
  unfold std_max
  by_cases h : lt a b = true
  · rw [if_pos h, max_eq_right (le_of_lt ((lt_iff_code_lt a b ha hb).1 h))]
  · rw [if_neg h, max_eq_left (not_lt.1 (fun hlt => h ((lt_iff_code_lt a b ha hb).2 hlt)))]

theorem code_std_min (a b : Double) (ha : a ≠ nan) (hb : b ≠ nan) :
    code (std_min a b) = min (code a) (code b) := by
  unfold std_min
  by_cases h : lt b a = true
  · rw [if_pos h, min_eq_right (le_of_lt ((lt_iff_code_lt b a hb ha).1 h))]
  · rw [if_neg h, min_eq_left (not_lt.1 (fun hlt => h ((lt_iff_code_lt b a hb ha).2 hlt)))]

/-- A `double` is a number exactly when its code lies in `[0, 1]`. -/
theorem ne_nan_iff_code (a : Double) : a ≠ nan ↔ 0 ≤ code a ∧ code a ≤ 1 := by
  cases a with
  | nan => simp [code]
  | ninf => simp [code]
  | pinf => simp [code]
  | fin q =>
    have h := code_fin_bounds q
    simp only [ne_eq, reduceCtorEq, not_false_eq_true, true_iff]
    exact ⟨le_of_lt h.1, le_of_lt h.2⟩

end Double

namespace IEEE

namespace DMap

variable {K : Type} [DecidableEq K]

theorem code_cons (e : K × Double) (m : DMap K) :
    code (e :: m) = (e.1, Double.code e.2) :: code m := rfl

theorem keys_code (m : DMap K) : UMap.keys (code m) = keys m := by
  induction m with
  | nil => rfl
  | cons e m ih =>
    rw [code_cons]
    show e.1 :: UMap.keys (code m) = e.1 :: keys m
    rw [ih]

theorem WF_code (m : DMap K) : UMap.WF (code m) ↔ WF m := by
  unfold UMap.WF WF
  rw [keys_code]

theorem size_code (m : DMap K) : UMap.size (code m) = size m := by
  unfold UMap.size size code
  rw [List.length_map]

theorem lookup_code (m : DMap K) (k : K) :
    UMap.lookup (code m) k = (lookup m k).map Double.code := by
  induction m with
  | nil => rfl
  | cons e m ih =>
    obtain ⟨k', v⟩ := e
    rw [code_cons]
    show (if k' = k then some (Double.code v) else UMap.lookup (code m) k) =
      (if k' = k then some v else lookup m k).map Double.code
    by_cases h : k' = k
    · rw [if_pos h, if_pos h]; rfl
    · rw [if_neg h, if_neg h, ih]

theorem contains_code (m : DMap K) (k : K) : UMap.contains (code m) k = contains m k := by
  unfold UMap.contains contains
  rw [lookup_code]
  cases lookup m k <;> rfl

theorem assign_code (m : DMap K) (k : K) (v : Double) :
    code (assign m k v) = UMap.assign (code m) k (Double.code v) := by
  induction m with
  | nil => rfl
  | cons e m ih =>
    obtain ⟨k', v'⟩ := e
    show code (if k' = k then (k', v) :: m else (k', v') :: assign m k v) =
      (if k' = k then (k', Double.code v) :: code m
        else (k', Double.code v') :: UMap.assign (code m) k (Double.code v))
    by_cases h : k' = k
    · rw [if_pos h, if_pos h]; rfl
    · rw [if_neg h, if_neg h, code_cons, ih]

theorem erase_code (m : DMap K) (k : K) : code (erase m k) = UMap.erase (code m) k := by
  unfold erase UMap.erase code
  rw [List.filter_map]
  rfl

/-- Two maps with the same codes at every key hold the same degree at every key. -/
theorem lookup_eq_of_code (m m' : DMap K)
    (h : ∀ k, UMap.lookup (code m) k = UMap.lookup (code m') k) (k : K) :
    lookup m k = lookup m' k := by
  have hk := h k
  rw [lookup_code, lookup_code] at hk
  exact Option.map_injective Double.code_injective hk

theorem dmap_lookup_isSome_iff (m : DMap K) (k : K) : (lookup m k).isSome ↔ k ∈ keys m := by
  rw [← keys_code, ← UMap.lookup_isSome_iff, lookup_code]
  cases lookup m k <;> simp

theorem dmap_mem_of_lookup (m : DMap K) (k : K) (v : Double) (h : lookup m k = some v) :
    (k, v) ∈ m := by
  induction m with
  | nil => simp [lookup] at h
  | cons e m ih =>
    obtain ⟨k', v'⟩ := e
    by_cases hk : k' = k
    · have h' : lookup ((k', v') :: m) k = some v' := by
        show (if k' = k then some v' else lookup m k) = some v'
        rw [if_pos hk]
      rw [h'] at h
      cases h
      rw [hk]
      exact List.mem_cons_self _ _
    · have h' : lookup ((k', v') :: m) k = lookup m k := by
        show (if k' = k then some v' else lookup m k) = lookup m k
        rw [if_neg hk]
      rw [h'] at h
      exact List.mem_cons_of_mem _ (ih h)

theorem dmap_lookup_of_mem (m : DMap K) (hm : WF m) (k : K) (v : Double) (h : (k, v) ∈ m) :
    lookup m k = some v := by
  have h1 : (k, Double.code v) ∈ code m :=
    List.mem_map.2 ⟨(k, v), h, rfl⟩
  have h2 := UMap.lookup_of_mem (code m) ((WF_code m).2 hm) k (Double.code v) h1
  rw [lookup_code] at h2
  cases hl : lookup m k with
  | none => rw [hl] at h2; cases h2
  | some w =>
    rw [hl] at h2
    have h3 : Double.code w = Double.code v := Option.some.inj h2
    rw [Double.code_injective h3]

theorem NoNaN_iff_code (m : DMap K) : NoNaN m ↔ UMap.InRange (code m) := by
  constructor
  · intro h e he
    obtain ⟨e0, he0, rfl⟩ := List.mem_map.1 he
    exact (Double.ne_nan_iff_code e0.2).1 (h e0 he0)
  · intro h e he
    exact (Double.ne_nan_iff_code e.2).2 (h (e.1, Double.code e.2) (List.mem_map.2 ⟨e, he, rfl⟩))

theorem NoNaN_lookup (m : DMap K) (hm : NoNaN m) (k : K) (v : Double)
    (h : lookup m k = some v) : v ≠ Double.nan :=
  hm (k, v) (dmap_mem_of_lookup m k v h)

theorem NoNaN_assign (m : DMap K) (hm : NoNaN m) (k : K) (v : Double) (hv : v ≠ Double.nan) :
    NoNaN (assign m k v) := by
  induction m with
  | nil =>
    intro e he
    have : e = (k, v) := by simpa [assign] using he
    rw [this]; exact hv
  | cons e0 m ih =>
    obtain ⟨k', v'⟩ := e0
    have hm' : NoNaN m := fun e he => hm e (List.mem_cons_of_mem _ he)
    intro e he
    by_cases hk : k' = k
    · have h' : assign ((k', v') :: m) k v = (k', v) :: m := by
        show (if k' = k then (k', v) :: m else (k', v') :: assign m k v) = _
        rw [if_pos hk]
      rw [h'] at he
      rcases List.mem_cons.1 he with rfl | he'
      · exact hv
      · exact hm' e he'
    · have h' : assign ((k', v') :: m) k v = (k', v') :: assign m k v := by
        show (if k' = k then (k', v) :: m else (k', v') :: assign m k v) = _
        rw [if_neg hk]
      rw [h'] at he
      rcases List.mem_cons.1 he with rfl | he'
      · exact hm (k', v') (List.mem_cons_self _ _)
      · exact ih hm' e he'

theorem NoNaN_erase (m : DMap K) (hm : NoNaN m) (k : K) : NoNaN (erase m k) :=
  fun e he => hm e (List.mem_of_mem_filter he)

end DMap

end IEEE

namespace Double

theorem std_max_ne_nan (a b : Double) (ha : a ≠ nan) (hb : b ≠ nan) : std_max a b ≠ nan := by
  unfold std_max
  split <;> assumption

theorem std_min_ne_nan (a b : Double) (ha : a ≠ nan) (hb : b ≠ nan) : std_min a b ≠ nan := by
  unfold std_min
  split <;> assumption

end Double

namespace IEEE

namespace FuzzySet

variable {K : Type} [DecidableEq K]

theorem code_Unite_step (data : DMap K) (pair : K × Double) (hd : DMap.NoNaN data)
    (hp : pair.2 ≠ Double.nan) :
    DMap.code (Unite_step data pair) =
        Fuzzy.FuzzySet.Unite_step (DMap.code data) (pair.1, Double.code pair.2) ∧
      DMap.NoNaN (Unite_step data pair) := by
  unfold Unite_step Fuzzy.FuzzySet.Unite_step
  show _ = (match UMap.lookup (DMap.code data) pair.1 with
    | some cur => UMap.assign (DMap.code data) pair.1 (max cur (Double.code pair.2))
    | none => UMap.assign (DMap.code data) pair.1 (Double.code pair.2)) ∧ _
  rw [DMap.lookup_code]
  cases hl : DMap.lookup data pair.1 with
  | none =>
    exact ⟨DMap.assign_code _ _ _, DMap.NoNaN_assign _ hd _ _ hp⟩
  | some cur =>
    have hc : cur ≠ Double.nan := DMap.NoNaN_lookup data hd _ _ hl
    refine ⟨?_, DMap.NoNaN_assign _ hd _ _ (Double.std_max_ne_nan _ _ hc hp)⟩
    show DMap.code (DMap.assign data pair.1 (Double.std_max cur pair.2)) =
      UMap.assign (DMap.code data) pair.1 (max (Double.code cur) (Double.code pair.2))
    rw [DMap.assign_code, Double.code_std_max _ _ hc hp]

theorem code_foldl_Unite (other data : DMap K) (ho : DMap.NoNaN other) (hd : DMap.NoNaN data) :
    DMap.code (other.foldl Unite_step data) =
        (DMap.code other).foldl Fuzzy.FuzzySet.Unite_step (DMap.code data) ∧
      DMap.NoNaN (other.foldl Unite_step data) := by
  induction other generalizing data with
  | nil => exact ⟨rfl, hd⟩
  | cons e l ih =>
    have he : e.2 ≠ Double.nan := ho e (List.mem_cons_self _ _)
    have hl : DMap.NoNaN l := fun x hx => ho x (List.mem_cons_of_mem _ hx)
    obtain ⟨h1, h2⟩ := code_Unite_step data e hd he
    obtain ⟨h3, h4⟩ := ih (Unite_step data e) hl h2
    refine ⟨?_, h4⟩
    rw [List.foldl_cons, h3, h1, DMap.code_cons, List.foldl_cons]

/-- Without NaN, `Unite` on binary64 degrees is `Unite` on the codes. -/
theorem code_Unite (A B : FuzzySet K) (hA : DMap.NoNaN A.data_) (hB : DMap.NoNaN B.data_) :
    DMap.code (A.Unite B).data_ =
        (Fuzzy.FuzzySet.Unite ⟨DMap.code A.data_⟩ ⟨DMap.code B.data_⟩).data_ ∧
      DMap.NoNaN (A.Unite B).data_ :=
  code_foldl_Unite B.data_ A.data_ hB hA

theorem code_Intersect_step (other : FuzzySet K) (data : DMap K) (pair : K × Double)
    (ho : DMap.NoNaN other.data_) (hd : DMap.NoNaN data) (hp : pair.2 ≠ Double.nan) :
    DMap.code (Intersect_step other data pair) =
        Fuzzy.FuzzySet.Intersect_step ⟨DMap.code other.data_⟩ (DMap.code data)
          (pair.1, Double.code pair.2) ∧
      DMap.NoNaN (Intersect_step other data pair) := by
  unfold Intersect_step Fuzzy.FuzzySet.Intersect_step
  show _ = (match UMap.lookup (DMap.code other.data_) pair.1 with
    | some o => UMap.assign (DMap.code data) pair.1 (min (Double.code pair.2) o)
    | none => UMap.erase (DMap.code data) pair.1) ∧ _
  rw [DMap.lookup_code]
  cases hl : DMap.lookup other.data_ pair.1 with
  | none =>
    exact ⟨DMap.erase_code _ _, DMap.NoNaN_erase _ hd _⟩
  | some o =>
    have hc : o ≠ Double.nan := DMap.NoNaN_lookup other.data_ ho _ _ hl
    refine ⟨?_, DMap.NoNaN_assign _ hd _ _ (Double.std_min_ne_nan _ _ hp hc)⟩
    show DMap.code (DMap.assign data pair.1 (Double.std_min pair.2 o)) =
      UMap.assign (DMap.code data) pair.1 (min (Double.code pair.2) (Double.code o))
    rw [DMap.assign_code, Double.code_std_min _ _ hp hc]

theorem code_foldl_Intersect (other : FuzzySet K) (l data : DMap K)
    (ho : DMap.NoNaN other.data_) (hl : DMap.NoNaN l) (hd : DMap.NoNaN data) :
    DMap.code (l.foldl (Intersect_step other) data) =
        (DMap.code l).foldl (Fuzzy.FuzzySet.Intersect_step ⟨DMap.code other.data_⟩)
          (DMap.code data) ∧
      DMap.NoNaN (l.foldl (Intersect_step other) data) := by
  induction l generalizing data with
  | nil => exact ⟨rfl, hd⟩
  | cons e l ih =>
    have he : e.2 ≠ Double.nan := hl e (List.mem_cons_self _ _)
    have hl' : DMap.NoNaN l := fun x hx => hl x (List.mem_cons_of_mem _ hx)
    obtain ⟨h1, h2⟩ := code_Intersect_step other data e ho hd he
    obtain ⟨h3, h4⟩ := ih (Intersect_step other data e) hl' h2
    refine ⟨?_, h4⟩
    rw [List.foldl_cons, h3, h1, DMap.code_cons, List.foldl_cons]

/-- Without NaN, `Intersect` on binary64 degrees is `Intersect` on the codes. -/
theorem code_Intersect (A B : FuzzySet K) (hA : DMap.NoNaN A.data_) (hB : DMap.NoNaN B.data_) :
    DMap.code (A.Intersect B).data_ =
        (Fuzzy.FuzzySet.Intersect ⟨DMap.code A.data_⟩ ⟨DMap.code B.data_⟩).data_ ∧
      DMap.NoNaN (A.Intersect B).data_ :=
  code_foldl_Intersect B A.data_ A.data_ hB hA hA

end FuzzySet

theorem code_composable {K : Type} [DecidableEq K] (left right : DMap (K × K)) :
    Fuzzy.composable (DMap.code left) (DMap.code right) = composable left right := by
  unfold composable Fuzzy.composable DMap.code
  simp only [List.foldl_map]

namespace FuzzyRelation

variable {K : Type} [DecidableEq K]

theorem code_Composition_step (x y : K) (x_y : Double) (data : DMap (K × K))
    (pair2 : (K × K) × Double) (hx : x_y ≠ Double.nan) (hd : DMap.NoNaN data)
    (hp : pair2.2 ≠ Double.nan) :
    DMap.code (Composition_step x y x_y data pair2) =
        Fuzzy.FuzzyRelation.Composition_step x y (Double.code x_y) (DMap.code data)
          (pair2.1, Double.code pair2.2) ∧
      DMap.NoNaN (Composition_step x y x_y data pair2) := by
  unfold Composition_step Fuzzy.FuzzyRelation.Composition_step
  by_cases hy : y = pair2.1.1
  · rw [if_pos hy, if_pos hy]
    have hm : Double.std_min x_y pair2.2 ≠ Double.nan := Double.std_min_ne_nan _ _ hx hp
    show (DMap.code (match DMap.lookup data (x, pair2.1.2) with
        | none => DMap.assign data (x, pair2.1.2) (Double.std_min x_y pair2.2)
        | some cur => DMap.assign data (x, pair2.1.2)
            (Double.std_max cur (Double.std_min x_y pair2.2))) =
      (match UMap.lookup (DMap.code data) (x, pair2.1.2) with
        | none => UMap.assign (DMap.code data) (x, pair2.1.2)
            (min (Double.code x_y) (Double.code pair2.2))
        | some cur => UMap.assign (DMap.code data) (x, pair2.1.2)
            (max cur (min (Double.code x_y) (Double.code pair2.2))))) ∧
      DMap.NoNaN (match DMap.lookup data (x, pair2.1.2) with
        | none => DMap.assign data (x, pair2.1.2) (Double.std_min x_y pair2.2)
        | some cur => DMap.assign data (x, pair2.1.2)
            (Double.std_max cur (Double.std_min x_y pair2.2)))
    rw [DMap.lookup_code]
    cases hl : DMap.lookup data (x, pair2.1.2) with
    | none =>
      refine ⟨?_, DMap.NoNaN_assign _ hd _ _ hm⟩
      show DMap.code (DMap.assign data (x, pair2.1.2) (Double.std_min x_y pair2.2)) =
        UMap.assign (DMap.code data) (x, pair2.1.2) (min (Double.code x_y) (Double.code pair2.2))
      rw [DMap.assign_code, Double.code_std_min _ _ hx hp]
    | some cur =>
      have hc : cur ≠ Double.nan := DMap.NoNaN_lookup data hd _ _ hl
      refine ⟨?_, DMap.NoNaN_assign _ hd _ _ (Double.std_max_ne_nan _ _ hc hm)⟩
      show DMap.code (DMap.assign data (x, pair2.1.2)
          (Double.std_max cur (Double.std_min x_y pair2.2))) =
        UMap.assign (DMap.code data) (x, pair2.1.2)
          (max (Double.code cur) (min (Double.code x_y) (Double.code pair2.2)))
      rw [DMap.assign_code, Double.code_std_max _ _ hc hm, Double.code_std_min _ _ hx hp]
  · rw [if_neg hy, if_neg hy]
    exact ⟨rfl, hd⟩

theorem code_Composition_inner (x y : K) (x_y : Double) (other data : DMap (K × K))
    (hx : x_y ≠ Double.nan) (ho : DMap.NoNaN other) (hd : DMap.NoNaN data) :
    DMap.code (other.foldl (Composition_step x y x_y) data) =
        (DMap.code other).foldl
          (Fuzzy.FuzzyRelation.Composition_step x y (Double.code x_y)) (DMap.code data) ∧
      DMap.NoNaN (other.foldl (Composition_step x y x_y) data) := by
  induction other generalizing data with
  | nil => exact ⟨rfl, hd⟩
  | cons e l ih =>
    have he : e.2 ≠ Double.nan := ho e (List.mem_cons_self _ _)
    have hl' : DMap.NoNaN l := fun z hz => ho z (List.mem_cons_of_mem _ hz)
    obtain ⟨h1, h2⟩ := code_Composition_step x y x_y data e hx hd he
    obtain ⟨h3, h4⟩ := ih (Composition_step x y x_y data e) hl' h2
    refine ⟨?_, h4⟩
    rw [List.foldl_cons, h3, h1, DMap.code_cons, List.foldl_cons]

theorem code_Composition_outer (self other data : DMap (K × K))
    (hs : DMap.NoNaN self) (ho : DMap.NoNaN other) (hd : DMap.NoNaN data) :
    DMap.code (self.foldl
        (fun result_data pair1 =>
          other.foldl (Composition_step pair1.1.1 pair1.1.2 pair1.2) result_data) data) =
      (DMap.code self).foldl
        (fun result_data pair1 =>
          (DMap.code other).foldl
            (Fuzzy.FuzzyRelation.Composition_step pair1.1.1 pair1.1.2 pair1.2) result_data)
        (DMap.code data) ∧
      DMap.NoNaN (self.foldl
        (fun result_data pair1 =>
          other.foldl (Composition_step pair1.1.1 pair1.1.2 pair1.2) result_data) data) := by
  induction self generalizing data with
  | nil => exact ⟨rfl, hd⟩
  | cons e l ih =>
    have he : e.2 ≠ Double.nan := hs e (List.mem_cons_self _ _)
    have hl' : DMap.NoNaN l := fun z hz => hs z (List.mem_cons_of_mem _ hz)
    obtain ⟨h1, h2⟩ := code_Composition_inner e.1.1 e.1.2 e.2 other data he ho hd
    obtain ⟨h3, h4⟩ := ih _ hl' h2
    refine ⟨?_, h4⟩
    rw [List.foldl_cons, h3, h1, DMap.code_cons, List.foldl_cons]

/-- Without NaN, `Composition` on binary64 degrees is `Composition` on the
codes, and its result holds no NaN. -/
theorem code_Composition (R S C : FuzzyRelation K) (hR : DMap.NoNaN R.data_)
    (hS : DMap.NoNaN S.data_) (h : R.Composition S = Except.ok C) :
    Fuzzy.FuzzyRelation.Composition ⟨DMap.code R.data_⟩ ⟨DMap.code S.data_⟩ =
        Except.ok ⟨DMap.code C.data_⟩ ∧
      DMap.NoNaN C.data_ := by
  unfold Composition at h
  unfold Fuzzy.FuzzyRelation.Composition
  rw [code_composable]
  cases hc : composable R.data_ S.data_ with
  | false => rw [hc] at h; simp at h
  | true =>
    rw [hc] at h
    simp only [Bool.not_true, Bool.false_eq_true, if_false] at h ⊢
    obtain ⟨h1, h2⟩ := code_Composition_outer R.data_ S.data_ [] hR hS (fun _ he => by simp at he)
    cases h
    exact ⟨by rw [h1]; rfl, h2⟩

end FuzzyRelation

end IEEE

namespace Double

theorem log2_loop_eq (fuel n : Nat) (h : n ≤ fuel) : log2_loop fuel n = Nat.log 2 n := by
  induction fuel generalizing n with
  | zero =>
    have : n = 0 := by omega
    subst this
    rw [Nat.log_of_lt (by norm_num)]
    rfl
  | succ f ih =>
    unfold log2_loop
    by_cases hn : n < 2
    · rw [if_pos hn, Nat.log_of_lt hn]
    · rw [if_neg hn, Nat.log_of_one_lt_of_le (by norm_num) (by omega)]
      rw [ih (n / 2) (by omega)]

theorem nlog2_eq (n : Nat) : nlog2 n = Nat.log 2 n := log2_loop_eq n n (le_refl n)

theorem pow2_eq (e : ℤ) : pow2 e = (2 : ℚ) ^ e := by
  unfold pow2
  by_cases h : 0 ≤ e
  · rw [if_pos h]
    obtain ⟨n, rfl⟩ := Int.eq_ofNat_of_zero_le h
    simp
  · rw [if_neg h]
    obtain ⟨n, rfl⟩ := Int.exists_eq_neg_ofNat (by omega : e ≤ 0)
    simp

theorem pow2_pos (e : ℤ) : 0 < pow2 e := by
  rw [pow2_eq]
  exact zpow_pos (by norm_num) e

theorem pow2_mono (a b : ℤ) (h : a ≤ b) : pow2 a ≤ pow2 b := by
  rw [pow2_eq, pow2_eq]
  exact zpow_le_zpow_right₀ (by norm_num) h

/-- A rational of magnitude below `2` has a binary exponent of at most `0`. -/
theorem ilog2_le_zero (x : ℚ) (hx : x ≠ 0) (h : |x| < 2) : ilog2 x ≤ 0 := by
  have hd : 0 < x.den := x.den_pos
  have hn : x.num.natAbs < 2 * x.den := by
    have h1 : |x| = (x.num.natAbs : ℚ) / x.den := by
      conv_lhs => rw [← Rat.num_div_den x]
      rw [abs_div, Nat.cast_natAbs, Int.cast_abs]
      congr 1
      exact abs_of_pos (by exact_mod_cast hd)
    rw [h1, div_lt_iff₀ (by exact_mod_cast hd)] at h
    exact_mod_cast h
  have hn0 : x.num.natAbs ≠ 0 := by
    intro h0
    exact hx (Rat.zero_of_num_zero (Int.natAbs_eq_zero.1 h0))
  unfold ilog2
  simp only
  split
  · rename_i hc
    by_contra hcon
    have hab : nlog2 x.den + 1 ≤ nlog2 x.num.natAbs := by omega
    have h2 : 2 ^ (nlog2 x.den + 1) ≤ 2 ^ nlog2 x.num.natAbs :=
      Nat.pow_le_pow_right (by norm_num) hab
    have h3 : x.den * 2 ^ (nlog2 x.den + 1) ≤ x.num.natAbs * 2 ^ nlog2 x.den :=
      le_trans (Nat.mul_le_mul_left _ h2) hc
    rw [pow_succ] at h3
    have h4 : 0 < 2 ^ nlog2 x.den := Nat.pow_pos (by norm_num)
    nlinarith
  · have h1 : nlog2 x.num.natAbs ≤ nlog2 x.den + 1 := by
      rw [nlog2_eq, nlog2_eq, ← Nat.log_mul_base (by norm_num) (Nat.pos_iff_ne_zero.1 hd)]
      exact Nat.log_mono_right (by omega)
    omega

theorem roundEven_err (y : ℚ) : |(roundEven y : ℚ) - y| ≤ 1 / 2 := by
  have h1 : (⌊y⌋ : ℚ) ≤ y := Int.floor_le y
  have h2 : y < (⌊y⌋ : ℚ) + 1 := Int.lt_floor_add_one y
  unfold roundEven
  simp only
  rw [abs_le]
  split
  · constructor <;> linarith
  · split
    · push_cast
      constructor <;> linarith
    · split
      · constructor <;> linarith
      · push_cast
        constructor <;> linarith

theorem ulp_pos (x : ℚ) : 0 < ulp x := pow2_pos _

theorem ulp_le (x : ℚ) (hx : x ≠ 0) (h : |x| < 2) : ulp x ≤ 1 / 2 ^ 52 := by
  have h1 := ilog2_le_zero x hx h
  have h2 : max (ilog2 x - 52) (-1074) ≤ -52 := max_le (by omega) (by norm_num)
  have h3 := pow2_mono _ _ h2
  have h4 : pow2 (-52) = 1 / 2 ^ 52 := by
    rw [pow2_eq]
    norm_num
  unfold ulp
  rw [← h4]
  exact h3

/-- The binary64 value of a real number of magnitude below `2` is finite and
within `2 ^ (-53)` of it. -/
theorem nearest_err (x : ℚ) (h : |x| < 2) :
    ∃ r, nearest x = fin r ∧ |r - x| ≤ 1 / 2 ^ 53 := by
  by_cases hx : x = 0
  · refine ⟨0, ?_, ?_⟩
    · unfold nearest; rw [if_pos hx]
    · rw [hx]; norm_num
  · have hu := ulp_pos x
    have hu2 := ulp_le x hx h
    have he := roundEven_err (x / ulp x)
    have herr : |(roundEven (x / ulp x) : ℚ) * ulp x - x| ≤ 1 / 2 ^ 53 := by
      have e1 : (roundEven (x / ulp x) : ℚ) * ulp x - x =
          ((roundEven (x / ulp x) : ℚ) - x / ulp x) * ulp x := by
        field_simp
      rw [e1, abs_mul, abs_of_pos hu]
      calc |(roundEven (x / ulp x) : ℚ) - x / ulp x| * ulp x
          ≤ 1 / 2 * (1 / 2 ^ 52) := mul_le_mul he hu2 (le_of_lt hu) (by norm_num)
        _ = 1 / 2 ^ 53 := by norm_num
    have hb := abs_le.1 herr
    have hx2 := abs_lt.1 h
    have hp : (4 : ℚ) ≤ pow2 1024 := by
      have := pow2_mono 2 1024 (by norm_num)
      have h2 : pow2 2 = 4 := by rw [pow2_eq]; norm_num
      linarith
    have hs : (1 : ℚ) / 2 ^ 53 ≤ 1 := by norm_num
    refine ⟨(roundEven (x / ulp x) : ℚ) * ulp x, ?_, herr⟩
    unfold nearest
    rw [if_neg hx]
    simp only
    rw [if_neg (by linarith), if_neg (by linarith)]

end Double

namespace Double

theorem tolerance_eq : tolerance = fin (6189700196426901 / 2 ^ 89) := by decide!

theorem nearest_ne_nan (x : ℚ) : nearest x ≠ nan := by
  unfold nearest
  split
  · exact fun h => Double.noConfusion h
  · simp only
    split
    · exact fun h => Double.noConfusion h
    · split <;> exact fun h => Double.noConfusion h

/-- The difference of a `double` and itself is never greater than the tolerance. -/
theorem sub_self_not_gt (v : Double) : gt (fabs (sub v v)) tolerance = false := by
  rw [tolerance_eq]
  cases v with
  | nan => rfl
  | ninf => rfl
  | pinf => rfl
  | fin q =>
    have h : sub (fin q) (fin q) = fin 0 := by
      show nearest (q - q) = fin 0
      rw [sub_self]
      rfl
    rw [h]
    show decide ((6189700196426901 / 2 ^ 89 : ℚ) < |0|) = false
    rw [abs_zero]
    exact decide_eq_false (by norm_num)

/-- Away from NaN, "not greater than" is "at most". -/
theorem gt_false_iff_le (d t : Double) (hd : d ≠ nan) (ht : t ≠ nan) :
    gt d t = false ↔ le d t = true := by
  cases d with
  | nan => exact absurd rfl hd
  | ninf => cases t <;> simp [gt, lt, le] at ht ⊢
  | pinf => cases t <;> simp [gt, lt, le] at ht ⊢
  | fin a =>
    cases t with
    | nan => exact absurd rfl ht
    | ninf => simp [gt, lt, le]
    | pinf => simp [gt, lt, le]
    | fin b => simp [gt, lt, le]

theorem fabs_sub_fin_ne_nan (a b : ℚ) : fabs (sub (fin a) (fin b)) ≠ nan := by
  show fabs (nearest (a - b)) ≠ nan
  have h := nearest_ne_nan (a - b)
  cases hn : nearest (a - b) with
  | nan => exact absurd hn h
  | ninf => exact fun h => Double.noConfusion h
  | pinf => exact fun h => Double.noConfusion h
  | fin q => exact fun h => Double.noConfusion h

end Double

namespace IEEE

variable {K : Type} [DecidableEq K]

theorem operator_eq_loop_floating (other l : DMap K) :
    ∃ b, operator_eq_loop AbsOverload.floating other l = some b ∧
      (b = true ↔ ∀ e ∈ l, ∃ o, DMap.lookup other e.1 = some o ∧
        Double.gt (Double.fabs (Double.sub o e.2)) Double.tolerance = false) := by
  induction l with
  | nil => exact ⟨true, rfl, by simp⟩
  | cons e l ih =>
    obtain ⟨key, value⟩ := e
    obtain ⟨b, hb, hiff⟩ := ih
    unfold operator_eq_loop
    cases hl : DMap.lookup other key with
    | none =>
      refine ⟨false, rfl, ?_⟩
      simp only [Bool.false_eq_true, false_iff]
      intro h
      obtain ⟨o, ho, _⟩ := h (key, value) (List.mem_cons_self _ _)
      rw [hl] at ho
      cases ho
    | some o =>
      show ∃ b, (if Double.gt (Double.fabs (Double.sub o value)) Double.tolerance = true
          then some false else operator_eq_loop AbsOverload.floating other l) = some b ∧ _
      cases hg : Double.gt (Double.fabs (Double.sub o value)) Double.tolerance with
      | true =>
        refine ⟨false, by simp, ?_⟩
        simp only [Bool.false_eq_true, false_iff]
        intro h
        obtain ⟨o', ho', hgt⟩ := h (key, value) (List.mem_cons_self _ _)
        rw [hl] at ho'
        cases ho'
        rw [hg] at hgt
        cases hgt
      | false =>
        refine ⟨b, by simpa using hb, ?_⟩
        rw [hiff]
        constructor
        · intro h e he
          rcases List.mem_cons.1 he with rfl | he'
          · exact ⟨o, hl, hg⟩
          · exact h e he'
        · intro h e he
          exact h e (List.mem_cons_of_mem _ he)

/-- The loop of `operator==` under the floating-point `abs`, on maps. -/
theorem operator_eq_loop_iff (X Y : DMap K) (hX : DMap.WF X) :
    operator_eq_loop AbsOverload.floating Y X = some true ↔
      ∀ k x, DMap.lookup X k = some x →
        ∃ y, DMap.lookup Y k = some y ∧
          Double.gt (Double.fabs (Double.sub y x)) Double.tolerance = false := by
  obtain ⟨b, hb, hiff⟩ := operator_eq_loop_floating Y X
  rw [hb]
  constructor
  · intro h k x hx
    have hbt : b = true := Option.some.inj h
    exact (hiff.1 hbt) (k, x) (DMap.dmap_mem_of_lookup X k x hx)
  · intro h
    have : b = true := hiff.2 (fun e he => h e.1 e.2 (DMap.dmap_lookup_of_mem X hX e.1 e.2 he))
    rw [this]

theorem size_eq_of_lookup_eq (X Y : DMap K) (hX : DMap.WF X) (hY : DMap.WF Y)
    (h : ∀ k, DMap.lookup X k = DMap.lookup Y k) : DMap.size X = DMap.size Y := by
  have h1 := Fuzzy.FuzzySet.set_operator_eq_of_lookup_eq ⟨DMap.code X⟩ ⟨DMap.code Y⟩
    ((DMap.WF_code X).2 hX) ((DMap.WF_code Y).2 hY)
    (fun k => by
      show UMap.lookup (DMap.code X) k = UMap.lookup (DMap.code Y) k
      rw [DMap.lookup_code, DMap.lookup_code, h k])
  have h2 := ((Fuzzy.FuzzySet.set_operator_eq_iff ⟨DMap.code X⟩ ⟨DMap.code Y⟩
    ((DMap.WF_code X).2 hX)).1 h1).1
  rw [← DMap.size_code X, ← DMap.size_code Y]
  exact h2

namespace FuzzySet

/-- The member `operator==` under the floating-point `abs` always returns, and
it returns true exactly when the sizes agree and no entry fails the test. -/
theorem ieee_set_operator_eq_iff (X Y : FuzzySet K) (hX : DMap.WF X.data_) :
    X.operator_eq AbsOverload.floating Y = some true ↔
      DMap.size X.data_ = DMap.size Y.data_ ∧
      ∀ k x, DMap.lookup X.data_ k = some x →
        ∃ y, DMap.lookup Y.data_ k = some y ∧
          Double.gt (Double.fabs (Double.sub y x)) Double.tolerance = false := by
  unfold operator_eq
  by_cases hs : DMap.size X.data_ = DMap.size Y.data_
  · rw [if_neg (by simp [hs]), operator_eq_loop_iff X.data_ Y.data_ hX]
    simp [hs]
  · rw [if_pos (by simpa using hs)]
    simp [hs]

theorem ieee_set_operator_eq_total (X Y : FuzzySet K) :
    ∃ b, X.operator_eq AbsOverload.floating Y = some b := by
  unfold operator_eq
  split
  · exact ⟨false, rfl⟩
  · obtain ⟨b, hb, _⟩ := operator_eq_loop_floating Y.data_ X.data_
    exact ⟨b, hb⟩

theorem ieee_set_operator_eq_of_lookup_eq (X Y : FuzzySet K) (hX : DMap.WF X.data_)
    (hY : DMap.WF Y.data_) (h : ∀ k, DMap.lookup X.data_ k = DMap.lookup Y.data_ k) :
    X.operator_eq AbsOverload.floating Y = some true := by
  rw [ieee_set_operator_eq_iff X Y hX]
  refine ⟨size_eq_of_lookup_eq _ _ hX hY h, ?_⟩
  intro k x hx
  exact ⟨x, by rw [← h k]; exact hx, Double.sub_self_not_gt x⟩

end FuzzySet

namespace FuzzyRelation

theorem ieee_relation_operator_eq_iff (X Y : FuzzyRelation K) (hX : DMap.WF X.data_) :
    X.operator_eq AbsOverload.floating Y = some true ↔
      DMap.size X.data_ = DMap.size Y.data_ ∧
      ∀ k x, DMap.lookup X.data_ k = some x →
        ∃ y, DMap.lookup Y.data_ k = some y ∧
          Double.gt (Double.fabs (Double.sub y x)) Double.tolerance = false := by
  unfold operator_eq
  by_cases hs : DMap.size X.data_ = DMap.size Y.data_
  · rw [if_neg (by simp [hs]), operator_eq_loop_iff X.data_ Y.data_ hX]
    simp [hs]
  · rw [if_pos (by simpa using hs)]
    simp [hs]

theorem ieee_relation_operator_eq_total (X Y : FuzzyRelation K) :
    ∃ b, X.operator_eq AbsOverload.floating Y = some b := by
  unfold operator_eq
  split
  · exact ⟨false, rfl⟩
  · obtain ⟨b, hb, _⟩ := operator_eq_loop_floating Y.data_ X.data_
    exact ⟨b, hb⟩

theorem ieee_relation_operator_eq_of_lookup_eq (X Y : FuzzyRelation K) (hX : DMap.WF X.data_)
    (hY : DMap.WF Y.data_) (h : ∀ k, DMap.lookup X.data_ k = DMap.lookup Y.data_ k) :
    X.operator_eq AbsOverload.floating Y = some true := by
  rw [ieee_relation_operator_eq_iff X Y hX]
  refine ⟨size_eq_of_lookup_eq _ _ hX hY h, ?_⟩
  intro k x hx
  exact ⟨x, by rw [← h k]; exact hx, Double.sub_self_not_gt x⟩

end FuzzyRelation

end IEEE

namespace IEEE

namespace DMap

variable {K : Type} [DecidableEq K]

theorem dmap_keys_map_values (m : DMap K) (f : Double → Double) :
    keys (m.map (fun e => (e.1, f e.2))) = keys m := by
  unfold keys
  rw [List.map_map]
  rfl

theorem dmap_lookup_map_values (m : DMap K) (f : Double → Double) (k : K) :
    lookup (m.map (fun e => (e.1, f e.2))) k = (lookup m k).map f := by
  induction m with
  | nil => rfl
  | cons e m ih =>
    obtain ⟨k', v⟩ := e
    show (if k' = k then some (f v) else lookup (m.map (fun e => (e.1, f e.2))) k) =
      (if k' = k then some v else lookup m k).map f
    by_cases h : k' = k
    · rw [if_pos h, if_pos h]; rfl
    · rw [if_neg h, if_neg h, ih]

theorem assign_append_of_not_mem (l1 l2 : DMap K) (k : K) (v w : Double) (h : k ∉ keys l1) :
    assign (l1 ++ (k, v) :: l2) k w = l1 ++ (k, w) :: l2 := by
  induction l1 with
  | nil =>
    show (if k = k then (k, w) :: l2 else (k, v) :: assign l2 k w) = _
    rw [if_pos rfl]
    rfl
  | cons e l1 ih =>
    obtain ⟨k', v'⟩ := e
    have hk : k' ≠ k := by
      intro hk
      exact h (by rw [← hk]; exact List.mem_cons_self _ _)
    have hl : k ∉ keys l1 := fun hm => h (List.mem_cons_of_mem _ hm)
    show (if k' = k then (k', w) :: (l1 ++ (k, v) :: l2)
      else (k', v') :: assign (l1 ++ (k, v) :: l2) k w) = _
    rw [if_neg hk, ih hl]
    rfl

/-- Overwriting every entry of a map in turn with a function of its degree maps
the function over the degrees. -/
theorem foldl_assign_map (f : Double → Double) (done rest : DMap K) (h : WF (done ++ rest)) :
    rest.foldl (fun data pair => assign data pair.1 (f pair.2))
        (done.map (fun e => (e.1, f e.2)) ++ rest) =
      (done ++ rest).map (fun e => (e.1, f e.2)) := by
  induction rest generalizing done with
  | nil => simp
  | cons e r ih =>
    obtain ⟨k, v⟩ := e
    have hk : k ∉ keys (done.map (fun e => (e.1, f e.2))) := by
      rw [dmap_keys_map_values]
      unfold WF keys at h
      rw [List.map_append, List.map_cons] at h
      have h2 := (List.nodup_append.1 h).2.2
      intro hm
      exact h2 hm (List.mem_cons_self _ _)
    rw [List.foldl_cons]
    show r.foldl (fun data pair => assign data pair.1 (f pair.2))
      (assign (done.map (fun e => (e.1, f e.2)) ++ (k, v) :: r) k (f v)) = _
    rw [assign_append_of_not_mem _ _ _ _ _ hk]
    have h' : WF ((done ++ [(k, v)]) ++ r) := by
      rw [List.append_assoc]
      exact h
    have := ih (done ++ [(k, v)]) h'
    rw [List.map_append, List.append_assoc] at this
    rw [List.append_assoc] at this
    exact this

end DMap

namespace FuzzySet

variable {K : Type} [DecidableEq K]

/-- The member `Complement` overwrites every degree `v` with `1 - v`. -/
theorem Complement_data (A : FuzzySet K) (hA : DMap.WF A.data_) :
    A.Complement.data_ = A.data_.map (fun e => (e.1, Double.sub (Double.fin 1) e.2)) := by
  have h := DMap.foldl_assign_map (fun v => Double.sub (Double.fin 1) v) [] A.data_ hA
  exact h

theorem keys_ieee_Complement (A : FuzzySet K) (hA : DMap.WF A.data_) :
    DMap.keys A.Complement.data_ = DMap.keys A.data_ := by
  rw [Complement_data A hA]
  exact DMap.dmap_keys_map_values _ (fun v => Double.sub (Double.fin 1) v)

theorem WF_ieee_Complement (A : FuzzySet K) (hA : DMap.WF A.data_) :
    DMap.WF A.Complement.data_ := by
  unfold DMap.WF
  rw [keys_ieee_Complement A hA]
  exact hA

theorem lookup_ieee_Complement (A : FuzzySet K) (hA : DMap.WF A.data_) (k : K) :
    DMap.lookup A.Complement.data_ k =
      (DMap.lookup A.data_ k).map (fun v => Double.sub (Double.fin 1) v) := by
  rw [Complement_data A hA]
  exact DMap.dmap_lookup_map_values _ (fun v => Double.sub (Double.fin 1) v) k

end FuzzySet

end IEEE

namespace FuzzySet

variable {K : Type} [DecidableEq K]

theorem Unite_comm_lookup (A B : FuzzySet K) (hA : UMap.WF A.data_) (hB : UMap.WF B.data_)
    (k : K) : UMap.lookup (A.Unite B).data_ k = UMap.lookup (B.Unite A).data_ k := by
  rw [FuzzySet.lookup_Unite A B hB, FuzzySet.lookup_Unite B A hA]
  cases UMap.lookup A.data_ k <;> cases UMap.lookup B.data_ k <;> simp [max_comm]

theorem Intersect_comm_lookup (A B : FuzzySet K) (hA : UMap.WF A.data_) (hB : UMap.WF B.data_)
    (k : K) : UMap.lookup (A.Intersect B).data_ k = UMap.lookup (B.Intersect A).data_ k := by
  rw [FuzzySet.lookup_Intersect A B hA, FuzzySet.lookup_Intersect B A hB]
  cases UMap.lookup A.data_ k <;> cases UMap.lookup B.data_ k <;> simp [min_comm]

theorem Unite_assoc_lookup (A B C : FuzzySet K) (hB : UMap.WF B.data_) (hC : UMap.WF C.data_)
    (k : K) :
    UMap.lookup ((A.Unite B).Unite C).data_ k = UMap.lookup (A.Unite (B.Unite C)).data_ k := by
  rw [FuzzySet.lookup_Unite (A.Unite B) C hC, FuzzySet.lookup_Unite A B hB,
    FuzzySet.lookup_Unite A (B.Unite C) (FuzzySet.WF_Unite B C hB),
    FuzzySet.lookup_Unite B C hC]
  cases UMap.lookup A.data_ k <;> cases UMap.lookup B.data_ k <;>
    cases UMap.lookup C.data_ k <;> simp [max_assoc]

theorem Intersect_assoc_lookup (A B C : FuzzySet K) (hA : UMap.WF A.data_)
    (hB : UMap.WF B.data_) (k : K) :
    UMap.lookup ((A.Intersect B).Intersect C).data_ k =
      UMap.lookup (A.Intersect (B.Intersect C)).data_ k := by
  rw [FuzzySet.lookup_Intersect (A.Intersect B) C (FuzzySet.WF_Intersect A B hA),
    FuzzySet.lookup_Intersect A B hA, FuzzySet.lookup_Intersect A (B.Intersect C) hA,
    FuzzySet.lookup_Intersect B C hB]
  cases UMap.lookup A.data_ k <;> cases UMap.lookup B.data_ k <;>
    cases UMap.lookup C.data_ k <;> simp [min_assoc]

end FuzzySet

namespace IEEE

namespace FuzzySet

variable {K : Type} [DecidableEq K]

theorem ieee_Unite_comm (A B : FuzzySet K) (hA : DMap.WF A.data_) (hB : DMap.WF B.data_)
    (nA : DMap.NoNaN A.data_) (nB : DMap.NoNaN B.data_) (k : K) :
    DMap.lookup (A.Unite B).data_ k = DMap.lookup (B.Unite A).data_ k := by
  refine DMap.lookup_eq_of_code _ _ ?_ k
  intro k'
  rw [(code_Unite A B nA nB).1, (code_Unite B A nB nA).1]
  exact Fuzzy.FuzzySet.Unite_comm_lookup ⟨DMap.code A.data_⟩ ⟨DMap.code B.data_⟩
    ((DMap.WF_code _).2 hA) ((DMap.WF_code _).2 hB) k'

theorem ieee_Intersect_comm (A B : FuzzySet K) (hA : DMap.WF A.data_) (hB : DMap.WF B.data_)
    (nA : DMap.NoNaN A.data_) (nB : DMap.NoNaN B.data_) (k : K) :
    DMap.lookup (A.Intersect B).data_ k = DMap.lookup (B.Intersect A).data_ k := by
  refine DMap.lookup_eq_of_code _ _ ?_ k
  intro k'
  rw [(code_Intersect A B nA nB).1, (code_Intersect B A nB nA).1]
  exact Fuzzy.FuzzySet.Intersect_comm_lookup ⟨DMap.code A.data_⟩ ⟨DMap.code B.data_⟩
    ((DMap.WF_code _).2 hA) ((DMap.WF_code _).2 hB) k'

theorem ieee_Unite_assoc (A B C : FuzzySet K) (hB : DMap.WF B.data_) (hC : DMap.WF C.data_)
    (nA : DMap.NoNaN A.data_) (nB : DMap.NoNaN B.data_) (nC : DMap.NoNaN C.data_) (k : K) :
    DMap.lookup ((A.Unite B).Unite C).data_ k = DMap.lookup (A.Unite (B.Unite C)).data_ k := by
  refine DMap.lookup_eq_of_code _ _ ?_ k
  intro k'
  obtain ⟨hAB, nAB⟩ := code_Unite A B nA nB
  obtain ⟨hBC, nBC⟩ := code_Unite B C nB nC
  rw [(code_Unite (A.Unite B) C nAB nC).1, (code_Unite A (B.Unite C) nA nBC).1, hAB, hBC]
  exact Fuzzy.FuzzySet.Unite_assoc_lookup ⟨DMap.code A.data_⟩ ⟨DMap.code B.data_⟩
    ⟨DMap.code C.data_⟩ ((DMap.WF_code _).2 hB) ((DMap.WF_code _).2 hC) k'

theorem ieee_Intersect_assoc (A B C : FuzzySet K) (hA : DMap.WF A.data_)
    (hB : DMap.WF B.data_)
    (nA : DMap.NoNaN A.data_) (nB : DMap.NoNaN B.data_) (nC : DMap.NoNaN C.data_) (k : K) :
    DMap.lookup ((A.Intersect B).Intersect C).data_ k =
      DMap.lookup (A.Intersect (B.Intersect C)).data_ k := by
  refine DMap.lookup_eq_of_code _ _ ?_ k
  intro k'
  obtain ⟨hAB, nAB⟩ := code_Intersect A B nA nB
  obtain ⟨hBC, nBC⟩ := code_Intersect B C nB nC
  rw [(code_Intersect (A.Intersect B) C nAB nC).1, (code_Intersect A (B.Intersect C) nA nBC).1,
    hAB, hBC]
  exact Fuzzy.FuzzySet.Intersect_assoc_lookup ⟨DMap.code A.data_⟩ ⟨DMap.code B.data_⟩
    ⟨DMap.code C.data_⟩ ((DMap.WF_code _).2 hA) ((DMap.WF_code _).2 hB) k'

end FuzzySet

end IEEE

namespace IEEE

namespace FuzzyRelation

variable {K : Type} [DecidableEq K]

/-- Without NaN, the two ways of composing three relations hold the same degree
at every pair. -/
theorem ieee_Composition_assoc (R S T RS ST L Rr : FuzzyRelation K)
    (hR : DMap.WF R.data_) (hS : DMap.WF S.data_) (hT : DMap.WF T.data_)
    (nR : DMap.NoNaN R.data_) (nS : DMap.NoNaN S.data_) (nT : DMap.NoNaN T.data_)
    (h1 : R.Composition S = Except.ok RS) (h2 : RS.Composition T = Except.ok L)
    (h3 : S.Composition T = Except.ok ST) (h4 : R.Composition ST = Except.ok Rr) :
    DMap.WF L.data_ ∧ DMap.WF Rr.data_ ∧
      ∀ k, DMap.lookup L.data_ k = DMap.lookup Rr.data_ k := by
  obtain ⟨c1, nRS⟩ := code_Composition R S RS nR nS h1
  obtain ⟨c2, _⟩ := code_Composition RS T L nRS nT h2
  obtain ⟨c3, nST⟩ := code_Composition S T ST nS nT h3
  obtain ⟨c4, _⟩ := code_Composition R ST Rr nR nST h4
  have wR := (DMap.WF_code R.data_).2 hR
  have wS := (DMap.WF_code S.data_).2 hS
  have wT := (DMap.WF_code T.data_).2 hT
  have hL := Fuzzy.FuzzyRelation.Composition_left_char ⟨DMap.code R.data_⟩ ⟨DMap.code S.data_⟩
    ⟨DMap.code T.data_⟩ ⟨DMap.code RS.data_⟩ ⟨DMap.code L.data_⟩ wR wS wT c1 c2
  have hRr := Fuzzy.FuzzyRelation.Composition_right_char ⟨DMap.code R.data_⟩
    ⟨DMap.code S.data_⟩ ⟨DMap.code T.data_⟩ ⟨DMap.code ST.data_⟩ ⟨DMap.code Rr.data_⟩
    wR wS wT c3 c4
  refine ⟨(DMap.WF_code L.data_).1 hL.1, (DMap.WF_code Rr.data_).1 hRr.1, ?_⟩
  intro k
  exact DMap.lookup_eq_of_code _ _ (fun k' => UMap.Collects_unique _ _ _ hL hRr k') k

end FuzzyRelation

end IEEE

namespace Double

theorem InUnit_iff (d : Double) : InUnit d ↔ ∃ q, d = fin q ∧ 0 ≤ q ∧ q ≤ 1 := by
  cases d with
  | nan => simp [InUnit]
  | ninf => simp [InUnit]
  | pinf => simp [InUnit]
  | fin p =>
    constructor
    · intro h
      exact ⟨p, rfl, h⟩
    · rintro ⟨q, hq, h⟩
      cases hq
      exact h

/-- A difference of magnitude below `2` that the test of `operator==` does not
find greater than the tolerance is at most the tolerance plus `2 ^ (-53)`. -/
theorem close_of_not_gt (a b : ℚ) (h : |a - b| < 2)
    (hg : gt (fabs (sub (fin a) (fin b))) tolerance = false) :
    |a - b| ≤ 6189700196426901 / 2 ^ 89 + 1 / 2 ^ 53 := by
  obtain ⟨r, hr, herr⟩ := nearest_err (a - b) h
  have hs : sub (fin a) (fin b) = fin r := hr
  rw [hs, tolerance_eq] at hg
  have hlt : ¬ ((6189700196426901 / 2 ^ 89 : ℚ) < |r|) := by
    intro hlt
    have : gt (fabs (fin r)) (fin (6189700196426901 / 2 ^ 89)) = true := by
      show decide ((6189700196426901 / 2 ^ 89 : ℚ) < |r|) = true
      exact decide_eq_true hlt
    rw [this] at hg
    cases hg
  have h1 : |r| ≤ 6189700196426901 / 2 ^ 89 := not_lt.1 hlt
  calc |a - b| = |(a - b - r) + r| := by ring_nf
    _ ≤ |a - b - r| + |r| := abs_add _ _
    _ = |r - (a - b)| + |r| := by rw [abs_sub_comm]
    _ ≤ 1 / 2 ^ 53 + 6189700196426901 / 2 ^ 89 := add_le_add herr h1
    _ = 6189700196426901 / 2 ^ 89 + 1 / 2 ^ 53 := add_comm _ _

/-- A difference of magnitude at most `2 ^ (-51)` passes the test of
`operator==`. -/
theorem not_gt_of_close (a b : ℚ) (h : |a - b| ≤ 1 / 2 ^ 51) :
    gt (fabs (sub (fin a) (fin b))) tolerance = false := by
  have h2 : |a - b| < 2 := lt_of_le_of_lt h (by norm_num)
  obtain ⟨r, hr, herr⟩ := nearest_err (a - b) h2
  have hs : sub (fin a) (fin b) = fin r := hr
  rw [hs, tolerance_eq]
  have h1 : |r| ≤ 1 / 2 ^ 53 + 1 / 2 ^ 51 := by
    calc |r| = |(r - (a - b)) + (a - b)| := by ring_nf
      _ ≤ |r - (a - b)| + |a - b| := abs_add _ _
      _ ≤ 1 / 2 ^ 53 + 1 / 2 ^ 51 := add_le_add herr h
  show decide ((6189700196426901 / 2 ^ 89 : ℚ) < |r|) = false
  refine decide_eq_false (not_lt.2 (le_trans h1 ?_))
  norm_num

/-- For a degree `q` in `[0, 1]`, `1 - (1 - q)` in binary64 is finite and within
`2 ^ (-52)` of `q`. -/
theorem double_complement_close (q : ℚ) (h0 : 0 ≤ q) (h1 : q ≤ 1) :
    ∃ r, sub (fin 1) (sub (fin 1) (fin q)) = fin r ∧ |r - q| ≤ 1 / 2 ^ 52 := by
  obtain ⟨r1, hr1, e1⟩ := nearest_err (1 - q) (by rw [abs_lt]; constructor <;> linarith)
  have hs1 : sub (fin 1) (fin q) = fin r1 := hr1
  have b1 := abs_le.1 e1
  have hs : (1 : ℚ) / 2 ^ 53 ≤ 1 / 2 := by norm_num
  obtain ⟨r2, hr2, e2⟩ := nearest_err (1 - r1) (by rw [abs_lt]; constructor <;> linarith)
  have hs2 : sub (fin 1) (fin r1) = fin r2 := hr2
  have b2 := abs_le.1 e2
  refine ⟨r2, by rw [hs1, hs2], ?_⟩
  rw [abs_le]
  have : (1 : ℚ) / 2 ^ 52 = 1 / 2 ^ 53 + 1 / 2 ^ 53 := by norm_num
  rw [this]
  constructor <;> linarith

end Double

namespace IEEE

namespace DMap

variable {K : Type} [DecidableEq K]

theorem InRange_lookup (m : DMap K) (hm : InRange m) (k : K) (v : Double)
    (h : lookup m k = some v) : ∃ q, v = Double.fin q ∧ 0 ≤ q ∧ q ≤ 1 :=
  (Double.InUnit_iff v).1 (hm (k, v) (dmap_mem_of_lookup m k v h))

theorem Finite_lookup (m : DMap K) (hm : Finite m) (k : K) (v : Double)
    (h : lookup m k = some v) : ∃ q, v = Double.fin q := by
  have hv : Double.IsFinite v := hm (k, v) (dmap_mem_of_lookup m k v h)
  cases v with
  | fin q => exact ⟨q, rfl⟩
  | nan => exact absurd hv (by simp [Double.IsFinite])
  | ninf => exact absurd hv (by simp [Double.IsFinite])
  | pinf => exact absurd hv (by simp [Double.IsFinite])

/-- On finite degrees the test of `operator==` is a comparison `<=`. -/
theorem not_gt_iff_le_of_finite (X Y : DMap K) (fX : Finite X) (fY : Finite Y) :
    (∀ k x, lookup X k = some x →
      ∃ y, lookup Y k = some y ∧
        Double.gt (Double.fabs (Double.sub y x)) Double.tolerance = false) ↔
    (∀ k x, lookup X k = some x →
      ∃ y, lookup Y k = some y ∧
        Double.le (Double.fabs (Double.sub y x)) Double.tolerance = true) := by
  have ht : Double.tolerance ≠ Double.nan := by
    rw [Double.tolerance_eq]
    exact fun h => Double.noConfusion h
  constructor
  · intro h k x hx
    obtain ⟨y, hy, hg⟩ := h k x hx
    obtain ⟨qx, rfl⟩ := Finite_lookup X fX k x hx
    obtain ⟨qy, rfl⟩ := Finite_lookup Y fY k y hy
    exact ⟨_, hy, (Double.gt_false_iff_le _ _ (Double.fabs_sub_fin_ne_nan qy qx) ht).1 hg⟩
  · intro h k x hx
    obtain ⟨y, hy, hg⟩ := h k x hx
    obtain ⟨qx, rfl⟩ := Finite_lookup X fX k x hx
    obtain ⟨qy, rfl⟩ := Finite_lookup Y fY k y hy
    exact ⟨_, hy, (Double.gt_false_iff_le _ _ (Double.fabs_sub_fin_ne_nan qy qx) ht).2 hg⟩

/-- Two steps within the tolerance of `operator==`, on degrees in `[0, 1]`. -/
theorem chain_close (X Y Z : DMap K) (rX : InRange X) (rY : InRange Y) (rZ : InRange Z)
    (hXY : ∀ k x, lookup X k = some x →
      ∃ y, lookup Y k = some y ∧
        Double.gt (Double.fabs (Double.sub y x)) Double.tolerance = false)
    (hYZ : ∀ k y, lookup Y k = some y →
      ∃ z, lookup Z k = some z ∧
        Double.gt (Double.fabs (Double.sub z y)) Double.tolerance = false)
    (k : K) (qx : ℚ) (hx : lookup X k = some (Double.fin qx)) :
    ∃ qz, lookup Z k = some (Double.fin qz) ∧ |qx - qz| ≤ 2.0001e-11 := by
  obtain ⟨y, hy, gy⟩ := hXY k _ hx
  obtain ⟨z, hz, gz⟩ := hYZ k y hy
  obtain ⟨qx', hqx, x0, x1⟩ := InRange_lookup X rX k _ hx
  cases hqx
  obtain ⟨qy, rfl, y0, y1⟩ := InRange_lookup Y rY k _ hy
  obtain ⟨qz, rfl, z0, z1⟩ := InRange_lookup Z rZ k _ hz
  have c1 := Double.close_of_not_gt qy qx (by rw [abs_lt]; constructor <;> linarith) gy
  have c2 := Double.close_of_not_gt qz qy (by rw [abs_lt]; constructor <;> linarith) gz
  refine ⟨qz, hz, ?_⟩
  have b1 := abs_le.1 c1
  have b2 := abs_le.1 c2
  have hnum : (6189700196426901 / 2 ^ 89 + 1 / 2 ^ 53 : ℚ) +
      (6189700196426901 / 2 ^ 89 + 1 / 2 ^ 53) ≤ 2.0001e-11 := by norm_num
  rw [abs_le]
  constructor <;> linarith

end DMap

end IEEE

namespace IEEE

variable {K : Type} [DecidableEq K]

theorem operator_eq_loop_close (X Y : DMap K)
    (h : operator_eq_loop AbsOverload.floating Y X = some true) :
    ∀ k x, DMap.lookup X k = some x →
      ∃ y, DMap.lookup Y k = some y ∧
        Double.gt (Double.fabs (Double.sub y x)) Double.tolerance = false := by
  obtain ⟨b, hb, hiff⟩ := operator_eq_loop_floating Y X
  rw [hb] at h
  intro k x hx
  exact (hiff.1 (Option.some.inj h)) (k, x) (DMap.dmap_mem_of_lookup X k x hx)

namespace FuzzySet

theorem ieee_set_operator_eq_close (X Y : FuzzySet K)
    (h : X.operator_eq AbsOverload.floating Y = some true) :
    DMap.size X.data_ = DMap.size Y.data_ ∧
      ∀ k x, DMap.lookup X.data_ k = some x →
        ∃ y, DMap.lookup Y.data_ k = some y ∧
          Double.gt (Double.fabs (Double.sub y x)) Double.tolerance = false := by
  unfold operator_eq at h
  by_cases hs : DMap.size X.data_ = DMap.size Y.data_
  · rw [if_neg (by simp [hs])] at h
    exact ⟨hs, operator_eq_loop_close _ _ h⟩
  · rw [if_pos (by simpa using hs)] at h
    cases h

/-- For a set with degrees in `[0, 1]`, the double complementation holds, at
every key, a finite degree within `2 ^ (-52)` of the original one. -/
theorem lookup_double_Complement (A : FuzzySet K) (hA : DMap.WF A.data_)
    (rA : DMap.InRange A.data_) (k : K) (q : ℚ)
    (h : DMap.lookup A.data_ k = some (Double.fin q)) :
    ∃ r, DMap.lookup A.Complement.Complement.data_ k = some (Double.fin r) ∧
      |r - q| ≤ 1 / 2 ^ 52 := by
  obtain ⟨q', hq, h0, h1⟩ := DMap.InRange_lookup A.data_ rA k _ h
  cases hq
  obtain ⟨r, hr, he⟩ := Double.double_complement_close q h0 h1
  refine ⟨r, ?_, he⟩
  rw [lookup_ieee_Complement A.Complement (WF_ieee_Complement A hA),
    lookup_ieee_Complement A hA, h]
  show some (Double.sub (Double.fin 1) (Double.sub (Double.fin 1) (Double.fin q))) = _
  rw [hr]

theorem keys_double_Complement (A : FuzzySet K) (hA : DMap.WF A.data_) :
    DMap.keys A.Complement.Complement.data_ = DMap.keys A.data_ := by
  rw [keys_ieee_Complement A.Complement (WF_ieee_Complement A hA), keys_ieee_Complement A hA]

theorem double_Complement_eq (A : FuzzySet K) (hA : DMap.WF A.data_)
    (rA : DMap.InRange A.data_) :
    A.Complement.Complement.operator_eq AbsOverload.floating A = some true := by
  have hCC : DMap.WF A.Complement.Complement.data_ :=
    WF_ieee_Complement A.Complement (WF_ieee_Complement A hA)
  rw [ieee_set_operator_eq_iff _ _ hCC]
  constructor
  · have := keys_double_Complement A hA
    unfold DMap.keys at this
    have h2 := congrArg List.length this
    rw [List.length_map, List.length_map] at h2
    exact h2
  · intro k x hx
    cases hl : DMap.lookup A.data_ k with
    | none =>
      rw [lookup_ieee_Complement A.Complement (WF_ieee_Complement A hA),
        lookup_ieee_Complement A hA, hl] at hx
      cases hx
    | some y =>
      obtain ⟨q, rfl, _, _⟩ := DMap.InRange_lookup A.data_ rA k _ hl
      obtain ⟨r, hr, he⟩ := lookup_double_Complement A hA rA k q hl
      rw [hr] at hx
      cases hx
      refine ⟨Double.fin q, rfl, Double.not_gt_of_close q r ?_⟩
      rw [abs_sub_comm]
      exact le_trans he (by norm_num)

end FuzzySet

namespace FuzzyRelation

theorem ieee_relation_operator_eq_close (X Y : FuzzyRelation K)
    (h : X.operator_eq AbsOverload.floating Y = some true) :
    DMap.size X.data_ = DMap.size Y.data_ ∧
      ∀ k x, DMap.lookup X.data_ k = some x →
        ∃ y, DMap.lookup Y.data_ k = some y ∧
          Double.gt (Double.fabs (Double.sub y x)) Double.tolerance = false := by
  unfold operator_eq at h
  by_cases hs : DMap.size X.data_ = DMap.size Y.data_
  · rw [if_neg (by simp [hs])] at h
    exact ⟨hs, operator_eq_loop_close _ _ h⟩
  · rw [if_pos (by simpa using hs)] at h
    cases h

end FuzzyRelation

end IEEE

namespace Double

/-- A degree other than NaN that passes the test `value < 0.0 || value > 1.0`
of `insert` lies in `[0, 1]`. -/
theorem InUnit_of_guard (v : Double) (hv : v ≠ nan) (h1 : lt v (fin 0) = false)
    (h2 : gt v (fin 1) = false) : InUnit v := by
  cases v with
  | nan => exact absurd rfl hv
  | ninf => simp [lt] at h1
  | pinf => simp [gt, lt] at h2
  | fin q =>
    simp only [lt, gt, decide_eq_false_iff_not, not_lt] at h1 h2
    exact ⟨h1, h2⟩

end Double

namespace IEEE

namespace DMap

variable {K : Type} [DecidableEq K]

theorem InRange_ieee_assign (m : DMap K) (hm : InRange m) (k : K) (v : Double)
    (hv : Double.InUnit v) : InRange (assign m k v) := by
  induction m with
  | nil =>
    intro e he
    have : e = (k, v) := by simpa [assign] using he
    rw [this]; exact hv
  | cons e0 m ih =>
    obtain ⟨k', v'⟩ := e0
    have hm' : InRange m := fun e he => hm e (List.mem_cons_of_mem _ he)
    intro e he
    by_cases hk : k' = k
    · have h' : assign ((k', v') :: m) k v = (k', v) :: m := by
        show (if k' = k then (k', v) :: m else (k', v') :: assign m k v) = _
        rw [if_pos hk]
      rw [h'] at he
      rcases List.mem_cons.1 he with rfl | he'
      · exact hv
      · exact hm' e he'
    · have h' : assign ((k', v') :: m) k v = (k', v') :: assign m k v := by
        show (if k' = k then (k', v) :: m else (k', v') :: assign m k v) = _
        rw [if_neg hk]
      rw [h'] at he
      rcases List.mem_cons.1 he with rfl | he'
      · exact hm (k', v') (List.mem_cons_self _ _)
      · exact ih hm' e he'

end DMap

namespace FuzzySet

variable {K : Type} [DecidableEq K]

/-- The member `insert` keeps the degrees in `[0, 1]` when the degree it is given
is not NaN. -/
theorem InRange_ieee_insert (A : FuzzySet K) (k : K) (v : Double) (hv : v ≠ Double.nan)
    (rA : DMap.InRange A.data_) : DMap.InRange (A.insert k v).data_ := by
  unfold insert
  split
  · exact rA
  · rename_i hg
    simp only [Bool.or_eq_true, not_or, Bool.not_eq_true] at hg
    obtain ⟨⟨h1, h2⟩, h3⟩ := hg
    show DMap.InRange (DMap.insert A.data_ k v)
    unfold DMap.insert
    rw [h3]
    simp only [Bool.false_eq_true, if_false]
    intro e he
    rcases List.mem_append.1 he with he' | he'
    · exact rA e he'
    · have : e = (k, v) := by simpa using he'
      rw [this]
      exact Double.InUnit_of_guard v hv h1 h2

theorem InRange_ieee_fromList_step (data : DMap K) (pair : K × Double)
    (hp : pair.2 ≠ Double.nan) (hd : DMap.InRange data) :
    DMap.InRange (fromList_step data pair) := by
  unfold fromList_step
  split
  · exact hd
  · rename_i hg
    simp only [Bool.or_eq_true, not_or, Bool.not_eq_true] at hg
    obtain ⟨⟨h1, h2⟩, _⟩ := hg
    exact DMap.InRange_ieee_assign data hd _ _ (Double.InUnit_of_guard _ hp h1 h2)

/-- The constructor from a literal list stores only degrees in `[0, 1]` when no
degree of the list is NaN. -/
theorem InRange_ieee_fromList (L : List (K × Double)) (hL : ∀ e ∈ L, e.2 ≠ Double.nan) :
    DMap.InRange (fromList L).data_ := by
  unfold fromList
  show DMap.InRange (L.foldl fromList_step [])
  have key : ∀ (l : List (K × Double)) (data : DMap K), (∀ e ∈ l, e.2 ≠ Double.nan) →
      DMap.InRange data → DMap.InRange (l.foldl fromList_step data) := by
    intro l
    induction l with
    | nil => intro data _ hd; exact hd
    | cons e l ih =>
      intro data hl hd
      rw [List.foldl_cons]
      exact ih _ (fun x hx => hl x (List.mem_cons_of_mem _ hx))
        (InRange_ieee_fromList_step data e (hl e (List.mem_cons_self _ _)) hd)
  exact key L [] hL (fun _ he => by simp at he)

end FuzzySet

end IEEE

namespace FuzzySet

variable {K : Type} [DecidableEq K]

/-- On exact degrees in `[0, 1]`, every member other than `insert` keeps the
degrees in `[0, 1]`. -/
theorem range_closed_exact (A B C : FuzzySet K)
    (hA : UMap.WF A.data_) (hB : UMap.WF B.data_)
    (rA : UMap.InRange A.data_) (rB : UMap.InRange B.data_)
    (k : K) (type : ImplicationType) :
    UMap.InRange (A.erase k).data_ ∧
    UMap.InRange (A.Unite B).data_ ∧ UMap.InRange (A.Union B).data_ ∧
    UMap.InRange (A.Intersect B).data_ ∧ UMap.InRange (A.Intersection B).data_ ∧
    UMap.InRange A.Complement.data_ ∧ UMap.InRange A.Complementation.data_ ∧
    UMap.InRange (A.Implicate B type).data_ ∧ UMap.InRange (A.Implication B type).data_ ∧
    UMap.InRange (A.GeneralizedModusPonens B C).data_ ∧
    UMap.InRange (A.GeneralizedModusTollens B C).data_ :=
  ⟨FuzzySet.InRange_erase A rA k,
    FuzzySet.InRange_Unite A B hA hB rA rB, FuzzySet.InRange_Unite A B hA hB rA rB,
    FuzzySet.InRange_Intersect A B hA rA rB, FuzzySet.InRange_Intersect A B hA rA rB,
    FuzzySet.InRange_Complement A hA rA, FuzzySet.InRange_Complement A hA rA,
    FuzzySet.InRange_Implicate A B hA hB rA rB type,
    FuzzySet.InRange_Implicate A B hA hB rA rB type,
    FuzzySet.InRange_GeneralizedModusPonens A B C,
    FuzzySet.InRange_GeneralizedModusTollens A B C⟩

end FuzzySet

/-- C1. For fuzzy sets `A` and `B`, `Union(A, B)`, which is also `A` after
`A.Unite(B)`, holds exactly the keys of `A` and of `B`; a key of both maps to
the larger of its two degrees, a key of `A` alone keeps the degree it has in
`A`, and a key of `B` alone the degree it has in `B`. -/
theorem C1_union_keys_and_values {K : Type} [DecidableEq K] (A B : FuzzySet K)
    (hA : UMap.WF A.data_) (hB : UMap.WF B.data_) :
    Fuzzy.Union A B = A.Unite B ∧ A.Union B = A.Unite B ∧
    UMap.WF (A.Unite B).data_ ∧
    (∀ k, k ∈ UMap.keys (A.Unite B).data_ ↔ k ∈ UMap.keys A.data_ ∨ k ∈ UMap.keys B.data_) ∧
    (∀ k a b, UMap.lookup A.data_ k = some a → UMap.lookup B.data_ k = some b →
      UMap.lookup (A.Unite B).data_ k = some (max a b)) ∧
    (∀ k a, UMap.lookup A.data_ k = some a → UMap.lookup B.data_ k = none →
      UMap.lookup (A.Unite B).data_ k = some a) ∧
    (∀ k b, UMap.lookup A.data_ k = none → UMap.lookup B.data_ k = some b →
      UMap.lookup (A.Unite B).data_ k = some b) := by
  refine ⟨rfl, rfl, FuzzySet.WF_Unite A B hA, ?_, ?_, ?_, ?_⟩
  · intro k
    rw [← UMap.lookup_isSome_iff, ← UMap.lookup_isSome_iff, ← UMap.lookup_isSome_iff,
      FuzzySet.lookup_Unite A B hB]
    cases UMap.lookup B.data_ k <;> cases UMap.lookup A.data_ k <;> simp
  · intro k a b ha hb
    rw [FuzzySet.lookup_Unite A B hB, ha, hb]
  · intro k a ha hb
    rw [FuzzySet.lookup_Unite A B hB, ha, hb]
  · intro k b ha hb
    rw [FuzzySet.lookup_Unite A B hB, ha, hb]

/-- The sets of the union test: the theorem C1 applies to them, and the union
is `{1:0.5, 2:0.4, 3:0.8, 4:0.6}`. -/
theorem C1_union_witness :
    UMap.lookup (FuzzySet.Unite (⟨[(1, 0.5), (2, 0.3), (3, 0.7)]⟩ : FuzzySet Nat)
      ⟨[(2, 0.4), (3, 0.8), (4, 0.6)]⟩).data_ 3 = some (max 0.7 0.8) ∧
    (FuzzySet.Unite (⟨[(1, 0.5), (2, 0.3), (3, 0.7)]⟩ : FuzzySet Nat)
      ⟨[(2, 0.4), (3, 0.8), (4, 0.6)]⟩) = ⟨[(1, 0.5), (2, 0.4), (3, 0.8), (4, 0.6)]⟩ :=
  ⟨(C1_union_keys_and_values (⟨[(1, 0.5), (2, 0.3), (3, 0.7)]⟩ : FuzzySet Nat)
      ⟨[(2, 0.4), (3, 0.8), (4, 0.6)]⟩ (by decide) (by decide)).2.2.2.2.1 3 0.7 0.8
      (by decide!) (by decide!), by decide!⟩

/-- C2. For fuzzy sets `A` and `B`, `Intersection(A, B)`, which is also `A`
after `A.Intersect(B)`, holds exactly the keys that `A` and `B` share; each of
them maps to the smaller of its two degrees, and a key of only one operand is
dropped. -/
theorem C2_intersection_keys_and_values {K : Type} [DecidableEq K] (A B : FuzzySet K)
    (hA : UMap.WF A.data_) (hB : UMap.WF B.data_) :
    Fuzzy.Intersection A B = A.Intersect B ∧ A.Intersection B = A.Intersect B ∧
    UMap.WF (A.Intersect B).data_ ∧
    (∀ k, k ∈ UMap.keys (A.Intersect B).data_ ↔ k ∈ UMap.keys A.data_ ∧ k ∈ UMap.keys B.data_) ∧
    (∀ k a b, UMap.lookup A.data_ k = some a → UMap.lookup B.data_ k = some b →
      UMap.lookup (A.Intersect B).data_ k = some (min a b)) ∧
    (∀ k, UMap.lookup A.data_ k = none ∨ UMap.lookup B.data_ k = none →
      UMap.lookup (A.Intersect B).data_ k = none) := by
  have _ := hB
  refine ⟨rfl, rfl, FuzzySet.WF_Intersect A B hA, ?_, ?_, ?_⟩
  · intro k
    rw [← UMap.lookup_isSome_iff, ← UMap.lookup_isSome_iff, ← UMap.lookup_isSome_iff,
      FuzzySet.lookup_Intersect A B hA]
    cases UMap.lookup B.data_ k <;> cases UMap.lookup A.data_ k <;> simp
  · intro k a b ha hb
    rw [FuzzySet.lookup_Intersect A B hA, ha, hb]
  · intro k h
    rw [FuzzySet.lookup_Intersect A B hA]
    rcases h with h | h
    · rw [h]
    · rw [h]; cases UMap.lookup A.data_ k <;> rfl

/-- The sets of the intersection test: the theorem C2 applies to them, and the
intersection is `{2:0.3, 3:0.7}`. -/
theorem C2_intersection_witness :
    UMap.lookup (FuzzySet.Intersect (⟨[(1, 0.5), (2, 0.3), (3, 0.7)]⟩ : FuzzySet Nat)
      ⟨[(2, 0.4), (3, 0.8), (4, 0.6)]⟩).data_ 2 = some (min 0.3 0.4) ∧
    (FuzzySet.Intersect (⟨[(1, 0.5), (2, 0.3), (3, 0.7)]⟩ : FuzzySet Nat)
      ⟨[(2, 0.4), (3, 0.8), (4, 0.6)]⟩) = ⟨[(2, 0.3), (3, 0.7)]⟩ :=
  ⟨(C2_intersection_keys_and_values (⟨[(1, 0.5), (2, 0.3), (3, 0.7)]⟩ : FuzzySet Nat)
      ⟨[(2, 0.4), (3, 0.8), (4, 0.6)]⟩ (by decide) (by decide)).2.2.2.2.1 2 0.3 0.4
      (by decide!) (by decide!), by decide!⟩

/-- C3. For fuzzy sets `A` and `B` with degrees in `[0, 1]` and each of the four
implication types, `A` after `A.Implicate(B, type)` holds exactly the keys of `A`
and of `B`; a key of `B` alone maps to `0`; a key of `A` with degree `a` maps
to the formula of the type at `a` and `b`, where `b` is the degree of the key in
`B`, or `0` when `B` lacks the key: `a * b`, `min a b`, `min 1 (1 - a + b)`,
`max (1 - a) b`. -/
theorem C3_implicate_keys_and_values {K : Type} [DecidableEq K] (A B : FuzzySet K)
    (hA : UMap.WF A.data_) (hB : UMap.WF B.data_)
    (rA : UMap.InRange A.data_) (rB : UMap.InRange B.data_) (type : ImplicationType) :
    UMap.WF (A.Implicate B type).data_ ∧
    (∀ k, k ∈ UMap.keys (A.Implicate B type).data_ ↔
      k ∈ UMap.keys A.data_ ∨ k ∈ UMap.keys B.data_) ∧
    (∀ k, UMap.lookup A.data_ k = none → k ∈ UMap.keys B.data_ →
      UMap.lookup (A.Implicate B type).data_ k = some 0) ∧
    (∀ k a b, UMap.lookup A.data_ k = some a →
      (UMap.lookup B.data_ k = some b ∨ (UMap.lookup B.data_ k = none ∧ b = 0)) →
      UMap.lookup (A.Implicate B type).data_ k = some
        (match type with
          | ImplicationType.ALGPRODUCT => a * b
          | ImplicationType.MINIMUM => min a b
          | ImplicationType.ZADEHARITHMETIC => min 1 (1 - a + b)
          | ImplicationType.ZADEHMAXMIN => max (1 - a) b)) := by
  have _ := rB
  refine ⟨FuzzySet.WF_Implicate A B hA type, ?_, ?_, ?_⟩
  · intro k
    rw [← UMap.lookup_isSome_iff, FuzzySet.lookup_Implicate A B hA hB]
    by_cases hk : k ∈ UMap.keys A.data_ ∨ k ∈ UMap.keys B.data_ <;> simp [hk]
  · intro k ha hb
    rw [FuzzySet.lookup_Implicate A B hA hB, if_pos (Or.inr hb), ha]
  · intro k a b ha hb
    have hk : k ∈ UMap.keys A.data_ := (UMap.mem_keys_iff_lookup _ _).2 ⟨a, ha⟩
    have hne : a ≠ -1 := FuzzySet.ne_neg_one_of_InRange _ rA k a ha
    have hb' : (UMap.lookup B.data_ k).getD 0 = b := by
      rcases hb with hb | ⟨hb, rfl⟩ <;> rw [hb] <;> rfl
    rw [FuzzySet.lookup_Implicate A B hA hB, if_pos (Or.inl hk), ha]
    simp only [if_neg hne, hb']
    cases type <;> rfl

/-- The sets of the implication tests: the theorem C3 applies to them, and under
`ALGPRODUCT` the result is `{1:0.0, 2:0.12, 3:0.56, 4:0.0}`. -/
theorem C3_implicate_witness :
    UMap.lookup (FuzzySet.Implicate (⟨[(1, 0.5), (2, 0.3), (3, 0.7)]⟩ : FuzzySet Nat)
      ⟨[(2, 0.4), (3, 0.8), (4, 0.6)]⟩ ImplicationType.ALGPRODUCT).data_ 4 = some 0 ∧
    (FuzzySet.Implicate (⟨[(1, 0.5), (2, 0.3), (3, 0.7)]⟩ : FuzzySet Nat)
      ⟨[(2, 0.4), (3, 0.8), (4, 0.6)]⟩ ImplicationType.ALGPRODUCT) =
        ⟨[(1, 0), (2, 0.12), (3, 0.56), (4, 0)]⟩ :=
  ⟨(C3_implicate_keys_and_values (⟨[(1, 0.5), (2, 0.3), (3, 0.7)]⟩ : FuzzySet Nat)
      ⟨[(2, 0.4), (3, 0.8), (4, 0.6)]⟩ (by decide) (by decide) (by decide!) (by decide!)
      ImplicationType.ALGPRODUCT).2.2.1 4 (by decide!) (by decide!), by decide!⟩

/-- C4. For fuzzy sets `A`, `B`, `A'` with degrees in `[0, 1]`,
`A.GeneralizedModusPonens(B, A')` holds exactly the keys of `B`. The degree of a
key `y` of `B` is the greatest `min(A'(x), R(x, y))` over the keys `x` of `A'`
that are keys of `A`, with `R(x, y) = max(min(A(x), B(y)), 1 - A(x))`, and `0`
when `A'` and `A` share no key. For the sets of the test the result is
`{y1:0.9, y2:0.5}`. -/
theorem C4_generalized_modus_ponens {K : Type} [DecidableEq K] (A B A' : FuzzySet K)
    (hA : UMap.WF A.data_) (hB : UMap.WF B.data_) (hA' : UMap.WF A'.data_)
    (rA : UMap.InRange A.data_) (rB : UMap.InRange B.data_) (rA' : UMap.InRange A'.data_) :
    UMap.WF (A.GeneralizedModusPonens B A').data_ ∧
    (∀ y, y ∈ UMap.keys (A.GeneralizedModusPonens B A').data_ ↔ y ∈ UMap.keys B.data_) ∧
    (∀ y b, UMap.lookup B.data_ y = some b →
      ∃ v, UMap.lookup (A.GeneralizedModusPonens B A').data_ y = some v ∧
        (∀ x a' a, UMap.lookup A'.data_ x = some a' → UMap.lookup A.data_ x = some a →
          min a' (max (min a b) (1 - a)) ≤ v) ∧
        ((∃ x a' a, UMap.lookup A'.data_ x = some a' ∧ UMap.lookup A.data_ x = some a ∧
            v = min a' (max (min a b) (1 - a))) ∨
          ((∀ x, x ∈ UMap.keys A'.data_ → x ∉ UMap.keys A.data_) ∧ v = 0))) ∧
    (FuzzySet.GeneralizedModusPonens
        (⟨[("x1", 0.5), ("x2", 1.0), ("x3", 0.6)]⟩ : FuzzySet String)
        ⟨[("y1", 1.0), ("y2", 0.4)]⟩ ⟨[("x1", 0.6), ("x2", 0.9), ("x3", 0.7)]⟩).data_ =
      [("y1", 0.9), ("y2", 0.5)] := by
  have _ := hB
  have _ := rB
  refine ⟨WF_GeneralizedModusPonens A B A', ?_, ?_, by decide!⟩
  · intro y
    rw [← UMap.lookup_isSome_iff, lookup_GeneralizedModusPonens A B A' hA hA' rA rA']
    by_cases hy : y ∈ UMap.keys B.data_ <;> simp [hy]
  · intro y b hb
    have hy : y ∈ UMap.keys B.data_ := (UMap.mem_keys_iff_lookup _ _).2 ⟨b, hb⟩
    refine ⟨_, by rw [lookup_GeneralizedModusPonens A B A' hA hA' rA rA', if_pos hy], ?_, ?_⟩
    · intro x a' a ha' ha
      have h := sup_min_greatest (CRelation A B) A'.data_ hA' rA' (fun a_prime_key => (a_prime_key, y))
        (fun k r h => CRelation_nonneg A B hA rA k y r h)
      exact h.2.2.1 x a' _ ha' (lookup_CRelation_of_range A B hA rA x y a b ha hb)
    · have h := sup_min_greatest (CRelation A B) A'.data_ hA' rA' (fun a_prime_key => (a_prime_key, y))
        (fun k r h => CRelation_nonneg A B hA rA k y r h)
      rcases h.2.2.2 with ⟨x, a', r, ha', hr, hv⟩ | ⟨hnone, hv⟩
      · left
        cases ha : UMap.lookup A.data_ x with
        | none =>
          rw [lookup_CRelation A B hA] at hr
          simp only [ha] at hr
          cases hr
        | some a =>
          rw [lookup_CRelation_of_range A B hA rA x y a b ha hb] at hr
          cases hr
          exact ⟨x, a', a, ha', ha, hv⟩
      · right
        refine ⟨?_, hv⟩
        intro x hx hxA
        obtain ⟨a, ha⟩ := (UMap.mem_keys_iff_lookup _ _).1 hxA
        have := hnone x hx
        rw [lookup_CRelation_of_range A B hA rA x y a b ha hb] at this
        cases this

/-- The sets of the modus ponens test: the theorem C4 applies to them, and the
result holds the key `y2` of `B`. -/
theorem C4_generalized_modus_ponens_witness :
    "y2" ∈ UMap.keys (FuzzySet.GeneralizedModusPonens
        (⟨[("x1", 0.5), ("x2", 1.0), ("x3", 0.6)]⟩ : FuzzySet String)
        ⟨[("y1", 1.0), ("y2", 0.4)]⟩ ⟨[("x1", 0.6), ("x2", 0.9), ("x3", 0.7)]⟩).data_ ↔
      "y2" ∈ UMap.keys (⟨[("y1", 1.0), ("y2", 0.4)]⟩ : FuzzySet String).data_ :=
  (C4_generalized_modus_ponens (⟨[("x1", 0.5), ("x2", 1.0), ("x3", 0.6)]⟩ : FuzzySet String)
    ⟨[("y1", 1.0), ("y2", 0.4)]⟩ ⟨[("x1", 0.6), ("x2", 0.9), ("x3", 0.7)]⟩
    (by decide) (by decide) (by decide) (by decide!) (by decide!) (by decide!)).2.1 "y2"

/-- C5. For fuzzy sets `A`, `B`, `B'` with degrees in `[0, 1]`,
`A.GeneralizedModusTollens(B, B')` holds exactly the keys of `A`. The degree of a
key `x` of `A` is the greatest `min(B'(y), R(x, y))` over the keys `y` of `B'`
that are keys of `B`, with `R(x, y) = max(min(A(x), B(y)), 1 - A(x))`, and `0`
when `B'` and `B` share no key. For the sets of the test the result is
`{x1:0.5, x2:0.9, x3:0.6}`. -/
theorem C5_generalized_modus_tollens {K : Type} [DecidableEq K] (A B B' : FuzzySet K)
    (hA : UMap.WF A.data_) (hB : UMap.WF B.data_) (hB' : UMap.WF B'.data_)
    (rA : UMap.InRange A.data_) (rB : UMap.InRange B.data_) (rB' : UMap.InRange B'.data_) :
    UMap.WF (A.GeneralizedModusTollens B B').data_ ∧
    (∀ x, x ∈ UMap.keys (A.GeneralizedModusTollens B B').data_ ↔ x ∈ UMap.keys A.data_) ∧
    (∀ x a, UMap.lookup A.data_ x = some a →
      ∃ v, UMap.lookup (A.GeneralizedModusTollens B B').data_ x = some v ∧
        (∀ y b' b, UMap.lookup B'.data_ y = some b' → UMap.lookup B.data_ y = some b →
          min b' (max (min a b) (1 - a)) ≤ v) ∧
        ((∃ y b' b, UMap.lookup B'.data_ y = some b' ∧ UMap.lookup B.data_ y = some b ∧
            v = min b' (max (min a b) (1 - a))) ∨
          ((∀ y, y ∈ UMap.keys B'.data_ → y ∉ UMap.keys B.data_) ∧ v = 0))) ∧
    (FuzzySet.GeneralizedModusTollens
        (⟨[("x1", 0.5), ("x2", 1.0), ("x3", 0.6)]⟩ : FuzzySet String)
        ⟨[("y1", 1.0), ("y2", 0.4)]⟩ ⟨[("y1", 0.9), ("y2", 0.7)]⟩).data_ =
      [("x1", 0.5), ("x2", 0.9), ("x3", 0.6)] := by
  have _ := hB
  have _ := rB
  refine ⟨WF_GeneralizedModusTollens A B B', ?_, ?_, by decide!⟩
  · intro x
    rw [← UMap.lookup_isSome_iff, lookup_GeneralizedModusTollens A B B' hA hB' rA rB']
    by_cases hx : x ∈ UMap.keys A.data_ <;> simp [hx]
  · intro x a ha
    have hx : x ∈ UMap.keys A.data_ := (UMap.mem_keys_iff_lookup _ _).2 ⟨a, ha⟩
    refine ⟨_, by rw [lookup_GeneralizedModusTollens A B B' hA hB' rA rB', if_pos hx], ?_, ?_⟩
    · intro y b' b hb' hb
      have h := sup_min_greatest (CRelation A B) B'.data_ hB' rB' (fun a_prime_key => (x, a_prime_key))
        (fun k r h => CRelation_nonneg A B hA rA x k r h)
      exact h.2.2.1 y b' _ hb' (lookup_CRelation_of_range A B hA rA x y a b ha hb)
    · have h := sup_min_greatest (CRelation A B) B'.data_ hB' rB' (fun a_prime_key => (x, a_prime_key))
        (fun k r h => CRelation_nonneg A B hA rA x k r h)
      rcases h.2.2.2 with ⟨y, b', r, hb', hr, hv⟩ | ⟨hnone, hv⟩
      · left
        cases hb : UMap.lookup B.data_ y with
        | none =>
          rw [lookup_CRelation A B hA] at hr
          simp only [ha, hb] at hr
          cases hr
        | some b =>
          rw [lookup_CRelation_of_range A B hA rA x y a b ha hb] at hr
          cases hr
          exact ⟨y, b', b, hb', hb, hv⟩
      · right
        refine ⟨?_, hv⟩
        intro y hy hyB
        obtain ⟨b, hb⟩ := (UMap.mem_keys_iff_lookup _ _).1 hyB
        have := hnone y hy
        rw [lookup_CRelation_of_range A B hA rA x y a b ha hb] at this
        cases this

/-- The sets of the modus tollens test: the theorem C5 applies to them, and the
result holds the key `x3` of `A`. -/
theorem C5_generalized_modus_tollens_witness :
    "x3" ∈ UMap.keys (FuzzySet.GeneralizedModusTollens
        (⟨[("x1", 0.5), ("x2", 1.0), ("x3", 0.6)]⟩ : FuzzySet String)
        ⟨[("y1", 1.0), ("y2", 0.4)]⟩ ⟨[("y1", 0.9), ("y2", 0.7)]⟩).data_ ↔
      "x3" ∈ UMap.keys (⟨[("x1", 0.5), ("x2", 1.0), ("x3", 0.6)]⟩ : FuzzySet String).data_ :=
  (C5_generalized_modus_tollens (⟨[("x1", 0.5), ("x2", 1.0), ("x3", 0.6)]⟩ : FuzzySet String)
    ⟨[("y1", 1.0), ("y2", 0.4)]⟩ ⟨[("y1", 0.9), ("y2", 0.7)]⟩
    (by decide) (by decide) (by decide) (by decide!) (by decide!) (by decide!)).2.1 "x3"

/-- C7. For fuzzy relations `R` and `S`, `R.Composition(S)` signals an error
exactly when the second components of the keys of `R` and the first components
of the keys of `S` are not the same set; otherwise it returns a relation. -/
theorem C7_composition_error_iff {K : Type} [DecidableEq K] (R S : FuzzyRelation K) :
    ((∃ e, R.Composition S = Except.error e) ↔
      ¬ ∀ t, (∃ x, (x, t) ∈ UMap.keys R.data_) ↔ (∃ z, (t, z) ∈ UMap.keys S.data_)) ∧
    ((∀ t, (∃ x, (x, t) ∈ UMap.keys R.data_) ↔ (∃ z, (t, z) ∈ UMap.keys S.data_)) →
      ∃ C, R.Composition S = Except.ok C) := by
  rw [← composable_iff]
  unfold FuzzyRelation.Composition
  cases hc : composable R.data_ S.data_ <;> simp

/-- The claim C8 fails on a relation that holds NaN, which the constructor from
a map stores as it is: `std::min` and `std::max` return their first argument
when a comparison with NaN is false. With `R = {(1,2):0.75}`, `S = {(2,3):NaN}`
and `T = {(3,4):0.25}` the four compositions are defined, `(R∘S)∘T` holds `0.25`
at the pair `(1,4)` and `R∘(S∘T)` holds `0.75`, and `operator==` finds the two
different. -/
theorem C8_composition_not_associative_with_nan :
    IEEE.FuzzyRelation.Composition
        (IEEE.FuzzyRelation.fromMap [((1, 2), Double.fin 0.75)] : IEEE.FuzzyRelation Nat)
        (IEEE.FuzzyRelation.fromMap [((2, 3), Double.nan)]) =
      Except.ok ⟨[((1, 3), Double.fin 0.75)]⟩ ∧
    IEEE.FuzzyRelation.Composition (⟨[((1, 3), Double.fin 0.75)]⟩ : IEEE.FuzzyRelation Nat)
        (IEEE.FuzzyRelation.fromMap [((3, 4), Double.fin 0.25)]) =
      Except.ok ⟨[((1, 4), Double.fin 0.25)]⟩ ∧
    IEEE.FuzzyRelation.Composition
        (IEEE.FuzzyRelation.fromMap [((2, 3), Double.nan)] : IEEE.FuzzyRelation Nat)
        (IEEE.FuzzyRelation.fromMap [((3, 4), Double.fin 0.25)]) =
      Except.ok ⟨[((2, 4), Double.nan)]⟩ ∧
    IEEE.FuzzyRelation.Composition
        (IEEE.FuzzyRelation.fromMap [((1, 2), Double.fin 0.75)] : IEEE.FuzzyRelation Nat)
        ⟨[((2, 4), Double.nan)]⟩ =
      Except.ok ⟨[((1, 4), Double.fin 0.75)]⟩ ∧
    IEEE.FuzzyRelation.operator_eq AbsOverload.floating
        (⟨[((1, 4), Double.fin 0.25)]⟩ : IEEE.FuzzyRelation Nat)
        ⟨[((1, 4), Double.fin 0.75)]⟩ = some false := by
  refine ⟨by decide!, by decide!, by decide!, by decide!, by decide!⟩

/-- C8, amended. For fuzzy relations `R`, `S`, `T` that hold no NaN and such that
`R∘S`, `(R∘S)∘T`, `S∘T` and `R∘(S∘T)` are all defined, `(R∘S)∘T` and `R∘(S∘T)`
hold the same keys and the same degree at every key, and `operator==` finds
them equal. -/
theorem C8_composition_associative {K : Type} [DecidableEq K]
    (R S T RS ST L Rr : IEEE.FuzzyRelation K)
    (hR : IEEE.DMap.WF R.data_) (hS : IEEE.DMap.WF S.data_) (hT : IEEE.DMap.WF T.data_)
    (nR : IEEE.DMap.NoNaN R.data_) (nS : IEEE.DMap.NoNaN S.data_)
    (nT : IEEE.DMap.NoNaN T.data_)
    (h1 : R.Composition S = Except.ok RS) (h2 : RS.Composition T = Except.ok L)
    (h3 : S.Composition T = Except.ok ST) (h4 : R.Composition ST = Except.ok Rr) :
    (∀ k, k ∈ IEEE.DMap.keys L.data_ ↔ k ∈ IEEE.DMap.keys Rr.data_) ∧
    (∀ k, IEEE.DMap.lookup L.data_ k = IEEE.DMap.lookup Rr.data_ k) ∧
    L.operator_eq AbsOverload.floating Rr = some true := by
  obtain ⟨wL, wRr, heq⟩ :=
    IEEE.FuzzyRelation.ieee_Composition_assoc R S T RS ST L Rr hR hS hT nR nS nT h1 h2 h3 h4
  refine ⟨?_, heq, IEEE.FuzzyRelation.ieee_relation_operator_eq_of_lookup_eq L Rr wL wRr heq⟩
  intro k
  rw [← IEEE.DMap.dmap_lookup_isSome_iff, ← IEEE.DMap.dmap_lookup_isSome_iff, heq k]

/-- Three relations over `{1,2}`, `{3,4}`, `{5,6}`, `{7}`, with degrees that
binary64 holds exactly: the amended theorem C8 applies to them, and the two ways
of composing them compare equal. -/
theorem C8_composition_associative_witness :
    IEEE.FuzzyRelation.operator_eq AbsOverload.floating
      (⟨[((1, 7), Double.fin 0.625), ((2, 7), Double.fin 0.75)]⟩ : IEEE.FuzzyRelation Nat)
      ⟨[((1, 7), Double.fin 0.625), ((2, 7), Double.fin 0.75)]⟩ = some true :=
  (C8_composition_associative
    (⟨[((1, 3), Double.fin 0.5), ((1, 4), Double.fin 0.625), ((2, 3), Double.fin 0.75),
      ((2, 4), Double.fin 0.875)]⟩ : IEEE.FuzzyRelation Nat)
    ⟨[((3, 5), Double.fin 1), ((3, 6), Double.fin 0.875), ((4, 5), Double.fin 0.75),
      ((4, 6), Double.fin 0.625)]⟩
    ⟨[((5, 7), Double.fin 0.25), ((6, 7), Double.fin 1)]⟩
    ⟨[((1, 5), Double.fin 0.625), ((1, 6), Double.fin 0.625), ((2, 5), Double.fin 0.75),
      ((2, 6), Double.fin 0.75)]⟩
    ⟨[((3, 7), Double.fin 0.875), ((4, 7), Double.fin 0.625)]⟩
    ⟨[((1, 7), Double.fin 0.625), ((2, 7), Double.fin 0.75)]⟩
    ⟨[((1, 7), Double.fin 0.625), ((2, 7), Double.fin 0.75)]⟩
    (by decide) (by decide) (by decide) (by decide) (by decide) (by decide)
    (by decide!) (by decide!) (by decide!) (by decide!)).2.2

/-- C9. For fuzzy relations `R` and `S`, `R.Union(S)` and `R.Intersection(S)`
signal an error exactly when the key sets of `R` and `S` differ. When the key
sets are the same, both return a relation with the keys of `R`, and a pair maps
to the larger of its two degrees in the union and to the smaller one in the
intersection. -/
theorem C9_relation_union_intersection {K : Type} [DecidableEq K] (R S : FuzzyRelation K)
    (hR : UMap.WF R.data_) (hS : UMap.WF S.data_) :
    ((∃ e, R.Union S = Except.error e) ↔
      ¬ ∀ p, p ∈ UMap.keys R.data_ ↔ p ∈ UMap.keys S.data_) ∧
    ((∃ e, R.Intersection S = Except.error e) ↔
      ¬ ∀ p, p ∈ UMap.keys R.data_ ↔ p ∈ UMap.keys S.data_) ∧
    ((∀ p, p ∈ UMap.keys R.data_ ↔ p ∈ UMap.keys S.data_) →
      ∃ U I, R.Union S = Except.ok U ∧ R.Intersection S = Except.ok I ∧
        UMap.keys U.data_ = UMap.keys R.data_ ∧ UMap.keys I.data_ = UMap.keys R.data_ ∧
        ∀ p a b, UMap.lookup R.data_ p = some a → UMap.lookup S.data_ p = some b →
          UMap.lookup U.data_ p = some (max a b) ∧ UMap.lookup I.data_ p = some (min a b)) := by
  refine ⟨(FuzzyRelation.Unite_spec R S hR hS).1, (FuzzyRelation.Intersect_spec R S hR hS).1, ?_⟩
  intro h
  obtain ⟨U, hU, hUk, hUv⟩ := (FuzzyRelation.Unite_spec R S hR hS).2 h
  obtain ⟨I, hI, hIk, hIv⟩ := (FuzzyRelation.Intersect_spec R S hR hS).2 h
  exact ⟨U, I, hU, hI, hUk, hIk, fun p a b ha hb => ⟨hUv p a b ha hb, hIv p a b ha hb⟩⟩

/-- The relations of the union test, built from `{1:0.5, 2:0.6}` and
`{3:0.7, 4:0.8}` in the two orders: the theorem C9 applies to them, and their
union signals an error. -/
theorem C9_relation_union_witness :
    (∃ e, (FuzzyRelation.fromSets (⟨[(1, 0.5), (2, 0.6)]⟩ : FuzzySet Nat)
        ⟨[(3, 0.7), (4, 0.8)]⟩).Union
      (FuzzyRelation.fromSets ⟨[(3, 0.7), (4, 0.8)]⟩ ⟨[(1, 0.5), (2, 0.6)]⟩) = Except.error e) :=
  (C9_relation_union_intersection
    (FuzzyRelation.fromSets (⟨[(1, 0.5), (2, 0.6)]⟩ : FuzzySet Nat) ⟨[(3, 0.7), (4, 0.8)]⟩)
    (FuzzyRelation.fromSets ⟨[(3, 0.7), (4, 0.8)]⟩ ⟨[(1, 0.5), (2, 0.6)]⟩)
    (by decide) (by decide)).1.2
    (fun h => absurd ((h (1, 3)).1 (by decide)) (by decide))

/-- C10. For fuzzy sets `A` and `B`, the relation `FuzzyRelation(A, B)` holds
exactly the pairs of a key of `A` and a key of `B`, so as many entries as the
product of the two sizes, and maps the pair `(x, y)` to `min(A(x), B(y))`. For
`A = {1:0.5, 2:0.6}` and `B = {3:0.7, 4:0.8}` it is
`{(1,3):0.5, (1,4):0.5, (2,3):0.6, (2,4):0.6}`. -/
theorem C10_cartesian_construction {K : Type} [DecidableEq K] (A B : FuzzySet K)
    (hA : UMap.WF A.data_) (hB : UMap.WF B.data_) :
    UMap.WF (FuzzyRelation.fromSets A B).data_ ∧
    (∀ x y, (x, y) ∈ UMap.keys (FuzzyRelation.fromSets A B).data_ ↔
      x ∈ UMap.keys A.data_ ∧ y ∈ UMap.keys B.data_) ∧
    UMap.size (FuzzyRelation.fromSets A B).data_ = UMap.size A.data_ * UMap.size B.data_ ∧
    (∀ x y a b, UMap.lookup A.data_ x = some a → UMap.lookup B.data_ y = some b →
      UMap.lookup (FuzzyRelation.fromSets A B).data_ (x, y) = some (min a b)) ∧
    (FuzzyRelation.fromSets (⟨[(1, 0.5), (2, 0.6)]⟩ : FuzzySet Nat) ⟨[(3, 0.7), (4, 0.8)]⟩).data_ =
      [((1, 3), 0.5), ((1, 4), 0.5), ((2, 3), 0.6), ((2, 4), 0.6)] := by
  refine ⟨WF_cartesian_insert _ _ _, mem_keys_cartesian_insert _ _ _,
    size_cartesian_insert _ _ hA hB _, ?_, by decide!⟩
  intro x y a b ha hb
  show UMap.lookup (cartesian_insert A.data_ B.data_ _) (x, y) = _
  rw [lookup_cartesian_insert, ha, hb]
  rfl

/-- The sets of the constructor test: the theorem C10 applies to them; the
relation has four entries and maps `(2, 3)` to `min 0.6 0.7`. -/
theorem C10_cartesian_witness :
    UMap.size (FuzzyRelation.fromSets (⟨[(1, 0.5), (2, 0.6)]⟩ : FuzzySet Nat)
      ⟨[(3, 0.7), (4, 0.8)]⟩).data_ = 2 * 2 ∧
    UMap.lookup (FuzzyRelation.fromSets (⟨[(1, 0.5), (2, 0.6)]⟩ : FuzzySet Nat)
      ⟨[(3, 0.7), (4, 0.8)]⟩).data_ (2, 3) = some (min 0.6 0.7) :=
  ⟨(C10_cartesian_construction (⟨[(1, 0.5), (2, 0.6)]⟩ : FuzzySet Nat) ⟨[(3, 0.7), (4, 0.8)]⟩
      (by decide) (by decide)).2.2.1,
   (C10_cartesian_construction (⟨[(1, 0.5), (2, 0.6)]⟩ : FuzzySet Nat) ⟨[(3, 0.7), (4, 0.8)]⟩
      (by decide) (by decide)).2.2.2.1 2 3 0.6 0.7 (by decide!) (by decide!)⟩

/-- C11. The matrix constructor does not keep its reads in bounds on every input
that passes its own test. The matrix with the two rows `0.1, 0.2, 0.3` and
`0.4, 0.5, 0.6`, the row labels `1, 2, 3` and the column labels `4, 5` has as
many rows as column labels and a first row as long as the row labels, and the
labels are pairwise distinct; the loop reads `data[2][0]`, outside the matrix.
On the square matrix of the test the construction gives the relation of the
claim. -/
theorem C11_matrix_construction_out_of_bounds :
    FuzzyRelation.matrix_mismatch [[(0.1 : ℚ), 0.2, 0.3], [0.4, 0.5, 0.6]] [1, 2, 3] [4, 5] = false ∧
    ([1, 2, 3] : List ℚ).Nodup ∧ ([4, 5] : List ℚ).Nodup ∧
    FuzzyRelation.matrix_read [[(0.1 : ℚ), 0.2, 0.3], [0.4, 0.5, 0.6]] 2 0 = none ∧
    FuzzyRelation.fromMatrix id [[(0.1 : ℚ), 0.2, 0.3], [0.4, 0.5, 0.6]] [1, 2, 3] [4, 5] =
      Except.ok none ∧
    FuzzyRelation.fromMatrix id [[(0.1 : ℚ), 0.2], [0.3, 0.4]] [1, 2] [3, 4] =
      Except.ok (some ⟨[((1, 3), 0.1), ((1, 4), 0.2), ((2, 3), 0.3), ((2, 4), 0.4)]⟩) := by
  refine ⟨by decide!, by decide!, by decide!, by decide!, by decide!, by decide!⟩

/-- C12. The matrix constructor signals the dimension error exactly when the
number of rows of the matrix differs from the number of column labels, or the
matrix has a first row whose length differs from the number of row labels; it
signals no other error. -/
theorem C12_matrix_construction_error_iff {K : Type} [DecidableEq K] (conv : K → ℚ)
    (data : List (List K)) (row collumn : List K) :
    (FuzzyRelation.fromMatrix conv data row collumn = Except.error FuzzyError.matrix_size ↔
      (data.length ≠ collumn.length ∨
        ∃ data_0 rest, data = data_0 :: rest ∧ data_0.length ≠ row.length)) ∧
    (∀ e, FuzzyRelation.fromMatrix conv data row collumn = Except.error e →
      e = FuzzyError.matrix_size) := by
  have hm : FuzzyRelation.matrix_mismatch data row collumn = true ↔
      (data.length ≠ collumn.length ∨
        ∃ data_0 rest, data = data_0 :: rest ∧ data_0.length ≠ row.length) := by
    unfold FuzzyRelation.matrix_mismatch
    cases data with
    | nil => simp
    | cons d0 rest => simp
  unfold FuzzyRelation.fromMatrix
  rw [← hm]
  cases hc : FuzzyRelation.matrix_mismatch data row collumn <;> simp

/-- C13. For a fuzzy set `S`, a key `k` and a degree `v`, `S.insert(k, v)` leaves
`S` as it is when `v < 0`, `v > 1` or `k` is a key of `S`, so for the degrees
`1.1` and `-0.1`; otherwise it adds the one entry `k ↦ v` and keeps every other
entry. The member returns in every case. -/
theorem C13_insert_validation {K : Type} [DecidableEq K] (S : FuzzySet K) (k : K) (v : ℚ) :
    ((v < 0 ∨ v > 1 ∨ k ∈ UMap.keys S.data_) → S.insert k v = S) ∧
    (¬ (v < 0 ∨ v > 1 ∨ k ∈ UMap.keys S.data_) →
      UMap.lookup (S.insert k v).data_ k = some v ∧
      (∀ k', k' ≠ k → UMap.lookup (S.insert k v).data_ k' = UMap.lookup S.data_ k') ∧
      (∀ k', k' ∈ UMap.keys (S.insert k v).data_ ↔ k' = k ∨ k' ∈ UMap.keys S.data_) ∧
      UMap.size (S.insert k v).data_ = UMap.size S.data_ + 1) ∧
    S.insert k 1.1 = S ∧ S.insert k (-0.1) = S := by
  refine ⟨FuzzySet.insert_rejected S k v, ?_,
    FuzzySet.insert_rejected S k 1.1 (Or.inr (Or.inl (by norm_num))),
    FuzzySet.insert_rejected S k (-0.1) (Or.inl (by norm_num))⟩
  intro h
  have hk : UMap.lookup S.data_ k = none :=
    (UMap.lookup_eq_none_iff _ _).2 (fun hh => h (Or.inr (Or.inr hh)))
  rw [FuzzySet.insert_accepted S k v h]
  refine ⟨?_, ?_, ?_, ?_⟩
  · rw [UMap.lookup_append_single, hk]; simp
  · intro k' hk'
    rw [UMap.lookup_append_single]
    cases hl : UMap.lookup S.data_ k' with
    | some w => rfl
    | none =>
      have hne : ¬ k = k' := fun hh => hk' hh.symm
      simp [hne]
  · intro k'
    simp [UMap.keys, or_comm]
  · simp [UMap.size]

/-- C14. The constructor from a literal list gives the set obtained from the
empty set by calling `insert` on every entry of the list, in order. For the list
`{1:0.4, 3:1.1, 4:0.5, 5:0.9}` that is `{1:0.4, 4:0.5, 5:0.9}`. -/
theorem C14_literal_list_is_repeated_insert {K : Type} [DecidableEq K] (L : List (K × ℚ)) :
    FuzzySet.fromList L = L.foldl (fun s e => s.insert e.1 e.2) FuzzySet.empty ∧
    (FuzzySet.fromList [(1, 0.4), (3, 1.1), (4, 0.5), (5, 0.9)] : FuzzySet Nat) =
      ⟨[(1, 0.4), (4, 0.5), (5, 0.9)]⟩ := by
  refine ⟨?_, by decide!⟩
  have h := FuzzySet.fromList_fold_eq_insert L FuzzySet.empty
  unfold FuzzySet.fromList
  show FuzzySet.mk (L.foldl FuzzySet.fromList_step FuzzySet.empty.data_) = _
  rw [h]

/-- C15. The member `insert` does not keep the degrees in `[0, 1]`: both
comparisons of its test `value < 0.0 || value > 1.0` are false for NaN, so
`insert(1, NaN)` on the empty set stores NaN. A degree other than NaN that passes
the test lies in `[0, 1]`. -/
theorem C15_insert_stores_nan :
    IEEE.DMap.InRange (IEEE.FuzzySet.empty : IEEE.FuzzySet Nat).data_ ∧
    IEEE.FuzzySet.insert (IEEE.FuzzySet.empty : IEEE.FuzzySet Nat) 1 Double.nan =
      ⟨[(1, Double.nan)]⟩ ∧
    ¬ IEEE.DMap.InRange
      (IEEE.FuzzySet.insert (IEEE.FuzzySet.empty : IEEE.FuzzySet Nat) 1 Double.nan).data_ ∧
    (∀ (A : IEEE.FuzzySet Nat) (k : Nat) (v : Double), v ≠ Double.nan →
      IEEE.DMap.InRange A.data_ → IEEE.DMap.InRange (A.insert k v).data_) := by
  refine ⟨by decide, by decide, by decide, ?_⟩
  intro A k v hv rA
  exact IEEE.FuzzySet.InRange_ieee_insert A k v hv rA

/-- C16. The empty constructor stores no degree. The constructor from a map
copies the map as it is: from the map `{1:1.5}` it builds a set that stores
`1.5`. The constructor from a literal list stores only degrees in `[0, 1]` when
no degree of the list is NaN; it has the test of `insert` and stores a NaN. -/
theorem C16_map_constructor_out_of_range :
    UMap.InRange (FuzzySet.empty : FuzzySet Nat).data_ ∧
    UMap.WF (FuzzySet.fromMap ([(1, 1.5)] : UMap Nat)).data_ ∧
    UMap.lookup (FuzzySet.fromMap ([(1, 1.5)] : UMap Nat)).data_ 1 = some 1.5 ∧
    ¬ UMap.InRange (FuzzySet.fromMap ([(1, 1.5)] : UMap Nat)).data_ ∧
    IEEE.FuzzySet.fromMap ([(1, Double.fin 1.5)] : IEEE.DMap Nat) =
      ⟨[(1, Double.fin 1.5)]⟩ ∧
    ¬ IEEE.DMap.InRange (IEEE.FuzzySet.fromMap ([(1, Double.fin 1.5)] : IEEE.DMap Nat)).data_ ∧
    (∀ L : List (Nat × Double), (∀ e ∈ L, e.2 ≠ Double.nan) →
      IEEE.DMap.InRange (IEEE.FuzzySet.fromList L).data_) ∧
    IEEE.FuzzySet.fromList [((1 : Nat), Double.nan)] = ⟨[(1, Double.nan)]⟩ := by
  refine ⟨by decide, by decide, by decide!, by decide!, by decide!, by decide!, ?_, by decide⟩
  intro L hL
  exact IEEE.FuzzySet.InRange_ieee_fromList L hL

/-- C17. When every degree stored in the operands lies in `[0, 1]`, so does
every degree stored in the relation `FuzzyRelation(A, B)` and in the result of
`Unite` and `Union`, `Intersect` and `Intersection`, `Complement` and
`Complementation`, and `Composition`, whenever the operation returns. -/
theorem C17_fuzzy_relation_range_invariant {K : Type} [DecidableEq K] (A B : FuzzySet K)
    (R S : FuzzyRelation K)
    (hA : UMap.WF A.data_) (hB : UMap.WF B.data_) (hR : UMap.WF R.data_) (hS : UMap.WF S.data_)
    (rA : UMap.InRange A.data_) (rB : UMap.InRange B.data_)
    (rR : UMap.InRange R.data_) (rS : UMap.InRange S.data_) :
    UMap.InRange (FuzzyRelation.fromSets A B).data_ ∧
    (∀ U, R.Unite S = Except.ok U → UMap.InRange U.data_) ∧
    (∀ U, R.Union S = Except.ok U → UMap.InRange U.data_) ∧
    (∀ I, R.Intersect S = Except.ok I → UMap.InRange I.data_) ∧
    (∀ I, R.Intersection S = Except.ok I → UMap.InRange I.data_) ∧
    UMap.InRange R.Complement.data_ ∧ UMap.InRange R.Complementation.data_ ∧
    (∀ C, R.Composition S = Except.ok C → UMap.InRange C.data_) := by
  have _ := hA
  have _ := hB
  exact ⟨FuzzyRelation.InRange_fromSets A B rA rB,
    fun U h => FuzzyRelation.InRange_relation_Unite R S U rR rS h,
    fun U h => FuzzyRelation.InRange_relation_Unite R S U rR rS h,
    fun I h => FuzzyRelation.InRange_relation_Intersect R S I rR rS h,
    fun I h => FuzzyRelation.InRange_relation_Intersect R S I rR rS h,
    FuzzyRelation.InRange_relation_Complement R rR,
    FuzzyRelation.InRange_relation_Complement R rR,
    fun C h => FuzzyRelation.InRange_Composition R S C hR hS rR rS h⟩

/-- The relations of the composition test: the theorem C17 applies to them, and
their composition stores only degrees in `[0, 1]`. -/
theorem C17_fuzzy_relation_range_invariant_witness :
    UMap.InRange
      (⟨[((1, 5), 0.6), ((1, 6), 0.6), ((2, 5), 0.7), ((2, 6), 0.7)]⟩ : FuzzyRelation Nat).data_ :=
  (C17_fuzzy_relation_range_invariant (⟨[(1, 0.5), (2, 0.6)]⟩ : FuzzySet Nat)
    ⟨[(3, 0.7), (4, 0.8)]⟩
    ⟨[((1, 3), 0.5), ((1, 4), 0.6), ((2, 3), 0.7), ((2, 4), 0.8)]⟩
    ⟨[((3, 5), 0.9), ((3, 6), 0.8), ((4, 5), 0.7), ((4, 6), 0.6)]⟩
    (by decide) (by decide) (by decide) (by decide)
    (by decide!) (by decide!) (by decide!) (by decide!)).2.2.2.2.2.2.2 _ (by decide!)

/-- C18. For a fuzzy set `A`, `A.Complementation()` holds exactly the keys of
`A` and maps a key with degree `a` to `1 - a`. The same holds for the
complementation of a fuzzy relation over its stored pairs. The relation built
from `{1:0.5, 2:0.6}` and itself complements to `(1,1) ↦ 0.5` and
`(2,2) ↦ 0.4`, with four pairs. -/
theorem C18_complement_keys_and_values {K : Type} [DecidableEq K] (A : FuzzySet K)
    (R : FuzzyRelation K) (hA : UMap.WF A.data_) (hR : UMap.WF R.data_) :
    A.Complementation = A.Complement ∧ UMap.WF A.Complementation.data_ ∧
    (∀ k, k ∈ UMap.keys A.Complementation.data_ ↔ k ∈ UMap.keys A.data_) ∧
    (∀ k a, UMap.lookup A.data_ k = some a →
      UMap.lookup A.Complementation.data_ k = some (1 - a)) ∧
    R.Complementation = R.Complement ∧ UMap.WF R.Complementation.data_ ∧
    (∀ p, p ∈ UMap.keys R.Complementation.data_ ↔ p ∈ UMap.keys R.data_) ∧
    (∀ p a, UMap.lookup R.data_ p = some a →
      UMap.lookup R.Complementation.data_ p = some (1 - a)) ∧
    UMap.lookup (FuzzyRelation.fromSets (⟨[(1, 0.5), (2, 0.6)]⟩ : FuzzySet Nat)
      ⟨[(1, 0.5), (2, 0.6)]⟩).Complementation.data_ (1, 1) = some 0.5 ∧
    UMap.lookup (FuzzyRelation.fromSets (⟨[(1, 0.5), (2, 0.6)]⟩ : FuzzySet Nat)
      ⟨[(1, 0.5), (2, 0.6)]⟩).Complementation.data_ (2, 2) = some 0.4 ∧
    UMap.size (FuzzyRelation.fromSets (⟨[(1, 0.5), (2, 0.6)]⟩ : FuzzySet Nat)
      ⟨[(1, 0.5), (2, 0.6)]⟩).Complementation.data_ = 4 := by
  have hRk : UMap.keys R.Complementation.data_ = UMap.keys R.data_ :=
    UMap.keys_map_values R.data_ (fun v => 1 - v)
  refine ⟨rfl, FuzzySet.WF_Complement A hA, ?_, ?_, rfl, ?_, ?_, ?_,
    by decide!, by decide!, by decide!⟩
  · intro k
    show k ∈ UMap.keys A.Complement.data_ ↔ _
    rw [FuzzySet.keys_Complement]
  · intro k a ha
    show UMap.lookup A.Complement.data_ k = _
    rw [FuzzySet.lookup_Complement A hA, ha]
    rfl
  · unfold UMap.WF
    rw [hRk]
    exact hR
  · intro p
    rw [hRk]
  · intro p a ha
    show UMap.lookup (R.data_.map (fun e => (e.1, (fun v => 1 - v) e.2))) p = _
    rw [UMap.lookup_map_values, ha]
    rfl

/-- The set of the complementation test and the relation built from
`{1:0.5, 2:0.6}` and itself: the theorem C18 applies to them, and the key `2` of
the set maps to `1 - 0.3`. -/
theorem C18_complement_witness :
    UMap.lookup (FuzzySet.Complementation
      (⟨[(1, 0.5), (2, 0.3), (3, 0.7)]⟩ : FuzzySet Nat)).data_ 2 = some (1 - 0.3) :=
  (C18_complement_keys_and_values (⟨[(1, 0.5), (2, 0.3), (3, 0.7)]⟩ : FuzzySet Nat)
    (FuzzyRelation.fromSets (⟨[(1, 0.5), (2, 0.6)]⟩ : FuzzySet Nat) ⟨[(1, 0.5), (2, 0.6)]⟩)
    (by decide) (by decide)).2.2.2.1 2 0.3 (by decide!)

/-- The claim C19 fails: `1 - (1 - v)` in binary64 is not always `v`. The set
`{1:0.3}` stores the binary64 value of `0.3`, and its double complementation
stores the next binary64 value, `0.30000000000000004`, so it is not the same
set. For a degree outside `[0, 1]`, which the constructor from a map stores as it
is, `operator==` finds the two different: `{1:9007199254740994}` becomes
`{1:9007199254740992}`. -/
theorem C19_double_complement_changes_degree :
    IEEE.DMap.lookup (IEEE.FuzzySet.fromList [((1 : Nat), Double.nearest 0.3)]).data_ 1 =
      some (Double.fin (5404319552844595 / 2 ^ 54)) ∧
    IEEE.DMap.lookup (IEEE.FuzzySet.Complementation (IEEE.FuzzySet.Complementation
        (IEEE.FuzzySet.fromList [((1 : Nat), Double.nearest 0.3)]))).data_ 1 =
      some (Double.fin (5404319552844596 / 2 ^ 54)) ∧
    IEEE.FuzzySet.Complementation (IEEE.FuzzySet.Complementation
        (IEEE.FuzzySet.fromList [((1 : Nat), Double.nearest 0.3)])) ≠
      IEEE.FuzzySet.fromList [((1 : Nat), Double.nearest 0.3)] ∧
    IEEE.FuzzySet.Complementation (IEEE.FuzzySet.Complementation
        (IEEE.FuzzySet.fromMap [((1 : Nat), Double.fin 9007199254740994)])) =
      ⟨[(1, Double.fin 9007199254740992)]⟩ ∧
    IEEE.FuzzySet.operator_eq AbsOverload.floating
      (IEEE.FuzzySet.Complementation (IEEE.FuzzySet.Complementation
        (IEEE.FuzzySet.fromMap [((1 : Nat), Double.fin 9007199254740994)])))
      (IEEE.FuzzySet.fromMap [((1 : Nat), Double.fin 9007199254740994)]) = some false := by
  refine ⟨by decide!, by decide!, by decide!, by decide!, by decide!⟩

/-- C19, amended. For a fuzzy set `A` with degrees in `[0, 1]`, the
complementation of the complementation of `A` holds the keys of `A`, at every
key a degree within `2 ^ (-52)` of the one it has in `A`, and `operator==` finds
it equal to `A`. -/
theorem C19_double_complement {K : Type} [DecidableEq K] (A : IEEE.FuzzySet K)
    (hA : IEEE.DMap.WF A.data_) (rA : IEEE.DMap.InRange A.data_) :
    (∀ k, k ∈ IEEE.DMap.keys A.Complementation.Complementation.data_ ↔
      k ∈ IEEE.DMap.keys A.data_) ∧
    (∀ k q, IEEE.DMap.lookup A.data_ k = some (Double.fin q) →
      ∃ r, IEEE.DMap.lookup A.Complementation.Complementation.data_ k = some (Double.fin r) ∧
        |r - q| ≤ 1 / 2 ^ 52) ∧
    A.Complementation.Complementation.operator_eq AbsOverload.floating A = some true := by
  refine ⟨?_, ?_, IEEE.FuzzySet.double_Complement_eq A hA rA⟩
  · intro k
    show k ∈ IEEE.DMap.keys A.Complement.Complement.data_ ↔ _
    rw [IEEE.FuzzySet.keys_double_Complement A hA]
  · intro k q h
    exact IEEE.FuzzySet.lookup_double_Complement A hA rA k q h

/-- The set of the complementation test: the amended theorem C19 applies to it,
and its double complementation compares equal to it. -/
theorem C19_double_complement_witness :
    IEEE.FuzzySet.operator_eq AbsOverload.floating
      (IEEE.FuzzySet.Complementation (IEEE.FuzzySet.Complementation
        (IEEE.FuzzySet.fromList
          [((1 : Nat), Double.nearest 0.5), (2, Double.nearest 0.3), (3, Double.nearest 0.7)])))
      (IEEE.FuzzySet.fromList
        [((1 : Nat), Double.nearest 0.5), (2, Double.nearest 0.3), (3, Double.nearest 0.7)]) =
      some true :=
  (C19_double_complement
    (IEEE.FuzzySet.fromList
      [((1 : Nat), Double.nearest 0.5), (2, Double.nearest 0.3), (3, Double.nearest 0.7)])
    (by decide!) (by decide!)).2.2

/-- The claim C20 fails on a set that holds NaN, which `insert` admits:
`std::max` and `std::min` return their first argument when a comparison with
NaN is false. With `A = {1:NaN}` and `B = {1:0.25}`, `Union(A, B)` holds NaN at
the key `1` and `Union(B, A)` holds `0.25`; likewise for `Intersection`. -/
theorem C20_union_not_commutative_with_nan :
    IEEE.FuzzySet.insert (IEEE.FuzzySet.empty : IEEE.FuzzySet Nat) 1 Double.nan =
      ⟨[(1, Double.nan)]⟩ ∧
    IEEE.Union (⟨[(1, Double.nan)]⟩ : IEEE.FuzzySet Nat) ⟨[(1, Double.fin 0.25)]⟩ =
      ⟨[(1, Double.nan)]⟩ ∧
    IEEE.Union (⟨[(1, Double.fin 0.25)]⟩ : IEEE.FuzzySet Nat) ⟨[(1, Double.nan)]⟩ =
      ⟨[(1, Double.fin 0.25)]⟩ ∧
    IEEE.Intersection (⟨[(1, Double.nan)]⟩ : IEEE.FuzzySet Nat) ⟨[(1, Double.fin 0.25)]⟩ =
      ⟨[(1, Double.nan)]⟩ ∧
    IEEE.Intersection (⟨[(1, Double.fin 0.25)]⟩ : IEEE.FuzzySet Nat) ⟨[(1, Double.nan)]⟩ =
      ⟨[(1, Double.fin 0.25)]⟩ := by
  refine ⟨by decide!, by decide!, by decide!, by decide!, by decide!⟩

/-- C20, amended. For fuzzy sets `A` and `B` that hold no NaN, `Union(A, B)` and
`Union(B, A)` hold the same keys with the same degree at each key, and so do
`Intersection(A, B)` and `Intersection(B, A)`. -/
theorem C20_union_intersection_commutative {K : Type} [DecidableEq K] (A B : IEEE.FuzzySet K)
    (hA : IEEE.DMap.WF A.data_) (hB : IEEE.DMap.WF B.data_)
    (nA : IEEE.DMap.NoNaN A.data_) (nB : IEEE.DMap.NoNaN B.data_) :
    (∀ k, k ∈ IEEE.DMap.keys (IEEE.Union A B).data_ ↔
      k ∈ IEEE.DMap.keys (IEEE.Union B A).data_) ∧
    (∀ k, IEEE.DMap.lookup (IEEE.Union A B).data_ k =
      IEEE.DMap.lookup (IEEE.Union B A).data_ k) ∧
    (∀ k, k ∈ IEEE.DMap.keys (IEEE.Intersection A B).data_ ↔
      k ∈ IEEE.DMap.keys (IEEE.Intersection B A).data_) ∧
    (∀ k, IEEE.DMap.lookup (IEEE.Intersection A B).data_ k =
      IEEE.DMap.lookup (IEEE.Intersection B A).data_ k) := by
  have hU : ∀ k, IEEE.DMap.lookup (IEEE.Union A B).data_ k =
      IEEE.DMap.lookup (IEEE.Union B A).data_ k :=
    fun k => IEEE.FuzzySet.ieee_Unite_comm A B hA hB nA nB k
  have hI : ∀ k, IEEE.DMap.lookup (IEEE.Intersection A B).data_ k =
      IEEE.DMap.lookup (IEEE.Intersection B A).data_ k :=
    fun k => IEEE.FuzzySet.ieee_Intersect_comm A B hA hB nA nB k
  refine ⟨?_, hU, ?_, hI⟩
  · intro k
    rw [← IEEE.DMap.dmap_lookup_isSome_iff, ← IEEE.DMap.dmap_lookup_isSome_iff, hU k]
  · intro k
    rw [← IEEE.DMap.dmap_lookup_isSome_iff, ← IEEE.DMap.dmap_lookup_isSome_iff, hI k]

/-- The sets of the union test, with degrees that binary64 holds exactly: the
amended theorem C20 applies to them, and the key `3` has the same degree in the
union taken in either order. -/
theorem C20_union_intersection_commutative_witness :
    IEEE.DMap.lookup (IEEE.Union
      (⟨[(1, Double.fin 0.5), (2, Double.fin 0.25), (3, Double.fin 0.75)]⟩ : IEEE.FuzzySet Nat)
      ⟨[(2, Double.fin 0.375), (3, Double.fin 0.875), (4, Double.fin 0.625)]⟩).data_ 3 =
    IEEE.DMap.lookup (IEEE.Union
      (⟨[(2, Double.fin 0.375), (3, Double.fin 0.875), (4, Double.fin 0.625)]⟩ :
        IEEE.FuzzySet Nat)
      ⟨[(1, Double.fin 0.5), (2, Double.fin 0.25), (3, Double.fin 0.75)]⟩).data_ 3 :=
  (C20_union_intersection_commutative
    (⟨[(1, Double.fin 0.5), (2, Double.fin 0.25), (3, Double.fin 0.75)]⟩ : IEEE.FuzzySet Nat)
    ⟨[(2, Double.fin 0.375), (3, Double.fin 0.875), (4, Double.fin 0.625)]⟩
    (by decide) (by decide) (by decide) (by decide)).2.1 3

/-- The claim C21 fails on a set that holds NaN, which `insert` admits. With
`X = {1:0.25}`, `Y = {1:NaN}` and `Z = {1:0.75}`, `Union(Union(X, Y), Z)` holds
`0.75` at the key `1` and `Union(X, Union(Y, Z))` holds `0.25`; with
`X = {1:0.75}` and `Z = {1:0.25}` the two intersections hold `0.25` and `0.75`. -/
theorem C21_union_not_associative_with_nan :
    IEEE.Union (IEEE.Union (⟨[(1, Double.fin 0.25)]⟩ : IEEE.FuzzySet Nat) ⟨[(1, Double.nan)]⟩)
      ⟨[(1, Double.fin 0.75)]⟩ = ⟨[(1, Double.fin 0.75)]⟩ ∧
    IEEE.Union (⟨[(1, Double.fin 0.25)]⟩ : IEEE.FuzzySet Nat)
      (IEEE.Union ⟨[(1, Double.nan)]⟩ ⟨[(1, Double.fin 0.75)]⟩) = ⟨[(1, Double.fin 0.25)]⟩ ∧
    IEEE.Intersection
      (IEEE.Intersection (⟨[(1, Double.fin 0.75)]⟩ : IEEE.FuzzySet Nat) ⟨[(1, Double.nan)]⟩)
      ⟨[(1, Double.fin 0.25)]⟩ = ⟨[(1, Double.fin 0.25)]⟩ ∧
    IEEE.Intersection (⟨[(1, Double.fin 0.75)]⟩ : IEEE.FuzzySet Nat)
      (IEEE.Intersection ⟨[(1, Double.nan)]⟩ ⟨[(1, Double.fin 0.25)]⟩) =
        ⟨[(1, Double.fin 0.75)]⟩ := by
  refine ⟨by decide!, by decide!, by decide!, by decide!⟩

/-- C21, amended. For fuzzy sets `A`, `B`, `C` that hold no NaN,
`Union(Union(A, B), C)` and `Union(A, Union(B, C))` hold the same keys with the
same degree at each key, and so do `Intersection(Intersection(A, B), C)` and
`Intersection(A, Intersection(B, C))`. -/
theorem C21_union_intersection_associative {K : Type} [DecidableEq K]
    (A B C : IEEE.FuzzySet K)
    (hA : IEEE.DMap.WF A.data_) (hB : IEEE.DMap.WF B.data_) (hC : IEEE.DMap.WF C.data_)
    (nA : IEEE.DMap.NoNaN A.data_) (nB : IEEE.DMap.NoNaN B.data_)
    (nC : IEEE.DMap.NoNaN C.data_) :
    (∀ k, k ∈ IEEE.DMap.keys (IEEE.Union (IEEE.Union A B) C).data_ ↔
      k ∈ IEEE.DMap.keys (IEEE.Union A (IEEE.Union B C)).data_) ∧
    (∀ k, IEEE.DMap.lookup (IEEE.Union (IEEE.Union A B) C).data_ k =
      IEEE.DMap.lookup (IEEE.Union A (IEEE.Union B C)).data_ k) ∧
    (∀ k, k ∈ IEEE.DMap.keys (IEEE.Intersection (IEEE.Intersection A B) C).data_ ↔
      k ∈ IEEE.DMap.keys (IEEE.Intersection A (IEEE.Intersection B C)).data_) ∧
    (∀ k, IEEE.DMap.lookup (IEEE.Intersection (IEEE.Intersection A B) C).data_ k =
      IEEE.DMap.lookup (IEEE.Intersection A (IEEE.Intersection B C)).data_ k) := by
  have hU : ∀ k, IEEE.DMap.lookup (IEEE.Union (IEEE.Union A B) C).data_ k =
      IEEE.DMap.lookup (IEEE.Union A (IEEE.Union B C)).data_ k :=
    fun k => IEEE.FuzzySet.ieee_Unite_assoc A B C hB hC nA nB nC k
  have hI : ∀ k, IEEE.DMap.lookup (IEEE.Intersection (IEEE.Intersection A B) C).data_ k =
      IEEE.DMap.lookup (IEEE.Intersection A (IEEE.Intersection B C)).data_ k :=
    fun k => IEEE.FuzzySet.ieee_Intersect_assoc A B C hA hB nA nB nC k
  refine ⟨?_, hU, ?_, hI⟩
  · intro k
    rw [← IEEE.DMap.dmap_lookup_isSome_iff, ← IEEE.DMap.dmap_lookup_isSome_iff, hU k]
  · intro k
    rw [← IEEE.DMap.dmap_lookup_isSome_iff, ← IEEE.DMap.dmap_lookup_isSome_iff, hI k]

/-- Three sets over the keys `1` to `4`, with degrees that binary64 holds
exactly: the amended theorem C21 applies to them, and the key `2` has the same
degree in the union under either bracketing. -/
theorem C21_union_intersection_associative_witness :
    IEEE.DMap.lookup (IEEE.Union (IEEE.Union
      (⟨[(1, Double.fin 0.5), (2, Double.fin 0.25)]⟩ : IEEE.FuzzySet Nat)
      ⟨[(2, Double.fin 0.375), (3, Double.fin 0.75)]⟩)
      ⟨[(2, Double.fin 0.875), (4, Double.fin 0.625)]⟩).data_ 2 =
    IEEE.DMap.lookup (IEEE.Union
      (⟨[(1, Double.fin 0.5), (2, Double.fin 0.25)]⟩ : IEEE.FuzzySet Nat)
      (IEEE.Union ⟨[(2, Double.fin 0.375), (3, Double.fin 0.75)]⟩
        ⟨[(2, Double.fin 0.875), (4, Double.fin 0.625)]⟩)).data_ 2 :=
  (C21_union_intersection_associative
    (⟨[(1, Double.fin 0.5), (2, Double.fin 0.25)]⟩ : IEEE.FuzzySet Nat)
    ⟨[(2, Double.fin 0.375), (3, Double.fin 0.75)]⟩
    ⟨[(2, Double.fin 0.875), (4, Double.fin 0.625)]⟩
    (by decide) (by decide) (by decide) (by decide) (by decide) (by decide)).2.1 2

/-- The claim C22 fails on a set that holds NaN, which `insert` admits: the test
`abs(other.data_.at(key) - value) > 10e-12` is false when the difference is NaN.
The sets `{1:0}` and `{1:NaN}` compare equal, and so do the relations
`{(1,2):0}` and `{(1,2):NaN}`, while the two degrees are not within `10e-12` of
each other. When `abs` resolves to `int abs(int)` the difference loses its
fractional part first: `{1:0}` and `{1:0.75}` compare equal. -/
theorem C22_equality_true_across_nan :
    IEEE.FuzzySet.operator_eq AbsOverload.floating
      (⟨[(1, Double.fin 0)]⟩ : IEEE.FuzzySet Nat) ⟨[(1, Double.nan)]⟩ = some true ∧
    IEEE.FuzzyRelation.operator_eq AbsOverload.floating
      (⟨[((1, 2), Double.fin 0)]⟩ : IEEE.FuzzyRelation Nat) ⟨[((1, 2), Double.nan)]⟩ =
        some true ∧
    Double.le (Double.fabs (Double.sub Double.nan (Double.fin 0))) Double.tolerance = false ∧
    IEEE.FuzzySet.operator_eq AbsOverload.integral
      (⟨[(1, Double.fin 0)]⟩ : IEEE.FuzzySet Nat) ⟨[(1, Double.fin 0.75)]⟩ = some true ∧
    Double.le (Double.fabs (Double.sub (Double.fin 0.75) (Double.fin 0))) Double.tolerance =
      false := by
  refine ⟨by decide!, by decide!, by decide!, by decide!, by decide!⟩

/-- C22, amended. With `abs` the floating-point overload, for fuzzy sets, and
likewise fuzzy relations, `X == Y` is true exactly when `X` and `Y` have the same
number of entries and every key of `X` is a key of `Y` at which
`abs(Y(k) - X(k)) > 10e-12` is false; when the degrees are finite numbers, that
is `abs(Y(k) - X(k)) <= 10e-12`, in binary64 arithmetic. `X == Y` always returns,
and `X != Y` is its negation. -/
theorem C22_equality_definition {K : Type} [DecidableEq K] (X Y : IEEE.FuzzySet K)
    (R S : IEEE.FuzzyRelation K) (hX : IEEE.DMap.WF X.data_) (hR : IEEE.DMap.WF R.data_) :
    (X.operator_eq AbsOverload.floating Y = some true ↔
      IEEE.DMap.size X.data_ = IEEE.DMap.size Y.data_ ∧
      ∀ k x, IEEE.DMap.lookup X.data_ k = some x →
        ∃ y, IEEE.DMap.lookup Y.data_ k = some y ∧
          Double.gt (Double.fabs (Double.sub y x)) Double.tolerance = false) ∧
    (IEEE.DMap.Finite X.data_ → IEEE.DMap.Finite Y.data_ →
      (X.operator_eq AbsOverload.floating Y = some true ↔
        IEEE.DMap.size X.data_ = IEEE.DMap.size Y.data_ ∧
        ∀ k x, IEEE.DMap.lookup X.data_ k = some x →
          ∃ y, IEEE.DMap.lookup Y.data_ k = some y ∧
            Double.le (Double.fabs (Double.sub y x)) Double.tolerance = true)) ∧
    (∃ b, X.operator_eq AbsOverload.floating Y = some b ∧
      X.operator_ne AbsOverload.floating Y = some (!b)) ∧
    (R.operator_eq AbsOverload.floating S = some true ↔
      IEEE.DMap.size R.data_ = IEEE.DMap.size S.data_ ∧
      ∀ k x, IEEE.DMap.lookup R.data_ k = some x →
        ∃ y, IEEE.DMap.lookup S.data_ k = some y ∧
          Double.gt (Double.fabs (Double.sub y x)) Double.tolerance = false) ∧
    (IEEE.DMap.Finite R.data_ → IEEE.DMap.Finite S.data_ →
      (R.operator_eq AbsOverload.floating S = some true ↔
        IEEE.DMap.size R.data_ = IEEE.DMap.size S.data_ ∧
        ∀ k x, IEEE.DMap.lookup R.data_ k = some x →
          ∃ y, IEEE.DMap.lookup S.data_ k = some y ∧
            Double.le (Double.fabs (Double.sub y x)) Double.tolerance = true)) ∧
    (∃ b, R.operator_eq AbsOverload.floating S = some b ∧
      R.operator_ne AbsOverload.floating S = some (!b)) := by
  refine ⟨IEEE.FuzzySet.ieee_set_operator_eq_iff X Y hX, ?_, ?_,
    IEEE.FuzzyRelation.ieee_relation_operator_eq_iff R S hR, ?_, ?_⟩
  · intro fX fY
    rw [IEEE.FuzzySet.ieee_set_operator_eq_iff X Y hX,
      IEEE.DMap.not_gt_iff_le_of_finite X.data_ Y.data_ fX fY]
  · obtain ⟨b, hb⟩ := IEEE.FuzzySet.ieee_set_operator_eq_total X Y
    refine ⟨b, hb, ?_⟩
    unfold IEEE.FuzzySet.operator_ne
    rw [hb]
    rfl
  · intro fR fS
    rw [IEEE.FuzzyRelation.ieee_relation_operator_eq_iff R S hR,
      IEEE.DMap.not_gt_iff_le_of_finite R.data_ S.data_ fR fS]
  · obtain ⟨b, hb⟩ := IEEE.FuzzyRelation.ieee_relation_operator_eq_total R S
    refine ⟨b, hb, ?_⟩
    unfold IEEE.FuzzyRelation.operator_ne
    rw [hb]
    rfl

/-- The sets of the equality test, which differ at the key `2`, and the relation
of the constructor test: the amended theorem C22 applies to them, and `==` on the
two sets returns a value of which `!=` returns the negation. -/
theorem C22_equality_definition_witness :
    ∃ b, IEEE.FuzzySet.operator_eq AbsOverload.floating
        (IEEE.FuzzySet.fromList
          [((1 : Nat), Double.nearest 0.5), (2, Double.nearest 0.3), (3, Double.nearest 0.7)])
        (IEEE.FuzzySet.fromList
          [((1 : Nat), Double.nearest 0.5), (2, Double.nearest 0.4), (3, Double.nearest 0.7)]) =
        some b ∧
      IEEE.FuzzySet.operator_ne AbsOverload.floating
        (IEEE.FuzzySet.fromList
          [((1 : Nat), Double.nearest 0.5), (2, Double.nearest 0.3), (3, Double.nearest 0.7)])
        (IEEE.FuzzySet.fromList
          [((1 : Nat), Double.nearest 0.5), (2, Double.nearest 0.4), (3, Double.nearest 0.7)]) =
        some (!b) :=
  (C22_equality_definition
    (IEEE.FuzzySet.fromList
      [((1 : Nat), Double.nearest 0.5), (2, Double.nearest 0.3), (3, Double.nearest 0.7)])
    (IEEE.FuzzySet.fromList
      [((1 : Nat), Double.nearest 0.5), (2, Double.nearest 0.4), (3, Double.nearest 0.7)])
    (⟨[((1, 3), Double.fin 0.5), ((1, 4), Double.fin 0.5)]⟩ : IEEE.FuzzyRelation Nat)
    ⟨[((1, 3), Double.fin 0.5), ((1, 4), Double.fin 0.5)]⟩
    (by decide!) (by decide)).2.2.1

/-- C23. For fuzzy sets and fuzzy relations, `X == X` holds, and `X == Y` and
`Y == X` have the same value. -/
theorem C23_equality_reflexive_symmetric {K : Type} [DecidableEq K] (X Y : FuzzySet K)
    (R S : FuzzyRelation K) (hX : UMap.WF X.data_) (hY : UMap.WF Y.data_)
    (hR : UMap.WF R.data_) (hS : UMap.WF S.data_) :
    X.operator_eq X = true ∧ (X.operator_eq Y = true ↔ Y.operator_eq X = true) ∧
    R.operator_eq R = true ∧ (R.operator_eq S = true ↔ S.operator_eq R = true) :=
  ⟨FuzzySet.set_operator_eq_of_lookup_eq X X hX hX (fun _ => rfl),
    ⟨FuzzySet.set_operator_eq_symm X Y hX hY, FuzzySet.set_operator_eq_symm Y X hY hX⟩,
    FuzzyRelation.operator_eq_of_lookup_eq R R hR hR (fun _ => rfl),
    ⟨FuzzyRelation.relation_operator_eq_symm R S hR hS,
      FuzzyRelation.relation_operator_eq_symm S R hS hR⟩⟩

/-- The sets of the equality test and two relations with the same entries in a
different order: the theorem C23 applies to them, and the relation `==` holds in
one direction exactly when it holds in the other. -/
theorem C23_equality_reflexive_symmetric_witness :
    FuzzyRelation.operator_eq (⟨[((1, 3), 0.5), ((1, 4), 0.5)]⟩ : FuzzyRelation Nat)
      ⟨[((1, 4), 0.5), ((1, 3), 0.5)]⟩ = true ↔
    FuzzyRelation.operator_eq (⟨[((1, 4), 0.5), ((1, 3), 0.5)]⟩ : FuzzyRelation Nat)
      ⟨[((1, 3), 0.5), ((1, 4), 0.5)]⟩ = true :=
  (C23_equality_reflexive_symmetric (⟨[(1, 0.5), (2, 0.3), (3, 0.7)]⟩ : FuzzySet Nat)
    ⟨[(1, 0.5), (2, 0.4), (3, 0.7)]⟩
    (⟨[((1, 3), 0.5), ((1, 4), 0.5)]⟩ : FuzzyRelation Nat) ⟨[((1, 4), 0.5), ((1, 3), 0.5)]⟩
    (by decide) (by decide) (by decide) (by decide)).2.2.2

/-- The claim C24 fails: the sets `{1:0.5}`, `{1:0.500000000008}` and
`{1:0.500000000016}` are equal to their neighbour under `==`, and the first is
not equal to the third; likewise for relations with one pair. -/
theorem C24_equality_not_transitive :
    FuzzySet.operator_eq (⟨[(1, 0.5)]⟩ : FuzzySet Nat) ⟨[(1, 0.500000000008)]⟩ = true ∧
    FuzzySet.operator_eq (⟨[(1, 0.500000000008)]⟩ : FuzzySet Nat)
      ⟨[(1, 0.500000000016)]⟩ = true ∧
    FuzzySet.operator_eq (⟨[(1, 0.5)]⟩ : FuzzySet Nat) ⟨[(1, 0.500000000016)]⟩ = false ∧
    FuzzyRelation.operator_eq (⟨[((1, 2), 0.5)]⟩ : FuzzyRelation Nat)
      ⟨[((1, 2), 0.500000000008)]⟩ = true ∧
    FuzzyRelation.operator_eq (⟨[((1, 2), 0.500000000008)]⟩ : FuzzyRelation Nat)
      ⟨[((1, 2), 0.500000000016)]⟩ = true ∧
    FuzzyRelation.operator_eq (⟨[((1, 2), 0.5)]⟩ : FuzzyRelation Nat)
      ⟨[((1, 2), 0.500000000016)]⟩ = false := by
  refine ⟨by decide!, by decide!, by decide!, by decide!, by decide!, by decide!⟩

/-- C24, amended. With `abs` the floating-point overload, for fuzzy sets, and
likewise fuzzy relations, with degrees in `[0, 1]`: if `X == Y` and `Y == Z`
then `X` and `Z` have the same number of entries and every key of `X` is a key of
`Z` with the two degrees at most `2.0001e-11` apart, twice the tolerance and the
rounding of the two subtractions. -/
theorem C24_equality_chain_doubles_tolerance {K : Type} [DecidableEq K]
    (X Y Z : IEEE.FuzzySet K) (R S T : IEEE.FuzzyRelation K)
    (rX : IEEE.DMap.InRange X.data_) (rY : IEEE.DMap.InRange Y.data_)
    (rZ : IEEE.DMap.InRange Z.data_) (rR : IEEE.DMap.InRange R.data_)
    (rS : IEEE.DMap.InRange S.data_) (rT : IEEE.DMap.InRange T.data_)
    (hXY : X.operator_eq AbsOverload.floating Y = some true)
    (hYZ : Y.operator_eq AbsOverload.floating Z = some true)
    (hRS : R.operator_eq AbsOverload.floating S = some true)
    (hST : S.operator_eq AbsOverload.floating T = some true) :
    (IEEE.DMap.size X.data_ = IEEE.DMap.size Z.data_ ∧
      ∀ k x, IEEE.DMap.lookup X.data_ k = some (Double.fin x) →
        ∃ z, IEEE.DMap.lookup Z.data_ k = some (Double.fin z) ∧ |x - z| ≤ 2.0001e-11) ∧
    (IEEE.DMap.size R.data_ = IEEE.DMap.size T.data_ ∧
      ∀ k x, IEEE.DMap.lookup R.data_ k = some (Double.fin x) →
        ∃ z, IEEE.DMap.lookup T.data_ k = some (Double.fin z) ∧ |x - z| ≤ 2.0001e-11) := by
  obtain ⟨h1, h2⟩ := IEEE.FuzzySet.ieee_set_operator_eq_close X Y hXY
  obtain ⟨h3, h4⟩ := IEEE.FuzzySet.ieee_set_operator_eq_close Y Z hYZ
  obtain ⟨h5, h6⟩ := IEEE.FuzzyRelation.ieee_relation_operator_eq_close R S hRS
  obtain ⟨h7, h8⟩ := IEEE.FuzzyRelation.ieee_relation_operator_eq_close S T hST
  exact ⟨⟨h1.trans h3, IEEE.DMap.chain_close _ _ _ rX rY rZ h2 h4⟩,
    ⟨h5.trans h7, IEEE.DMap.chain_close _ _ _ rR rS rT h6 h8⟩⟩

/-- Three sets and three relations in binary64 that are equal to their neighbour
under `==`: the amended theorem C24 applies to them, and the degrees of the
first and the third are at most `2.0001e-11` apart. -/
theorem C24_equality_chain_witness :
    ∃ z, IEEE.DMap.lookup (⟨[(1, Double.fin (0.5 + 3 / 2 ^ 38))]⟩ : IEEE.FuzzySet Nat).data_ 1 =
        some (Double.fin z) ∧ |0.5 - z| ≤ 2.0001e-11 :=
  (C24_equality_chain_doubles_tolerance (⟨[(1, Double.fin 0.5)]⟩ : IEEE.FuzzySet Nat)
    ⟨[(1, Double.fin (0.5 + 2 / 2 ^ 38))]⟩ ⟨[(1, Double.fin (0.5 + 3 / 2 ^ 38))]⟩
    (⟨[((1, 2), Double.fin 0.5)]⟩ : IEEE.FuzzyRelation Nat)
    ⟨[((1, 2), Double.fin (0.5 + 2 / 2 ^ 38))]⟩ ⟨[((1, 2), Double.fin (0.5 + 3 / 2 ^ 38))]⟩
    (by decide!) (by decide!) (by decide!) (by decide!) (by decide!) (by decide!)
    (by decide!) (by decide!) (by decide!) (by decide!)).1.2 1 0.5 (by decide!)

/-- C25. For a fuzzy set `S` and a key `k`: `S.at(k)` returns the stored degree
when `k` is a key and fails with the lookup error when it is not; `S[k]` returns
the stored degree and leaves `S` as it is when `k` is a key, and otherwise
returns `0` and adds the one entry `k ↦ 0`, keeping every other entry. The
member `at` is `const`: it has no state to change. -/
theorem C25_at_and_index {K : Type} [DecidableEq K] (S : FuzzySet K) (k : K) :
    (∀ v, UMap.lookup S.data_ k = some v →
      S.at k = Except.ok v ∧ S.operator_index k = (v, S)) ∧
    (UMap.lookup S.data_ k = none →
      S.at k = Except.error FuzzyError.out_of_range ∧
      (S.operator_index k).1 = 0 ∧
      UMap.lookup (S.operator_index k).2.data_ k = some 0 ∧
      (∀ k', k' ≠ k →
        UMap.lookup (S.operator_index k).2.data_ k' = UMap.lookup S.data_ k') ∧
      (∀ k', k' ∈ UMap.keys (S.operator_index k).2.data_ ↔ k' = k ∨ k' ∈ UMap.keys S.data_) ∧
      UMap.size (S.operator_index k).2.data_ = UMap.size S.data_ + 1) := by
  constructor
  · intro v hv
    simp [FuzzySet.at, FuzzySet.operator_index, hv]
  · intro hk
    have hidx : S.operator_index k = (0, ⟨UMap.assign S.data_ k 0⟩) := by
      simp [FuzzySet.operator_index, hk]
    rw [hidx]
    refine ⟨by simp [FuzzySet.at, hk], rfl, ?_, ?_, ?_, ?_⟩
    · simp [UMap.lookup_assign]
    · intro k' hk'
      have hne : ¬ k = k' := fun hh => hk' hh.symm
      simp [UMap.lookup_assign, hne]
    · intro k'
      exact UMap.mem_keys_assign _ _ _ _
    · simp [UMap.assign_of_lookup_none _ _ _ hk, UMap.size]

/-- C26. For fuzzy sets `A` and `B`, the free function `Implication(A, B, type)`
returns a relation that holds exactly the pairs of a key of `A` and a key of `B`
and maps `(x, y)`, with `a = A(x)` and `b = B(y)`, to `a * b` for
`ALGPRODUCT`, `min a b` for `MINIMUM` and `max (1 - a) b` for `ZADEHMAXMIN`,
whatever the formula of the fourth type. For `A = {1:0.5, 2:0.6}` and
`B = {3:0.7, 4:0.8}` the degrees at `(1,3)`, `(1,4)`, `(2,3)`, `(2,4)` are
`0.35, 0.4, 0.42, 0.48` and `0.7, 0.8, 0.7, 0.8`. -/
theorem C26_implication_relation {K : Type} [DecidableEq K] (zadeh_arithmetic : ℚ → ℚ → ℚ)
    (A B : FuzzySet K) :
    (∀ type, UMap.WF (Fuzzy.Implication zadeh_arithmetic A B type).data_) ∧
    (∀ type x y, (x, y) ∈ UMap.keys (Fuzzy.Implication zadeh_arithmetic A B type).data_ ↔
      x ∈ UMap.keys A.data_ ∧ y ∈ UMap.keys B.data_) ∧
    (∀ x y a b, UMap.lookup A.data_ x = some a → UMap.lookup B.data_ y = some b →
      UMap.lookup (Fuzzy.Implication zadeh_arithmetic A B ImplicationType.ALGPRODUCT).data_
        (x, y) = some (a * b) ∧
      UMap.lookup (Fuzzy.Implication zadeh_arithmetic A B ImplicationType.MINIMUM).data_
        (x, y) = some (min a b) ∧
      UMap.lookup (Fuzzy.Implication zadeh_arithmetic A B ImplicationType.ZADEHMAXMIN).data_
        (x, y) = some (max (1 - a) b)) ∧
    (Fuzzy.Implication zadeh_arithmetic (⟨[(1, 0.5), (2, 0.6)]⟩ : FuzzySet Nat)
        ⟨[(3, 0.7), (4, 0.8)]⟩ ImplicationType.ALGPRODUCT).data_ =
      [((1, 3), 0.35), ((1, 4), 0.4), ((2, 3), 0.42), ((2, 4), 0.48)] ∧
    (Fuzzy.Implication zadeh_arithmetic (⟨[(1, 0.5), (2, 0.6)]⟩ : FuzzySet Nat)
        ⟨[(3, 0.7), (4, 0.8)]⟩ ImplicationType.ZADEHMAXMIN).data_ =
      [((1, 3), 0.7), ((1, 4), 0.8), ((2, 3), 0.7), ((2, 4), 0.8)] := by
  refine ⟨fun type => WF_cartesian_insert _ _ _,
    fun type x y => mem_keys_cartesian_insert _ _ _ x y, ?_, ?_, ?_⟩
  · intro x y a b ha hb
    refine ⟨?_, ?_, ?_⟩
    · show UMap.lookup (cartesian_insert A.data_ B.data_ (fun a b => a * b)) (x, y) = _
      rw [lookup_cartesian_insert, ha, hb]; rfl
    · show UMap.lookup (cartesian_insert A.data_ B.data_ (fun a b => min a b)) (x, y) = _
      rw [lookup_cartesian_insert, ha, hb]; rfl
    · show UMap.lookup (cartesian_insert A.data_ B.data_ (fun a b => max (1 - a) b)) (x, y) = _
      rw [lookup_cartesian_insert, ha, hb]; rfl
  · show (FuzzyRelation.fromSetsWith (⟨[(1, 0.5), (2, 0.6)]⟩ : FuzzySet Nat)
      ⟨[(3, 0.7), (4, 0.8)]⟩ (fun a b => a * b)).data_ = _
    decide!
  · show (FuzzyRelation.fromSetsWith (⟨[(1, 0.5), (2, 0.6)]⟩ : FuzzySet Nat)
      ⟨[(3, 0.7), (4, 0.8)]⟩ (fun a b => max (1 - a) b)).data_ = _
    decide!

/-- C27. The free functions `Union` and `Intersection` on fuzzy sets and
`Union`, `Intersection`, `Complementation` and `Composition` on fuzzy relations
return what the member of the same name returns. The free function
`Complementation` on fuzzy sets calls the member `Complement` on its argument:
it returns the complementation, and its argument `{1:0.3}` is `{1:0.7}` after
the call. -/
theorem C27_free_complementation_changes_argument :
    (∀ A B : FuzzySet Nat, Fuzzy.Union A B = A.Union B) ∧
    (∀ A B : FuzzySet Nat, Fuzzy.Intersection A B = A.Intersection B) ∧
    (∀ R S : FuzzyRelation Nat, Relations.Union R S = R.Union S) ∧
    (∀ R S : FuzzyRelation Nat, Relations.Intersection R S = R.Intersection S) ∧
    (∀ R : FuzzyRelation Nat, Relations.Complementation R = R.Complementation) ∧
    (∀ R S : FuzzyRelation Nat, Relations.Composition R S = R.Composition S) ∧
    (∀ A : FuzzySet Nat, (Fuzzy.Complementation A).1 = A.Complementation) ∧
    (Fuzzy.Complementation (⟨[(1, 0.3)]⟩ : FuzzySet Nat)).2 = ⟨[(1, 0.7)]⟩ ∧
    (Fuzzy.Complementation (⟨[(1, 0.3)]⟩ : FuzzySet Nat)).2 ≠ ⟨[(1, 0.3)]⟩ := by
  refine ⟨fun _ _ => rfl, fun _ _ => rfl, fun _ _ => rfl, fun _ _ => rfl, fun _ => rfl,
    fun _ _ => rfl, fun _ => rfl, by decide!, by decide!⟩

/-- C28. The operator `+` returns `Union(A, B)` and leaves `A` as it is. The
operator `*` returns `Intersection(A, B)` and changes `A`: after `A * B` with
`A = {1:0.5, 2:0.3, 3:0.7}` and `B = {2:0.4, 3:0.8, 4:0.6}`, `A` is
`{2:0.3, 3:0.7}`. -/
theorem C28_operator_mul_changes_left_operand :
    (∀ A B : FuzzySet Nat, A.operator_add B = (Fuzzy.Union A B, A)) ∧
    (∀ A B : FuzzySet Nat, (A.operator_mul B).1 = Fuzzy.Intersection A B) ∧
    (FuzzySet.operator_mul (⟨[(1, 0.5), (2, 0.3), (3, 0.7)]⟩ : FuzzySet Nat)
      ⟨[(2, 0.4), (3, 0.8), (4, 0.6)]⟩).2 = ⟨[(2, 0.3), (3, 0.7)]⟩ ∧
    (FuzzySet.operator_mul (⟨[(1, 0.5), (2, 0.3), (3, 0.7)]⟩ : FuzzySet Nat)
      ⟨[(2, 0.4), (3, 0.8), (4, 0.6)]⟩).2 ≠ ⟨[(1, 0.5), (2, 0.3), (3, 0.7)]⟩ := by
  refine ⟨fun _ _ => rfl, fun _ _ => rfl, by decide!, by decide!⟩

/-- C29. For fuzzy relations `R` and `S` whose key sets differ, `R.Unite(S)` and
`R.Intersect(S)` signal their error and leave `R` with the entries it had. The
relation `S` is a reference to `const`. -/
theorem C29_relation_unite_intersect_atomic {K : Type} [DecidableEq K] (R S : FuzzyRelation K)
    (hR : UMap.WF R.data_) (hS : UMap.WF S.data_)
    (hdiff : ¬ ∀ p, p ∈ UMap.keys R.data_ ↔ p ∈ UMap.keys S.data_) :
    R.Unite_run S = (some FuzzyError.unite_order, R) ∧
    R.Intersect_run S = (some FuzzyError.intersect_order, R) ∧
    R.Unite S = Except.error FuzzyError.unite_order ∧
    R.Intersect S = Except.error FuzzyError.intersect_order := by
  have hf := FuzzyRelation.have_same_keys_false R S hR hS hdiff
  have h1 : R.Unite_run S = (some FuzzyError.unite_order, R) := by
    unfold FuzzyRelation.Unite_run; rw [hf]; rfl
  have h2 : R.Intersect_run S = (some FuzzyError.intersect_order, R) := by
    unfold FuzzyRelation.Intersect_run; rw [hf]; rfl
  refine ⟨h1, h2, ?_, ?_⟩
  · rw [FuzzyRelation.Unite_run_spec, h1]
  · rw [FuzzyRelation.Intersect_run_spec, h2]

/-- The relations of the union test, built from `{1:0.5, 2:0.6}` and
`{3:0.7, 4:0.8}` in the two orders: the theorem C29 applies to them, and the
failed `Unite` leaves the left relation as it was. -/
theorem C29_relation_unite_intersect_atomic_witness :
    FuzzyRelation.Unite_run
      (FuzzyRelation.fromSets (⟨[(1, 0.5), (2, 0.6)]⟩ : FuzzySet Nat) ⟨[(3, 0.7), (4, 0.8)]⟩)
      (FuzzyRelation.fromSets ⟨[(3, 0.7), (4, 0.8)]⟩ ⟨[(1, 0.5), (2, 0.6)]⟩) =
    (some FuzzyError.unite_order,
      FuzzyRelation.fromSets (⟨[(1, 0.5), (2, 0.6)]⟩ : FuzzySet Nat) ⟨[(3, 0.7), (4, 0.8)]⟩) :=
  (C29_relation_unite_intersect_atomic
    (FuzzyRelation.fromSets (⟨[(1, 0.5), (2, 0.6)]⟩ : FuzzySet Nat) ⟨[(3, 0.7), (4, 0.8)]⟩)
    (FuzzyRelation.fromSets ⟨[(3, 0.7), (4, 0.8)]⟩ ⟨[(1, 0.5), (2, 0.6)]⟩)
    (by decide) (by decide)
    (fun h => absurd ((h (1, 3)).1 (by decide)) (by decide))).1

/-- C30. For composable fuzzy relations `R` and `S`, the first components of the
keys of `R.Composition(S)` are those of the keys of `R`, and the second
components are those of the keys of `S`. So when `S` and `T` are composable too,
`R∘S` and `T` are composable, and so are `R` and `S∘T`. -/
theorem C30_composition_outer_universes {K : Type} [DecidableEq K] (R S T : FuzzyRelation K)
    (hR : UMap.WF R.data_) (hS : UMap.WF S.data_) (hT : UMap.WF T.data_)
    (hRS : composable R.data_ S.data_ = true) :
    ∃ RS, R.Composition S = Except.ok RS ∧
      (∀ x, (∃ z, (x, z) ∈ UMap.keys RS.data_) ↔ (∃ y, (x, y) ∈ UMap.keys R.data_)) ∧
      (∀ z, (∃ x, (x, z) ∈ UMap.keys RS.data_) ↔ (∃ y, (y, z) ∈ UMap.keys S.data_)) ∧
      (composable S.data_ T.data_ = true →
        composable RS.data_ T.data_ = true ∧
        ∃ ST, S.Composition T = Except.ok ST ∧ composable R.data_ ST.data_ = true) := by
  have hc := (composable_iff _ _).1 hRS
  obtain ⟨RS, hC⟩ := FuzzyRelation.Composition_ok R S hc
  obtain ⟨h1, h2⟩ := FuzzyRelation.Composition_outer R S RS hR hS hc hC
  refine ⟨RS, hC, h1, h2, ?_⟩
  intro hST
  have hc' := (composable_iff _ _).1 hST
  obtain ⟨ST, hC'⟩ := FuzzyRelation.Composition_ok S T hc'
  obtain ⟨h3, _⟩ := FuzzyRelation.Composition_outer S T ST hS hT hc' hC'
  refine ⟨(composable_iff _ _).2 ?_, ST, hC', (composable_iff _ _).2 ?_⟩
  · intro t
    rw [h2 t]
    exact hc' t
  · intro t
    rw [h3 t]
    exact hc t

/-- The relations of the composition test and a third one over `{5,6}` and
`{7}`: the theorem C30 applies to them, and the composition is defined. -/
theorem C30_composition_outer_universes_witness :
    ∃ RS, FuzzyRelation.Composition
        (⟨[((1, 3), 0.5), ((1, 4), 0.6), ((2, 3), 0.7), ((2, 4), 0.8)]⟩ : FuzzyRelation Nat)
        ⟨[((3, 5), 0.9), ((3, 6), 0.8), ((4, 5), 0.7), ((4, 6), 0.6)]⟩ = Except.ok RS ∧
      (composable (⟨[((3, 5), 0.9), ((3, 6), 0.8), ((4, 5), 0.7), ((4, 6), 0.6)]⟩ :
          FuzzyRelation Nat).data_
        (⟨[((5, 7), 0.3), ((6, 7), 0.9)]⟩ : FuzzyRelation Nat).data_ = true →
        composable RS.data_ (⟨[((5, 7), 0.3), ((6, 7), 0.9)]⟩ : FuzzyRelation Nat).data_ = true) :=
  (C30_composition_outer_universes
    (⟨[((1, 3), 0.5), ((1, 4), 0.6), ((2, 3), 0.7), ((2, 4), 0.8)]⟩ : FuzzyRelation Nat)
    ⟨[((3, 5), 0.9), ((3, 6), 0.8), ((4, 5), 0.7), ((4, 6), 0.6)]⟩
    ⟨[((5, 7), 0.3), ((6, 7), 0.9)]⟩
    (by decide) (by decide) (by decide) (by decide)).imp
    (fun _ h => ⟨h.1, fun hST => (h.2.2.2 hST).1⟩)

/-- C31. For fuzzy relations `R` and `S` with the same key set,
`Complementation(Union(R, S))` and
`Intersection(Complementation(R), Complementation(S))` are both defined, hold
the same keys and the same degree at every pair, and `operator==` finds them
equal. -/
theorem C31_relation_de_morgan {K : Type} [DecidableEq K] (R S : FuzzyRelation K)
    (hR : UMap.WF R.data_) (hS : UMap.WF S.data_)
    (hk : ∀ p, p ∈ UMap.keys R.data_ ↔ p ∈ UMap.keys S.data_) :
    ∃ U I, Relations.Union R S = Except.ok U ∧
      Relations.Intersection (Relations.Complementation R) (Relations.Complementation S) =
        Except.ok I ∧
      (∀ p, p ∈ UMap.keys (Relations.Complementation U).data_ ↔ p ∈ UMap.keys I.data_) ∧
      (∀ p, UMap.lookup (Relations.Complementation U).data_ p = UMap.lookup I.data_ p) ∧
      (∀ p a b, UMap.lookup R.data_ p = some a → UMap.lookup S.data_ p = some b →
        UMap.lookup I.data_ p = some (1 - max a b)) ∧
      (Relations.Complementation U).operator_eq I = true := by
  have hRc := FuzzyRelation.WF_relation_Complement R hR
  have hSc := FuzzyRelation.WF_relation_Complement S hS
  have hkc : ∀ p, p ∈ UMap.keys R.Complement.data_ ↔ p ∈ UMap.keys S.Complement.data_ := by
    intro p
    rw [FuzzyRelation.keys_relation_Complement, FuzzyRelation.keys_relation_Complement]
    exact hk p
  obtain ⟨U, hU, hUk, hUv⟩ := (FuzzyRelation.Unite_spec R S hR hS).2 hk
  obtain ⟨I, hI, hIk, _⟩ :=
    (FuzzyRelation.Intersect_spec R.Complement S.Complement hRc hSc).2 hkc
  have hd : U.Complement.data_ = I.data_ :=
    FuzzyRelation.de_morgan_data R S U I hR hS hk hU hI
  have hIW : UMap.WF I.data_ := by
    unfold UMap.WF; rw [hIk]; exact hRc
  refine ⟨U, I, hU, hI, ?_, ?_, ?_, ?_⟩
  · intro p
    show p ∈ UMap.keys U.Complement.data_ ↔ _
    rw [hd]
  · intro p
    show UMap.lookup U.Complement.data_ p = _
    rw [hd]
  · intro p a b ha hb
    rw [← hd, FuzzyRelation.lookup_relation_Complement, hUv p a b ha hb]
    rfl
  · refine FuzzyRelation.operator_eq_of_lookup_eq _ I ?_ hIW ?_
    · show UMap.WF U.Complement.data_
      rw [hd]; exact hIW
    · intro p
      show UMap.lookup U.Complement.data_ p = _
      rw [hd]

/-- Two relations over the pairs `(1,3)` and `(1,4)`: the theorem C31 applies to
them, and both sides of the law are defined. -/
theorem C31_relation_de_morgan_witness :
    ∃ U I, Relations.Union (⟨[((1, 3), 0.5), ((1, 4), 0.6)]⟩ : FuzzyRelation Nat)
        ⟨[((1, 4), 0.2), ((1, 3), 0.9)]⟩ = Except.ok U ∧
      Relations.Intersection
        (Relations.Complementation (⟨[((1, 3), 0.5), ((1, 4), 0.6)]⟩ : FuzzyRelation Nat))
        (Relations.Complementation ⟨[((1, 4), 0.2), ((1, 3), 0.9)]⟩) = Except.ok I ∧
      (Relations.Complementation U).operator_eq I = true :=
  (C31_relation_de_morgan (⟨[((1, 3), 0.5), ((1, 4), 0.6)]⟩ : FuzzyRelation Nat)
    ⟨[((1, 4), 0.2), ((1, 3), 0.9)]⟩ (by decide) (by decide)
    (by
      intro p
      simp only [UMap.keys, List.map_cons, List.map_nil, List.mem_cons, List.mem_singleton,
        List.not_mem_nil, or_false]
      exact or_comm)).imp
    (fun _ h => h.imp (fun _ h' => ⟨h'.1, h'.2.1, h'.2.2.2.2.2⟩))

end Fuzzy
